import Mathlib

/-!
# ethexporter: a shallow embedding of `main.go`

The development follows the source file top to bottom:

* Go strings are byte sequences (`GoString`);
* `math/big.Float` at the precision the program uses (53 bits, round to nearest even),
  with `SetInt`, `Mul` and `String` (`Text('g', 10)`), as used by `ToEther`;
* `UpdateAddressMetrics`, with the five chain reads given as `Option` results and the clock
  reading given as an argument;
* `MetricsHttp`, returning the response body, or nothing when the handler panics while it
  sums the balances;
* `OpenAddressesFromEnv`, with `os.Environ()` given as an argument and the package-level
  slice `allWatching` passed in and out;
* one sweep of the refresh loop of `main` (semaphore channel, `WaitGroup`, one goroutine per
  target) as a transition system over schedules.
-/

namespace Ethexporter

/-! ## Go strings -/

/-- A Go `string`: an immutable sequence of bytes. -/
abbrev GoString := List UInt8

/-- The bytes of a string literal of the source (UTF-8, as the Go compiler stores it). -/
def lit (s : String) : GoString := s.toUTF8.data.toList

/-! ## `math/big`: the part `ToEther` uses -/

/-- Number of bits of `n`, by halving; the first argument bounds the number of halvings. -/
def bitLenAux : Nat → Nat → Nat
  | 0, _ => 0
  | fuel + 1, n => if n = 0 then 0 else bitLenAux fuel (n / 2) + 1

/-- The `BitLen` of a natural number: `0` for `0`, else the position of the top set bit. -/
def bitLen (n : Nat) : Nat := bitLenAux n n

/-- A `big.Float` that is zero or finite: sign, integer mantissa and binary exponent, of value
`(-1)^neg * mant * 2^exp`; `mant = 0` is the form `zero`. The precision is not stored: every
`Float` of the program is made by `big.NewFloat`, which fixes it at 53 bits, and the rounding
mode is the default `ToNearestEven`. -/
structure BigFloat where
  neg : Bool
  mant : Nat
  exp : Int
deriving DecidableEq, Repr

/-- Rounding of `m * 2^e` to `prec` mantissa bits, to nearest, ties to even
(`Float.round` in mode `ToNearestEven`). -/
def roundMant (prec m : Nat) (e : Int) : Nat × Int :=
  let n := bitLen m
  if n ≤ prec then (m, e)
  else
    let s := n - prec
    let q := m / 2 ^ s
    let r := m % 2 ^ s
    let half := 2 ^ (s - 1)
    if half < r ∨ (r = half ∧ q % 2 = 1) then (q + 1, e + (s : Int)) else (q, e + (s : Int))

/-- The precision of a `Float` made by `big.NewFloat`. -/
def floatPrec : Nat := 53

/-- Method `z.SetInt(x)` for a receiver `z` of precision 53: `x` rounded to 53 bits. -/
def BigFloat.SetInt (x : Int) : BigFloat :=
  let r := roundMant floatPrec x.natAbs 0
  { neg := decide (x < 0), mant := r.1, exp := r.2 }

/-- Method `z.Mul(x, y)` for a receiver `z` of precision 53 and finite or zero operands: the exact
product rounded to 53 bits; the sign is the exclusive or of the signs. -/
def BigFloat.Mul (x y : BigFloat) : BigFloat :=
  if x.mant = 0 ∨ y.mant = 0 then { neg := x.neg != y.neg, mant := 0, exp := 0 }
  else
    let r := roundMant floatPrec (x.mant * y.mant) (x.exp + y.exp)
    { neg := x.neg != y.neg, mant := r.1, exp := r.2 }

/-- The `float64` constant `0.000000000000000001` of the source, that is
`0x1.2725dd1d243acp-60 = 5192296858534828 * 2^(-112)`, as `big.NewFloat` stores it. -/
def float64_1e_18 : BigFloat := { neg := false, mant := 5192296858534828, exp := -112 }

/-- Function `ToEther` of the source: `pul.Mul(big.NewFloat(0.000000000000000001), int)` where
`int.SetInt(o)`; both `pul` and `int` come from `big.NewFloat(0)`. -/
def ToEther (o : Int) : BigFloat :=
  BigFloat.Mul float64_1e_18 (BigFloat.SetInt o)

/-! ### Decimal conversion and formatting (`math/big` `decimal.go`, `ftoa.go`) -/

/-- Decimal digits of `n`, most significant first, prepended to `acc`; `[]` for `0`. -/
def natDigitsAux : Nat → Nat → List Nat → List Nat
  | 0, _, acc => acc
  | fuel + 1, n, acc => if n = 0 then acc else natDigitsAux fuel (n / 10) (n % 10 :: acc)

/-- Decimal digits of `n`, most significant first (`utoa(10)`); `[]` for `0`. -/
def natDigits (n : Nat) : List Nat := natDigitsAux n n []

/-- Removal of the zeros at the end of a digit list. -/
def trimZeros (ds : List Nat) : List Nat :=
  (ds.reverse.dropWhile (fun d => d == 0)).reverse

/-- The multiprecision `decimal` of `math/big`: digits `mant` without trailing zeros and the
position `exp` of the decimal point, of value `0.mant * 10^exp`. -/
structure Decimal where
  mant : List Nat
  exp : Int
deriving DecidableEq, Repr

/-- Function `trim` of `decimal.go`: trailing zeros go, and an empty mantissa has exponent 0. -/
def Decimal.trim (x : Decimal) : Decimal :=
  let m := trimZeros x.mant
  { mant := m, exp := if m.length = 0 then 0 else x.exp }

/-- Method `decimal.init(m, shift)`: the exact decimal expansion of `m * 2^shift`. For a negative
shift `m * 2^shift = m * 5^(-shift) * 10^shift`. -/
def Decimal.init (m : Nat) (shift : Int) : Decimal :=
  if m = 0 then { mant := [], exp := 0 }
  else if 0 ≤ shift then
    let s := natDigits (m * 2 ^ shift.toNat)
    { mant := trimZeros s, exp := (s.length : Int) }
  else
    let s := natDigits (m * 5 ^ (-shift).toNat)
    { mant := trimZeros s, exp := (s.length : Int) + shift }

/-- Function `shouldRoundUp(x, n)` for `0 ≤ n < len(x.mant)`: halfway cases go to the even digit. -/
def Decimal.shouldRoundUp (x : Decimal) (n : Nat) : Bool :=
  if x.mant.getD n 0 = 5 ∧ n + 1 = x.mant.length then
    decide (0 < n ∧ x.mant.getD (n - 1) 0 % 2 ≠ 0)
  else
    decide (5 ≤ x.mant.getD n 0)

/-- The loop of `roundUp`: the largest `k ≤ n` with `k = 0` or digit `k - 1` below 9. -/
def firstBelowNine (mant : List Nat) : Nat → Nat
  | 0 => 0
  | k + 1 => if 9 ≤ mant.getD k 0 then firstBelowNine mant k else k + 1

/-- Method `x.roundUp(n)` for `0 ≤ n < len(x.mant)`. -/
def Decimal.roundUp (x : Decimal) (n : Nat) : Decimal :=
  let k := firstBelowNine x.mant n
  if k = 0 then { mant := [1], exp := x.exp + 1 }
  else { mant := (x.mant.take k).set (k - 1) (x.mant.getD (k - 1) 0 + 1), exp := x.exp }

/-- Method `x.roundDown(n)` for `0 ≤ n < len(x.mant)`. -/
def Decimal.roundDown (x : Decimal) (n : Nat) : Decimal :=
  Decimal.trim { mant := x.mant.take n, exp := x.exp }

/-- Method `x.round(n)`: at most `n` digits are kept; nothing happens for `n < 0` or
`n ≥ len(x.mant)`. -/
def Decimal.round (x : Decimal) (n : Int) : Decimal :=
  if n < 0 ∨ (x.mant.length : Int) ≤ n then x
  else if x.shouldRoundUp n.toNat then x.roundUp n.toNat else x.roundDown n.toNat

/-- The ASCII digit of `d`. -/
def digitByte (d : Nat) : UInt8 := UInt8.ofNat (48 + d)

/-- Method `d.at(i)`: the digit at index `i`, `0` outside the mantissa. -/
def Decimal.digitAt (d : Decimal) (i : Int) : Nat :=
  if 0 ≤ i ∧ i < (d.mant.length : Int) then d.mant.getD i.toNat 0 else 0

/-- Function `fmtE(buf, 'e', prec, d)` from an empty buffer: `d.ddddde±dd`. -/
def fmtE (prec : Int) (d : Decimal) : GoString :=
  let first : GoString := [digitByte (d.mant.getD 0 0)]
  let more : GoString :=
    if 0 < prec then
      let m := min d.mant.length (prec.toNat + 1)
      lit "." ++ ((d.mant.take m).drop 1).map digitByte
        ++ List.replicate (prec.toNat + 1 - max m 1) (digitByte 0)
    else []
  let exp : Int := if 0 < d.mant.length then d.exp - 1 else 0
  let sign : GoString := if exp < 0 then lit "-" else lit "+"
  let pad : GoString := if exp.natAbs < 10 then lit "0" else []
  first ++ more ++ lit "e" ++ sign ++ pad ++ lit (Nat.repr exp.natAbs)

/-- Function `fmtF(buf, prec, d)` from an empty buffer: `ddddd.ddddd`. -/
def fmtF (prec : Int) (d : Decimal) : GoString :=
  let intPart : GoString :=
    if 0 < d.exp then
      let m := min d.mant.length d.exp.toNat
      (d.mant.take m).map digitByte ++ List.replicate (d.exp.toNat - m) (digitByte 0)
    else lit "0"
  let frac : GoString :=
    if 0 < prec then
      lit "." ++ (List.range prec.toNat).map
        (fun (i : Nat) => digitByte (d.digitAt (d.exp + (i : Int))))
    else []
  intPart ++ frac

/-- Steps 1 and 2 of `Float.Append`: the exact decimal of `x` (zero for the form `zero`),
rounded to `n` digits. -/
def BigFloat.roundedDecimal (x : BigFloat) (n : Int) : Decimal :=
  let d0 : Decimal := if x.mant ≠ 0 then Decimal.init x.mant x.exp else { mant := [], exp := 0 }
  d0.round n

/-- Method `x.Text('g', prec)` for `prec ≥ 0` and a zero or finite `x`: `%e` is used when the decimal
exponent is below -4 or not below the precision, `%f` otherwise. -/
def BigFloat.Text_g (x : BigFloat) (prec : Int) : GoString :=
  let sign : GoString := if x.neg then lit "-" else []
  let prec1 : Int := if prec = 0 then 1 else prec
  let d := x.roundedDecimal prec1
  let eprec : Int :=
    if (d.mant.length : Int) < prec1 ∧ d.exp ≤ (d.mant.length : Int) then (d.mant.length : Int)
    else prec1
  let exp := d.exp - 1
  if exp < -4 ∨ eprec ≤ exp then
    let p : Int := if (d.mant.length : Int) < prec1 then (d.mant.length : Int) else prec1
    sign ++ fmtE (p - 1) d
  else
    let p : Int := if d.exp < prec1 then (d.mant.length : Int) else prec1
    sign ++ fmtF (max (p - d.exp) 0) d

/-- Method `x.String()`, which is `x.Text('g', 10)`. -/
def BigFloat.String (x : BigFloat) : GoString := x.Text_g 10

/-! ## The watched addresses -/

/-- The `Watching` struct of the source. `uint64` fields are naturals, `int` and `int64`
fields are integers. -/
structure Watching where
  Name : GoString
  Address : GoString
  Balance : GoString
  BalancePending : GoString
  Nonce : Nat
  NoncePending : Nat
  IsContract : Bool
  CodeSize : Int
  LastUpdated : Int
deriving DecidableEq, Repr

/-- What the five reads of one call of `UpdateAddressMetrics` return from the chain client:
`some v` when `err == nil`, `none` when the read failed or ran into the 5 second deadline. -/
structure ChainReads where
  BalanceAt : Option Int
  PendingBalanceAt : Option Int
  NonceAt : Option Nat
  PendingNonceAt : Option Nat
  CodeAt : Option (List UInt8)
deriving DecidableEq, Repr

/-- Function `UpdateAddressMetrics(w)`: the locals start at their zero values, each successful read
assigns its local, and all seven fields are then stored under the lock. `now` is
`time.Now().Unix()`. -/
def UpdateAddressMetrics (w : Watching) (eth : ChainReads) (now : Int) : Watching :=
  let balanceStr : GoString :=
    match eth.BalanceAt with
    | some bal => (ToEther bal).String
    | none => []
  let pendingStr : GoString :=
    match eth.PendingBalanceAt with
    | some pbal => (ToEther pbal).String
    | none => []
  let nonce : Nat :=
    match eth.NonceAt with
    | some n => n
    | none => 0
  let pnonce : Nat :=
    match eth.PendingNonceAt with
    | some pn => pn
    | none => 0
  let codeSize : Int :=
    match eth.CodeAt with
    | some code => (code.length : Int)
    | none => 0
  let isContract : Bool :=
    match eth.CodeAt with
    | some code => decide (0 < code.length)
    | none => false
  { w with
    Balance := balanceStr
    BalancePending := pendingStr
    Nonce := nonce
    NoncePending := pnonce
    IsContract := isContract
    CodeSize := codeSize
    LastUpdated := now }

/-! ## Rendering -/

/-- Decimal text of an integer, as the verbs `%d` and `%v` print an `int` or `int64`. -/
def fmtInt (i : Int) : GoString :=
  if i < 0 then lit "-" ++ lit (Nat.repr i.natAbs) else lit (Nat.repr i.natAbs)

/-- Decimal text of a natural number, as `%d` and `%v` print a `uint64` or a length. -/
def fmtNat (n : Nat) : GoString := lit (Nat.repr n)

/-- The balance text a line shows: `"0"` in place of the empty string. -/
def orZero (s : GoString) : GoString := if s = [] then lit "0" else s

/-- A `big.Float` as far as `total.Add` tells values apart: zero or finite, with a value of
type `V`, or an infinity with its sign. -/
inductive FloatValue (V : Type) where
  | finite (v : V)
  | inf (neg : Bool)
deriving DecidableEq, Repr

/-- The parts of `math/big` behind `bal.SetString` and `total.Add` that are taken as given:
the value of `big.NewFloat(0)`, the value a fresh `Float` holds after `SetString(s)` for a
text `s` that is not an infinity literal (whether or not the text parses), and the sum of two
finite values, which is an infinity when the exponent overflows. -/
structure FloatOps (V : Type) where
  zero : V
  scan : GoString → FloatValue V
  addFinite : V → V → FloatValue V

/-- The value of `bal` after `bal := big.NewFloat(0); bal.SetString(s)`: `Float.Parse` sets
an infinity for `Inf`, `inf`, `+Inf`, `+inf`, `-Inf` and `-inf` and scans every other text. -/
def SetString {V : Type} (ops : FloatOps V) (s : GoString) : FloatValue V :=
  if s = lit "Inf" ∨ s = lit "inf" ∨ s = lit "+Inf" ∨ s = lit "+inf" then FloatValue.inf false
  else if s = lit "-Inf" ∨ s = lit "-inf" then FloatValue.inf true
  else ops.scan s

/-- The value of `z` after `z.Add(x, y)`, or `none` when `Add` panics with `ErrNaN`, which it
does for infinities of opposite signs. An infinity absorbs a finite value. -/
def Add {V : Type} (ops : FloatOps V) : FloatValue V → FloatValue V → Option (FloatValue V)
  | FloatValue.finite x, FloatValue.finite y => some (ops.addFinite x y)
  | FloatValue.inf a, FloatValue.inf b => if a = b then some (FloatValue.inf a) else none
  | FloatValue.inf a, FloatValue.finite _ => some (FloatValue.inf a)
  | FloatValue.finite _, FloatValue.inf b => some (FloatValue.inf b)

/-- The variables the loop of `MetricsHttp` updates. -/
structure RenderState (V : Type) where
  allOut : List GoString
  total : FloatValue V
  contracts : Nat
  eoas : Nat

/-- One iteration of `for _, v := range allWatching` in `MetricsHttp`; `none` when
`total.Add(total, bal)` panics. -/
def renderStep {V : Type} (ops : FloatOps V) (metricPrefix : GoString) (st : RenderState V)
    (v : Watching) : Option (RenderState V) :=
  let balStr := orZero v.Balance
  let bal := SetString ops balStr
  match Add ops st.total bal with
  | none => none
  | some total =>
    let out1 := st.allOut ++
      [metricPrefix ++ lit "eth_balance\x7bname=\"" ++ v.Name ++ lit "\",address=\""
        ++ v.Address ++ lit "\"\x7d " ++ balStr]
    let pbalStr := orZero v.BalancePending
    let out2 := out1 ++
      [metricPrefix ++ lit "eth_balance_pending\x7bname=\"" ++ v.Name ++ lit "\",address=\""
        ++ v.Address ++ lit "\"\x7d " ++ pbalStr]
    let out3 := out2 ++
      [metricPrefix ++ lit "eth_nonce\x7bname=\"" ++ v.Name ++ lit "\",address=\""
        ++ v.Address ++ lit "\"\x7d " ++ fmtNat v.Nonce]
    let out4 := out3 ++
      [metricPrefix ++ lit "eth_nonce_pending\x7bname=\"" ++ v.Name ++ lit "\",address=\""
        ++ v.Address ++ lit "\"\x7d " ++ fmtNat v.NoncePending]
    let st5 : RenderState V :=
      if v.IsContract then
        { allOut := out4 ++
            [metricPrefix ++ lit "eth_is_contract\x7bname=\"" ++ v.Name ++ lit "\",address=\""
              ++ v.Address ++ lit "\"\x7d 1"],
          total := total, contracts := st.contracts + 1, eoas := st.eoas }
      else
        { allOut := out4 ++
            [metricPrefix ++ lit "eth_is_contract\x7bname=\"" ++ v.Name ++ lit "\",address=\""
              ++ v.Address ++ lit "\"\x7d 0"],
          total := total, contracts := st.contracts, eoas := st.eoas + 1 }
    let out6 := st5.allOut ++
      [metricPrefix ++ lit "eth_code_size_bytes\x7bname=\"" ++ v.Name ++ lit "\",address=\""
        ++ v.Address ++ lit "\"\x7d " ++ fmtInt v.CodeSize]
    let out7 := out6 ++
      [metricPrefix ++ lit "eth_last_updated_unixtime\x7bname=\"" ++ v.Name
        ++ lit "\",address=\"" ++ v.Address ++ lit "\"\x7d " ++ fmtInt v.LastUpdated]
    some { st5 with allOut := out7 }

/-- The loop of `MetricsHttp` from state `st`; `none` when an iteration panics. -/
def renderLoop {V : Type} (ops : FloatOps V) (metricPrefix : GoString) :
    List Watching → RenderState V → Option (RenderState V)
  | [], st => some st
  | v :: rest, st =>
    match renderStep ops metricPrefix st v with
    | none => none
    | some st1 => renderLoop ops metricPrefix rest st1

/-- The slice `allOut` that `MetricsHttp` joins, or `none` when the handler panics before it
gets there. `loadSecondsText` is the text `%0.2f` gives for the `float64` global
`loadSeconds`; `totalLoaded` is the `int64` global. -/
def MetricsHttp.allOut {V : Type} (ops : FloatOps V) (metricPrefix : GoString)
    (allWatching : List Watching) (loadSecondsText : GoString) (totalLoaded : Int) :
    Option (List GoString) :=
  match renderLoop ops metricPrefix allWatching
      { allOut := [], total := FloatValue.finite ops.zero, contracts := 0, eoas := 0 } with
  | none => none
  | some st =>
    some (st.allOut ++
      [ metricPrefix ++ lit "eth_contract_addresses_total " ++ fmtNat st.contracts,
        metricPrefix ++ lit "eth_eoa_addresses_total " ++ fmtNat st.eoas,
        metricPrefix ++ lit "eth_load_seconds " ++ loadSecondsText,
        metricPrefix ++ lit "eth_loaded_addresses " ++ fmtInt totalLoaded,
        metricPrefix ++ lit "eth_total_addresses " ++ fmtNat allWatching.length ])

/-- Function `strings.Join(elems, "\n")`. -/
def joinLines : List GoString → GoString
  | [] => []
  | [a] => a
  | a :: b :: rest => a ++ lit "\n" ++ joinLines (b :: rest)

/-- The body `MetricsHttp` writes, `fmt.Fprintln(w, strings.Join(allOut, "\n"))`, or `none`
when the handler panics and writes nothing. -/
def MetricsHttp {V : Type} (ops : FloatOps V) (metricPrefix : GoString)
    (allWatching : List Watching) (loadSecondsText : GoString) (totalLoaded : Int) :
    Option GoString :=
  match MetricsHttp.allOut ops metricPrefix allWatching loadSecondsText totalLoaded with
  | none => none
  | some out => some (joinLines out ++ lit "\n")

/-! ## Loading the addresses from the environment -/

/-- Function `strings.SplitN(s, "=", 2)`: the parts before and after the first `=`, or `s` alone when
it has none. -/
def SplitN2 : GoString → List GoString
  | [] => [[]]
  | c :: rest =>
    if c = 61 then [[], rest]
    else
      match SplitN2 rest with
      | [a, b] => [c :: a, b]
      | _ => [c :: rest]

/-- The code points `unicode.IsSpace` accepts: tab to carriage return, space, U+0085, U+00A0
and the rest of the `White_Space` property. -/
def spaceRunes : List Nat :=
  [0x09, 0x0A, 0x0B, 0x0C, 0x0D, 0x20, 0x85, 0xA0, 0x1680,
   0x2000, 0x2001, 0x2002, 0x2003, 0x2004, 0x2005, 0x2006, 0x2007, 0x2008, 0x2009, 0x200A,
   0x2028, 0x2029, 0x202F, 0x205F, 0x3000]

/-- The UTF-8 encodings of the white space runes. A string starts (ends) with one of them exactly
when its first (last) rune, as `utf8.DecodeRune` (`DecodeLastRune`) reads it, is white space. -/
def spaceEncodings : List GoString :=
  spaceRunes.map (fun r => String.utf8EncodeChar (Char.ofNat r))

/-- The string without one leading white space rune, if it starts with one. -/
def stripSpaceLeft (s : GoString) : Option GoString :=
  (spaceEncodings.find? (fun e => e.isPrefixOf s)).map (fun e => s.drop e.length)

/-- The string without one trailing white space rune, if it ends with one. -/
def stripSpaceRight (s : GoString) : Option GoString :=
  (spaceEncodings.find? (fun e => e.isSuffixOf s)).map (fun e => s.take (s.length - e.length))

/-- Repetition of a step that shortens the string, at most `fuel` times. -/
def stripAll (step : GoString → Option GoString) : Nat → GoString → GoString
  | 0, s => s
  | fuel + 1, s =>
    match step s with
    | some t => stripAll step fuel t
    | none => s

/-- Function `strings.TrimSpace(s)`: all leading and trailing white space runes removed. -/
def TrimSpace (s : GoString) : GoString :=
  let l := stripAll stripSpaceLeft s.length s
  stripAll stripSpaceRight l.length l

/-- Function `strings.ToLower` on the bytes below 0x80: `A` to `Z` go to `a` to `z`. Bytes from 0x80
on are kept as they are: the lowering of non-ASCII runes is outside this model. No non-ASCII
rune lowers to a letter of `ethaddr_`, so the test against that prefix does not depend on it. -/
def ToLower (s : GoString) : GoString :=
  s.map (fun c => if 65 ≤ c ∧ c ≤ 90 then c + 32 else c)

/-- Function `strings.HasPrefix(s, p)`. -/
def HasPrefix (s p : GoString) : Bool := p.isPrefixOf s

/-- Function `isHexCharacter` of go-ethereum `common`. -/
def isHexCharacter (c : UInt8) : Bool :=
  (48 ≤ c && c ≤ 57) || (97 ≤ c && c ≤ 102) || (65 ≤ c && c ≤ 70)

/-- Function `isHex` of go-ethereum `common`: even length, hex characters only. -/
def isHex (str : GoString) : Bool :=
  if str.length % 2 ≠ 0 then false else str.all isHexCharacter

/-- Function `has0xPrefix` of go-ethereum `common`. -/
def has0xPrefix (str : GoString) : Bool :=
  match str with
  | c0 :: c1 :: _ => c0 = 48 && (c1 = 120 || c1 = 88)
  | _ => false

/-- Constant `common.AddressLength`. -/
def AddressLength : Nat := 20

/-- Function `common.IsHexAddress(s)`: 40 hex characters after an optional `0x` or `0X`. -/
def IsHexAddress (s : GoString) : Bool :=
  let t := if has0xPrefix s then s.drop 2 else s
  t.length = 2 * AddressLength && isHex t

/-- The error `OpenAddressesFromEnv` returns ("no addresses found in environment with prefix
..."), with the prefix it names. -/
inductive LoadError where
  | noAddresses (envPrefix : GoString)
deriving DecidableEq, Repr

/-- The variables the loop of `OpenAddressesFromEnv` updates. -/
structure LoadState where
  allWatching : List Watching
  loaded : Nat
deriving DecidableEq, Repr

/-- One iteration of `for _, env := range os.Environ()`; each `continue` gives the state
back unchanged. The slice `key[len(envPrefix):]` is in range whenever it is reached, see
`key_slice_in_range`. -/
def loadStep (envPrefix lowerPrefix : GoString) (st : LoadState) (env : GoString) : LoadState :=
  match SplitN2 env with
  | [key, raw] =>
    let val := TrimSpace raw
    if !HasPrefix (ToLower key) lowerPrefix then st
    else
      let name := key.drop envPrefix.length
      if IsHexAddress val then
        { allWatching := st.allWatching ++
            [{ Name := name, Address := val, Balance := lit "0", BalancePending := lit "0",
               Nonce := 0, NoncePending := 0, IsContract := false, CodeSize := 0,
               LastUpdated := 0 }],
          loaded := st.loaded + 1 }
      else st
  | _ => st

/-- Function `OpenAddressesFromEnv(envPrefix)`: `environ` is `os.Environ()`, `allWatching` the
package-level slice before the call. The result is that slice after the call and the error
returned (`none` for `nil`). -/
def OpenAddressesFromEnv (envPrefix : GoString) (environ : List GoString)
    (allWatching : List Watching) : List Watching × Option LoadError :=
  let envPrefix := if envPrefix = [] then lit "ethaddr_" else envPrefix
  let lowerPrefix := ToLower envPrefix
  let st := environ.foldl (loadStep envPrefix lowerPrefix)
    { allWatching := allWatching, loaded := 0 }
  if st.loaded = 0 then (st.allWatching, some (LoadError.noAddresses envPrefix))
  else (st.allWatching, none)

/-- The rational value `(-1)^neg * mant * 2^exp` of a `BigFloat`. -/
def BigFloat.toRat (x : BigFloat) : ℚ :=
  (if x.neg then -1 else 1) * (x.mant : ℚ) * (2 : ℚ) ^ x.exp

/-! ## The registry as the specification describes it -/

/-- The prefix `main` passes to `OpenAddressesFromEnv`, also used for an empty argument. -/
def defaultPrefix : GoString := lit "ethaddr_"

/-- The watch target the specification assigns to one entry `key=value` of the listing, if
any: the key starts with the prefix up to the case of ASCII letters, and the value, trimmed
of surrounding white space, is a valid address. The name is the key without its first
`len(prefix)` bytes, the address is the trimmed value, both balances are `"0"` and every
counter is zero. -/
def registryEntry (envPrefix : GoString) (env : GoString) : Option Watching :=
  match SplitN2 env with
  | [key, value] =>
    if ToLower (key.take envPrefix.length) = ToLower envPrefix ∧ IsHexAddress (TrimSpace value)
    then
      some { Name := key.drop envPrefix.length, Address := TrimSpace value,
             Balance := lit "0", BalancePending := lit "0", Nonce := 0, NoncePending := 0,
             IsContract := false, CodeSize := 0, LastUpdated := 0 }
    else none
  | _ => none

/-- The listing of the specification's registry example; the value of `ethaddr_alice` has 39
hex digits after `0x`. -/
def specListing : List GoString :=
  [ lit "ethaddr_alice=0x52908400098527886E0F7030069857D2E4169EE",
    lit "ethaddr_bob=not-an-address",
    lit "OTHER_KEY=x" ]

/-- The same listing with a 40-digit address for `ethaddr_alice`. -/
def fixedListing : List GoString :=
  [ lit "ethaddr_alice=0x52908400098527886E0F7030069857D2E4169EE7",
    lit "ethaddr_bob=not-an-address",
    lit "OTHER_KEY=x" ]

/-! ## Sample data -/

/-- An observation with every field set, used to show what a sweep overwrites. -/
def sampleWatching : Watching :=
  { Name := lit "alice", Address := lit "0x52908400098527886E0F7030069857D2E4169EE7",
    Balance := lit "2.5", BalancePending := lit "2.5", Nonce := 7, NoncePending := 8,
    IsContract := true, CodeSize := 5, LastUpdated := 1700000000 }

/-- Chain reads that all fail. -/
def allReadsFail : ChainReads :=
  { BalanceAt := none, PendingBalanceAt := none, NonceAt := none, PendingNonceAt := none,
    CodeAt := none }

/-- Chain reads of which only `NonceAt` fails. -/
def onlyNonceFails : ChainReads :=
  { BalanceAt := some 1000000000000000000, PendingBalanceAt := some 500000000000000000,
    NonceAt := none, PendingNonceAt := some 9, CodeAt := some [0x60, 0x80] }

/-- An observation that was never updated successfully: stored balances empty. -/
def sampleBlank : Watching :=
  { Name := lit "bob", Address := lit "0xde709f2102306220921060314715629080e2fb77",
    Balance := [], BalancePending := [], Nonce := 0, NoncePending := 0,
    IsContract := false, CodeSize := 0, LastUpdated := 1700000060 }

/-- A registry of two targets. -/
def sampleRegistry : List Watching := [sampleWatching, sampleBlank]

/-! ## Watch targets as the specification describes them -/

/-- Equality of two bytes up to the case of ASCII letters. -/
def EqFold (c d : UInt8) : Prop :=
  c = d ∨ (65 ≤ c ∧ c ≤ 90 ∧ c + 32 = d) ∨ (65 ≤ d ∧ d ≤ 90 ∧ d + 32 = c)

/-- White space: the UTF-8 text of a string of Unicode white space characters. -/
def IsWhiteSpace (s : GoString) : Prop :=
  ∃ cs : List Char, (∀ c ∈ cs, c.toNat ∈ spaceRunes) ∧ s = lit (String.mk cs)

/-- A syntactically valid chain address: 40 hexadecimal digits, with or without a leading
`0x` or `0X`. -/
def ValidAddress (a : GoString) : Prop :=
  ∃ h : GoString, (a = h ∨ a = lit "0x" ++ h ∨ a = lit "0X" ++ h) ∧ h.length = 40 ∧
    ∀ c ∈ h, c ∈ lit "0123456789abcdefABCDEF"

/-- The entry `env` of the listing yields the watch target `w`: the entry reads
`key=value` with no `=` in the key, the key is a case variant of the prefix followed by the
name, and the value is the address with white space around it; balances are `"0"` and the
counters zero. -/
def IsWatchTarget (envPrefix env : GoString) (w : Watching) : Prop :=
  ∃ pre name l addr r : GoString,
    env = pre ++ name ++ lit "=" ++ l ++ addr ++ r ∧
    (61 : UInt8) ∉ pre ++ name ∧
    List.Forall₂ EqFold pre envPrefix ∧
    IsWhiteSpace l ∧ IsWhiteSpace r ∧ ValidAddress addr ∧
    w = { Name := name, Address := addr, Balance := lit "0", BalancePending := lit "0",
          Nonce := 0, NoncePending := 0, IsContract := false, CodeSize := 0,
          LastUpdated := 0 }

/-- A listing with entries of every kind: no `=`, a foreign key, a key in capitals with white
space around a `0X` address, an invalid address, a key shorter than the prefix, and a plain
entry with a second `=` in a value that is not an address. -/
def mixedListing : List GoString :=
  [ lit "PATH",
    lit "OTHER_KEY=0x52908400098527886E0F7030069857D2E4169EE7",
    lit "ETHADDR_Carol= \t0X8617E340B3D01FA5F11F306F4090FD50E238070D\r\n",
    lit "ethaddr_bob=not-an-address",
    lit "eth=0x52908400098527886E0F7030069857D2E4169EE7",
    lit "ethaddr_eve=0x52908400098527886E0F7030069857D2E4169EE7=",
    lit "EthAddr_=de709f2102306220921060314715629080e2fb77 " ]

/-! ## The rendering as the specification describes it -/

/-- The running `total` of `MetricsHttp` on its own: its value after the loop from `t`, or
`none` when one of the additions panics. -/
def runningTotal {V : Type} (ops : FloatOps V) :
    FloatValue V → List Watching → Option (FloatValue V)
  | t, [] => some t
  | t, v :: rest =>
    match Add ops t (SetString ops (orZero v.Balance)) with
    | none => none
    | some t1 => runningTotal ops t1 rest

/-- The seven lines of one target in the order of the exposition grammar, each labelled with
the name and the address of the target. -/
def addressBlock (p : GoString) (v : Watching) : List GoString :=
  [ p ++ lit "eth_balance\x7bname=\"" ++ v.Name ++ lit "\",address=\"" ++ v.Address
      ++ lit "\"\x7d " ++ (if v.Balance = [] then lit "0" else v.Balance),
    p ++ lit "eth_balance_pending\x7bname=\"" ++ v.Name ++ lit "\",address=\"" ++ v.Address
      ++ lit "\"\x7d " ++ (if v.BalancePending = [] then lit "0" else v.BalancePending),
    p ++ lit "eth_nonce\x7bname=\"" ++ v.Name ++ lit "\",address=\"" ++ v.Address
      ++ lit "\"\x7d " ++ lit (toString v.Nonce),
    p ++ lit "eth_nonce_pending\x7bname=\"" ++ v.Name ++ lit "\",address=\"" ++ v.Address
      ++ lit "\"\x7d " ++ lit (toString v.NoncePending),
    p ++ lit "eth_is_contract\x7bname=\"" ++ v.Name ++ lit "\",address=\"" ++ v.Address
      ++ lit "\"\x7d " ++ (if v.IsContract then lit "1" else lit "0"),
    p ++ lit "eth_code_size_bytes\x7bname=\"" ++ v.Name ++ lit "\",address=\"" ++ v.Address
      ++ lit "\"\x7d " ++ lit (toString v.CodeSize),
    p ++ lit "eth_last_updated_unixtime\x7bname=\"" ++ v.Name ++ lit "\",address=\""
      ++ v.Address ++ lit "\"\x7d " ++ lit (toString v.LastUpdated) ]

/-- The five aggregate lines. -/
def aggregateBlock (p : GoString) (ws : List Watching) (ls : GoString) (tl : Int) :
    List GoString :=
  [ p ++ lit "eth_contract_addresses_total " ++ lit (toString (ws.countP (fun v => v.IsContract))),
    p ++ lit "eth_eoa_addresses_total " ++ lit (toString (ws.countP (fun v => !v.IsContract))),
    p ++ lit "eth_load_seconds " ++ ls,
    p ++ lit "eth_loaded_addresses " ++ lit (toString tl),
    p ++ lit "eth_total_addresses " ++ lit (toString ws.length) ]

/-- The text of a Go string whose bytes are ASCII, for comparison with a string literal. -/
def asText (s : GoString) : String := String.mk (s.map (fun b => Char.ofNat b.toNat))

/-- The lines of a text: `strings.Split(s, "\n")`. -/
def splitLines : GoString → List GoString
  | [] => [[]]
  | c :: rest =>
    if c = 10 then [] :: splitLines rest
    else
      match splitLines rest with
      | l :: ls => (c :: l) :: ls
      | [] => [[c]]

/-- A float library in which every scanned text is finite and no sum overflows, as is the case
for the balances the program writes. -/
def plainOps : FloatOps Unit :=
  { zero := (), scan := fun _ => FloatValue.finite (), addFinite := fun _ _ => FloatValue.finite () }

/-- The texts with which the twelve kinds of lines start, after the metric prefix. -/
def lineTags : List GoString :=
  [ lit "eth_balance\x7bname=\"", lit "eth_balance_pending\x7bname=\"",
    lit "eth_nonce\x7bname=\"", lit "eth_nonce_pending\x7bname=\"",
    lit "eth_is_contract\x7bname=\"", lit "eth_code_size_bytes\x7bname=\"",
    lit "eth_last_updated_unixtime\x7bname=\"", lit "eth_contract_addresses_total ",
    lit "eth_eoa_addresses_total ", lit "eth_load_seconds ", lit "eth_loaded_addresses ",
    lit "eth_total_addresses " ]

/-- A listing whose single entry has a key with line feeds in it: the name it yields is
`a"} 1`, a line feed, `eth_total_addresses 999`, a line feed, and `x`. -/
def injectedListing : List GoString :=
  [ lit "ethaddr_a\"\x7d 1\neth_total_addresses 999\nx=0x52908400098527886E0F7030069857D2E4169EE7" ]

/-! ## Reading a decimal numeral -/

/-- The number a list of decimal digits, most significant first, stands for. -/
def ofDigits (ds : List Nat) : Nat := ds.foldl (fun a d => 10 * a + d) 0

/-- The digits a text of ASCII digits shows; `none` when a byte is not a digit. -/
def readDigits : GoString → Option (List Nat)
  | [] => some []
  | b :: rest =>
    if 48 ≤ b ∧ b ≤ 57 then (readDigits rest).map (fun ds => (b.toNat - 48) :: ds) else none

/-- The text before the first byte `c` and, when there is one, the text after it. -/
def splitAtByte (c : UInt8) : GoString → GoString × Option GoString
  | [] => ([], none)
  | b :: rest =>
    if b = c then ([], some rest)
    else ((b :: (splitAtByte c rest).1), (splitAtByte c rest).2)

/-- The exponent a numeral shows after its `e`: a sign and at least one digit; zero when
there is no `e`. -/
def readExponent : Option GoString → Option Int
  | none => some 0
  | some [] => none
  | some (s :: ds) =>
    if ds = [] then none
    else if s = 43 then (readDigits ds).map (fun x => (ofDigits x : Int))
    else if s = 45 then (readDigits ds).map (fun x => - (ofDigits x : Int))
    else none

/-- The number a decimal numeral stands for: an optional `-`, digits, optionally a point with
further digits, optionally `e`, a sign and the digits of a power of ten. `none` for any other
text. -/
def readDecimal (s : GoString) : Option ℚ :=
  let neg : Bool := s.head? = some 45
  let body := if neg then s.drop 1 else s
  let me := splitAtByte 101 body
  let pf := splitAtByte 46 me.1
  let frac : Option (List Nat) :=
    match pf.2 with
    | none => some []
    | some f => if f = [] then none else readDigits f
  match readDigits pf.1, frac, readExponent me.2 with
  | some i, some f, some x =>
    if i = [] then none
    else some ((if neg then -1 else 1) * (ofDigits (i ++ f) : ℚ) * (10 : ℚ) ^ (x - (f.length : Int)))
  | _, _, _ => none

/-- The rational value `0.mant * 10^exp` of a decimal. -/
def Decimal.toRat (d : Decimal) : ℚ :=
  (ofDigits d.mant : ℚ) * (10 : ℚ) ^ (d.exp - (d.mant.length : Int))

/-- A decimal in normal form: digits below ten, no leading zero, and exponent zero when there
are no digits. -/
def Decimal.Normal (d : Decimal) : Prop :=
  (∀ x ∈ d.mant, x < 10) ∧ d.mant.head? ≠ some 0 ∧ (d.mant = [] → d.exp = 0)


/-- The significant digits a decimal numeral shows: the text before its `e`, without the sign
and the point, and without the zeros it starts with. -/
def significand (s : GoString) : GoString :=
  ((splitAtByte 101 s).1.filter (fun b => b != 46 && b != 45)).dropWhile (fun b => b == 48)
/-! ## One sweep of the refresh loop

The body of the `for` loop of the goroutine started by `main`, from `concurrency := 8` to
`wg.Wait()`, as a transition system. A state holds the position of the sweeping goroutine,
the number of elements in the buffered channel `sem`, the counter of the `WaitGroup` and the
progress of every goroutine spawned so far. A schedule is a list of events, each naming the
goroutine that takes its next step; a goroutine that cannot take its step (a send on a full
channel, a receive on an empty one, `wg.Wait()` with a positive counter) stays where it is.
A chain client that blocks is a goroutine that is not scheduled while it is in
`UpdateAddressMetrics`. -/

/-- The capacity of `sem`: `concurrency := 8`. -/
def concurrency : Nat := 8

/-- Where the sweeping goroutine stands: at the head of `for _, v := range snapshot` (with
`wg.Add(1)` as its next statement when targets are left), at `sem <- struct{}{}`, at the `go`
statement, at `wg.Wait()`, or past it. -/
inductive MainPc where
  | loopHead
  | send
  | spawn
  | wait
  | returned
deriving DecidableEq, Repr

/-- Progress of one spawned goroutine: created and not yet running, inside
`UpdateAddressMetrics(wi)`, returned from it with the deferred `<-sem` to run, with the
deferred `wg.Done()` to run, and finished. -/
inductive Phase where
  | spawned
  | updating
  | releasing
  | signalling
  | exited
deriving DecidableEq, Repr

/-- State of one sweep over a snapshot of `n` targets. `next` is the number of targets the
loop has dealt with, `sem` is `len(sem)`, `wg` the `WaitGroup` counter, and `tasks[k]` the
progress of the goroutine spawned for target `k`. -/
structure Sweep where
  next : Nat
  pc : MainPc
  sem : Nat
  wg : Int
  tasks : List Phase
deriving DecidableEq, Repr

/-- The state before the loop: empty channel, zero counter, no goroutine. -/
def Sweep.init : Sweep :=
  { next := 0, pc := MainPc.loopHead, sem := 0, wg := 0, tasks := [] }

/-- A scheduling event: the sweeping goroutine or the goroutine of target `k` moves. -/
inductive Event where
  | main
  | task (k : Nat)
deriving DecidableEq, Repr

/-- One step of the sweeping goroutine over a snapshot of `n` targets. -/
def mainStep (n : Nat) (s : Sweep) : Sweep :=
  match s.pc with
  | MainPc.loopHead =>
    if s.next < n then { s with wg := s.wg + 1, pc := MainPc.send }
    else { s with pc := MainPc.wait }
  | MainPc.send =>
    if s.sem < concurrency then { s with sem := s.sem + 1, pc := MainPc.spawn } else s
  | MainPc.spawn =>
    { s with tasks := s.tasks ++ [Phase.spawned], next := s.next + 1, pc := MainPc.loopHead }
  | MainPc.wait => if s.wg = 0 then { s with pc := MainPc.returned } else s
  | MainPc.returned => s

/-- One step of the goroutine of target `k`: it starts `UpdateAddressMetrics`, returns from
it, receives from `sem`, calls `wg.Done()`. -/
def taskStep (k : Nat) (s : Sweep) : Sweep :=
  match s.tasks[k]? with
  | some Phase.spawned => { s with tasks := s.tasks.set k Phase.updating }
  | some Phase.updating => { s with tasks := s.tasks.set k Phase.releasing }
  | some Phase.releasing =>
    if 0 < s.sem then { s with sem := s.sem - 1, tasks := s.tasks.set k Phase.signalling }
    else s
  | some Phase.signalling => { s with wg := s.wg - 1, tasks := s.tasks.set k Phase.exited }
  | some Phase.exited => s
  | none => s

/-- The step an event stands for. -/
def step (n : Nat) (s : Sweep) : Event → Sweep
  | Event.main => mainStep n s
  | Event.task k => taskStep k s

/-- The state a schedule leads to from `s`. -/
def run (n : Nat) (s : Sweep) (events : List Event) : Sweep :=
  events.foldl (step n) s

/-- Number of goroutines inside `UpdateAddressMetrics`. -/
def Sweep.inFlight (s : Sweep) : Nat := s.tasks.countP (fun p => p = Phase.updating)

/-- Whether a goroutine in this phase holds a slot of `sem`: from its creation until its
deferred receive. -/
def Phase.holdsSlot : Phase → Nat
  | Phase.spawned => 1
  | Phase.updating => 1
  | Phase.releasing => 1
  | Phase.signalling => 0
  | Phase.exited => 0

/-- Whether a goroutine in this phase still counts in the `WaitGroup`. -/
def Phase.counted : Phase → Nat
  | Phase.exited => 0
  | _ => 1

/-- The invariant of a sweep over `n` targets. -/
structure SweepInv (n : Nat) (s : Sweep) : Prop where
  len : s.tasks.length = s.next
  bound : s.next ≤ n
  sem_eq : s.sem = (s.tasks.map Phase.holdsSlot).sum + (if s.pc = MainPc.spawn then 1 else 0)
  sem_le : s.sem ≤ concurrency
  wg_eq : s.wg = ((s.tasks.map Phase.counted).sum : Nat)
    + (if s.pc = MainPc.send ∨ s.pc = MainPc.spawn then 1 else 0)
  mid : s.pc = MainPc.send ∨ s.pc = MainPc.spawn → s.next < n
  fin : s.pc = MainPc.wait ∨ s.pc = MainPc.returned → s.next = n
  done : s.pc = MainPc.returned → ∀ p ∈ s.tasks, p = Phase.exited

/-- The schedule that runs the goroutine of target `k` from its creation to its end. -/
def runTask (k : Nat) : List Event := List.replicate 4 (Event.task k)

/-- The schedule in which the sweeping goroutine spawns the goroutine of a target. -/
def spawnOne : List Event := List.replicate 3 Event.main

/-- A schedule for nine targets: eight goroutines are spawned and start their update, the
sweeping goroutine then tries to go on. -/
def fillSchedule : List Event :=
  (List.range 8).flatMap (fun k => spawnOne ++ [Event.task k]) ++ spawnOne

/-- A schedule that completes the sweep of nine targets after `fillSchedule`. -/
def drainSchedule : List Event :=
  (List.range 8).flatMap runTask ++ spawnOne ++ runTask 8 ++ [Event.main, Event.main]

/-! # Theorems -/

/-! ## Theorems: `ToEther` -/

theorem bitLenAux_spec (fuel n : Nat) (h : n ≤ fuel) :
    n < 2 ^ bitLenAux fuel n ∧ (n ≠ 0 → 2 ^ (bitLenAux fuel n - 1) ≤ n) := by
  induction fuel generalizing n with
  | zero =>
    have : n = 0 := by omega
    subst this
    simp [bitLenAux]
  | succ fuel ih =>
    unfold bitLenAux
    by_cases hn : n = 0
    · subst hn; simp
    · rw [if_neg hn]
      have hle : n / 2 ≤ fuel := by omega
      obtain ⟨h1, h2⟩ := ih (n / 2) hle
      refine ⟨?_, fun _ => ?_⟩
      · rw [pow_succ]; omega
      · rw [Nat.add_sub_cancel]
        by_cases h0 : n / 2 = 0
        · have hb : bitLenAux fuel (n / 2) = 0 := by
            rw [h0]; cases fuel <;> simp [bitLenAux]
          rw [hb]; simp; omega
        · have h3 := h2 h0
          have hpos : 0 < bitLenAux fuel (n / 2) := by
            rcases Nat.eq_zero_or_pos (bitLenAux fuel (n / 2)) with hz | hz
            · rw [hz] at h1; omega
            · exact hz
          have : bitLenAux fuel (n / 2) = (bitLenAux fuel (n / 2) - 1) + 1 := by omega
          rw [this, pow_succ]; omega

theorem lt_two_pow_bitLen (n : Nat) : n < 2 ^ bitLen n := (bitLenAux_spec n n le_rfl).1

theorem two_pow_bitLen_le (n : Nat) (h : n ≠ 0) : 2 ^ (bitLen n - 1) ≤ n :=
  (bitLenAux_spec n n le_rfl).2 h

/-- Rounding to `prec` bits moves the mantissa by at most half a unit of the last kept bit:
the result is `q * 2^s` at exponent `e + s` with `2 * |q * 2^s - m| ≤ 2^s` and
`2^s * 2^prec ≤ 2 * m` when `s > 0`. -/
theorem roundMant_spec (prec m : Nat) (e : Int) (hprec : 0 < prec) :
    ∃ s : Nat, (roundMant prec m e).2 = e + (s : Int) ∧
      2 ^ prec * ((roundMant prec m e).1 * 2 ^ s) ≤ (2 ^ prec + 1) * m ∧
      2 ^ prec * m ≤ 2 ^ prec * ((roundMant prec m e).1 * 2 ^ s) + m := by
  unfold roundMant
  by_cases hn : bitLen m ≤ prec
  · refine ⟨0, ?_⟩
    simp only [hn, if_true, pow_zero, mul_one, Nat.cast_zero, add_zero, true_and]
    constructor
    · exact Nat.mul_le_mul_right m (Nat.le_succ _)
    · exact Nat.le_add_right _ _
  · have hm0 : m ≠ 0 := by
      rintro rfl
      apply hn
      simp [bitLen, bitLenAux]
    have hlow := two_pow_bitLen_le m hm0
    set s := bitLen m - prec with hs
    have hs1 : 1 ≤ s := by omega
    have hbl : bitLen m - 1 = prec + (s - 1) := by omega
    rw [hbl, pow_add] at hlow
    have hdm := Nat.div_add_mod m (2 ^ s)
    have hr : m % 2 ^ s < 2 ^ s := Nat.mod_lt m (by positivity)
    have h2s : 2 ^ s = 2 * 2 ^ (s - 1) := by
      have : s = (s - 1) + 1 := by omega
      rw [this, pow_succ]; simp; ring
    have hpp : 1 ≤ 2 ^ prec := Nat.one_le_two_pow
    obtain ⟨P, hP⟩ : ∃ P, 2 ^ prec = P + 1 := ⟨2 ^ prec - 1, by omega⟩
    refine ⟨s, ?_⟩
    simp only [hn, if_false]
    set q := m / 2 ^ s
    set r := m % 2 ^ s
    set H := 2 ^ (s - 1)
    rw [hP]
    rw [hP] at hlow
    by_cases hup : H < r ∨ (r = H ∧ q % 2 = 1)
    · simp only [hup, if_true, true_and]
      have hrH : H ≤ r := by rcases hup with h | h <;> omega
      constructor <;> nlinarith
    · simp only [hup, if_false, true_and]
      have hrH : r ≤ H := by
        by_contra hc
        exact hup (Or.inl (by omega))
      constructor <;> nlinarith

/-- The value of a rounded mantissa lies within a factor `1 ± 2^(-53)` of the exact value. -/
theorem roundMant_toRat (m : Nat) (e : Int) :
    (1 - 1 / 2 ^ 53) * ((m : ℚ) * 2 ^ e)
        ≤ ((roundMant floatPrec m e).1 : ℚ) * 2 ^ (roundMant floatPrec m e).2 ∧
    ((roundMant floatPrec m e).1 : ℚ) * 2 ^ (roundMant floatPrec m e).2
        ≤ (1 + 1 / 2 ^ 53) * ((m : ℚ) * 2 ^ e) := by
  obtain ⟨s, hs, h1, h2⟩ := roundMant_spec floatPrec m e (by decide)
  unfold floatPrec at hs h1 h2 ⊢
  generalize roundMant 53 m e = r at hs h1 h2 ⊢
  obtain ⟨q, e2⟩ := r
  simp only at hs h1 h2 ⊢
  subst hs
  rw [zpow_add₀ (by norm_num : (2 : ℚ) ≠ 0), zpow_natCast]
  have h1q : (2 : ℚ) ^ 53 * ((q : ℚ) * 2 ^ s) ≤ (2 ^ 53 + 1) * (m : ℚ) := by exact_mod_cast h1
  have h2q : (2 : ℚ) ^ 53 * (m : ℚ) ≤ 2 ^ 53 * ((q : ℚ) * 2 ^ s) + (m : ℚ) := by
    exact_mod_cast h2
  have he : (0 : ℚ) < 2 ^ e := by positivity
  have g1 := mul_le_mul_of_nonneg_right h1q he.le
  have g2 := mul_le_mul_of_nonneg_right h2q he.le
  generalize (2 : ℚ) ^ e = E at he g1 g2 ⊢
  generalize (2 : ℚ) ^ s = S at h1q h2q g1 g2 ⊢
  constructor <;> linarith

/-- The constant `big.NewFloat(0.000000000000000001)` is the 53-bit value nearest to
`10^(-18)`: it differs from it by less than half a unit of its last bit. -/
theorem float64_1e_18_nearest :
    2 ^ 52 ≤ float64_1e_18.mant ∧ float64_1e_18.mant < 2 ^ 53 ∧
    |float64_1e_18.toRat - 1 / 10 ^ 18| < 2 ^ (-112 : Int) / 2 := by
  refine ⟨by decide, by decide, ?_⟩
  simp only [float64_1e_18, BigFloat.toRat]
  norm_num [abs_lt]

theorem three_roundings (d A w C I Y : ℚ) (hd0 : 0 ≤ d) (hd1 : d ≤ 1 / 8) (hA : 0 ≤ A)
    (hw : 0 ≤ w) (hC0 : (1 - d) * A ≤ C) (hC1 : C ≤ (1 + d) * A)
    (hI0 : (1 - d) * w ≤ I) (hI1 : I ≤ (1 + d) * w)
    (hY0 : (1 - d) * (C * I) ≤ Y) (hY1 : Y ≤ (1 + d) * (C * I)) :
    |Y - A * w| ≤ 4 * d * (A * w) := by
  have h1d : 0 ≤ 1 - d := by linarith
  have h1p : 0 ≤ 1 + d := by linarith
  have hCnn : 0 ≤ C := le_trans (mul_nonneg h1d hA) hC0
  have hInn : 0 ≤ I := le_trans (mul_nonneg h1d hw) hI0
  have hx : 0 ≤ A * w := mul_nonneg hA hw
  have up : C * I ≤ ((1 + d) * A) * ((1 + d) * w) :=
    mul_le_mul hC1 hI1 hInn (mul_nonneg h1p hA)
  have lo : ((1 - d) * A) * ((1 - d) * w) ≤ C * I :=
    mul_le_mul hC0 hI0 (mul_nonneg h1d hw) hCnn
  have up2 : (1 + d) * (C * I) ≤ (1 + d) * (((1 + d) * A) * ((1 + d) * w)) :=
    mul_le_mul_of_nonneg_left up h1p
  have lo2 : (1 - d) * (((1 - d) * A) * ((1 - d) * w)) ≤ (1 - d) * (C * I) :=
    mul_le_mul_of_nonneg_left lo h1d
  have e1 : (1 + d) * (((1 + d) * A) * ((1 + d) * w)) = (1 + d) ^ 3 * (A * w) := by ring
  have e2 : (1 - d) * (((1 - d) * A) * ((1 - d) * w)) = (1 - d) ^ 3 * (A * w) := by ring
  rw [e1] at up2
  rw [e2] at lo2
  have c1 : (1 + d) ^ 3 ≤ 1 + 4 * d := by nlinarith [mul_nonneg hd0 hd0, mul_nonneg (mul_nonneg hd0 hd0) hd0]
  have c2 : 1 - 4 * d ≤ (1 - d) ^ 3 := by nlinarith [mul_nonneg hd0 hd0, mul_nonneg (mul_nonneg hd0 hd0) hd0]
  have c1x := mul_le_mul_of_nonneg_right c1 hx
  have c2x := mul_le_mul_of_nonneg_right c2 hx
  rw [abs_le]
  constructor <;> linarith

/-- The value of `ToEther(w)` for a non-negative `w`: within a relative error of `2^(-51)` of
`w / 10^18` (three roundings to 53 bits: the constant, `SetInt` and `Mul`). -/
theorem ToEther_toRat_close (w : Nat) :
    |(ToEther (w : Int)).toRat - (w : ℚ) / 10 ^ 18| ≤ (w : ℚ) / 10 ^ 18 / 2 ^ 51 := by
  have hI := roundMant_toRat w 0
  have hsgn : decide ((w : Int) < 0) = false := by simp
  unfold ToEther BigFloat.Mul BigFloat.SetInt
  simp only [Int.natAbs_ofNat, hsgn]
  by_cases h0 : (roundMant floatPrec w 0).1 = 0
  · have hw : (w : ℚ) = 0 := by
      have h := hI.1
      rw [h0] at h
      have hw0 : (0 : ℚ) ≤ w := Nat.cast_nonneg w
      norm_num at h
      linarith
    simp [BigFloat.toRat, h0, hw]
  · have hM : float64_1e_18.mant ≠ 0 := by decide
    have hor : ¬ (float64_1e_18.mant = 0 ∨ (roundMant floatPrec w 0).1 = 0) := by
      rintro (h | h)
      · exact hM h
      · exact h0 h
    simp only [if_neg hor, BigFloat.toRat]
    have hY := roundMant_toRat (float64_1e_18.mant * (roundMant floatPrec w 0).1)
      (float64_1e_18.exp + (roundMant floatPrec w 0).2)
    generalize roundMant floatPrec (float64_1e_18.mant * (roundMant floatPrec w 0).1)
      (float64_1e_18.exp + (roundMant floatPrec w 0).2) = p at hY ⊢
    generalize roundMant floatPrec w 0 = r at hI hY h0 hor ⊢
    have hCI : ((float64_1e_18.mant * r.1 : Nat) : ℚ) * 2 ^ (float64_1e_18.exp + r.2)
        = ((float64_1e_18.mant : ℚ) * 2 ^ float64_1e_18.exp) * ((r.1 : ℚ) * 2 ^ r.2) := by
      rw [zpow_add₀ (by norm_num : (2 : ℚ) ≠ 0)]
      push_cast
      ring
    rw [hCI] at hY
    have hA : (1 - 1 / 2 ^ 53) * ((1 : ℚ) / 10 ^ 18)
          ≤ (float64_1e_18.mant : ℚ) * 2 ^ float64_1e_18.exp ∧
        (float64_1e_18.mant : ℚ) * 2 ^ float64_1e_18.exp
          ≤ (1 + 1 / 2 ^ 53) * ((1 : ℚ) / 10 ^ 18) := by
      simp only [float64_1e_18]
      norm_num
    have hI2 : (1 - 1 / 2 ^ 53) * (w : ℚ) ≤ (r.1 : ℚ) * 2 ^ r.2 ∧
        (r.1 : ℚ) * 2 ^ r.2 ≤ (1 + 1 / 2 ^ 53) * (w : ℚ) := by
      simpa using hI
    have key := three_roundings (1 / 2 ^ 53) (1 / 10 ^ 18) (w : ℚ)
      ((float64_1e_18.mant : ℚ) * 2 ^ float64_1e_18.exp) ((r.1 : ℚ) * 2 ^ r.2)
      ((p.1 : ℚ) * 2 ^ p.2) (by norm_num) (by norm_num) (by norm_num) (Nat.cast_nonneg w)
      hA.1 hA.2 hI2.1 hI2.2 hY.1 hY.2
    have e1 : (if (false != false) = true then (-1 : ℚ) else 1) * (p.1 : ℚ) * 2 ^ p.2
        = (p.1 : ℚ) * 2 ^ p.2 := by simp
    have e2 : (w : ℚ) / 10 ^ 18 = 1 / 10 ^ 18 * (w : ℚ) := by ring
    have e3 : (w : ℚ) / 10 ^ 18 / 2 ^ 51 = 4 * (1 / 2 ^ 53) * (1 / 10 ^ 18 * (w : ℚ)) := by
      norm_num
      ring
    simp only [float64_1e_18] at key ⊢
    rw [e1, e3, e2]
    exact key

/-! ### Digit lists and their value -/

/-! ### Digits and their value -/

theorem ofDigits_nil : ofDigits [] = 0 := rfl

theorem foldl_digits (ds : List Nat) (a : Nat) :
    ds.foldl (fun a d => 10 * a + d) a = a * 10 ^ ds.length + ofDigits ds := by
  induction ds generalizing a with
  | nil => simp [ofDigits]
  | cons d ds ih =>
    unfold ofDigits
    simp only [List.foldl_cons, List.length_cons]
    rw [ih, ih (10 * 0 + d)]
    ring

theorem ofDigits_cons (d : Nat) (ds : List Nat) :
    ofDigits (d :: ds) = d * 10 ^ ds.length + ofDigits ds := by
  unfold ofDigits
  rw [List.foldl_cons, foldl_digits]
  simp [ofDigits]

theorem ofDigits_append (a b : List Nat) :
    ofDigits (a ++ b) = ofDigits a * 10 ^ b.length + ofDigits b := by
  induction a with
  | nil => simp [ofDigits_nil]
  | cons d a ih =>
    rw [List.cons_append, ofDigits_cons, ofDigits_cons, ih, List.length_append]
    ring

theorem ofDigits_replicate_zero (k : Nat) : ofDigits (List.replicate k 0) = 0 := by
  induction k with
  | zero => rfl
  | succ k ih => rw [List.replicate_succ, ofDigits_cons, ih]; simp

theorem ofDigits_lt (ds : List Nat) (h : ∀ d ∈ ds, d < 10) : ofDigits ds < 10 ^ ds.length := by
  induction ds with
  | nil => simp [ofDigits_nil]
  | cons d ds ih =>
    have h1 := h d (List.mem_cons_self _ _)
    have h2 := ih (fun x hx => h x (List.mem_cons_of_mem _ hx))
    rw [ofDigits_cons, List.length_cons, pow_succ]
    nlinarith

theorem ofDigits_ge (d : Nat) (ds : List Nat) (hd : d ≠ 0) :
    10 ^ ds.length ≤ ofDigits (d :: ds) := by
  rw [ofDigits_cons]
  have h1 : 1 ≤ d := Nat.one_le_iff_ne_zero.mpr hd
  have h2 : 0 < 10 ^ ds.length := by positivity
  nlinarith

/-- What `natDigitsAux` computes: the digits of `n` in front of `acc`. -/
theorem natDigitsAux_spec (fuel n : Nat) (acc : List Nat) (h : n ≤ fuel) :
    ∃ ds : List Nat, natDigitsAux fuel n acc = ds ++ acc ∧ ofDigits ds = n ∧
      (∀ d ∈ ds, d < 10) ∧ (n ≠ 0 → ds.head? ≠ some 0 ∧ ds ≠ []) ∧ (n = 0 → ds = []) := by
  induction fuel generalizing n acc with
  | zero =>
    have : n = 0 := by omega
    subst this
    exact ⟨[], rfl, rfl, by simp, by simp, fun _ => rfl⟩
  | succ fuel ih =>
    unfold natDigitsAux
    by_cases hn : n = 0
    · subst hn
      exact ⟨[], by simp, rfl, by simp, by simp, fun _ => rfl⟩
    · rw [if_neg hn]
      obtain ⟨ds, h1, h2, h3, h4, h5⟩ := ih (n / 10) (n % 10 :: acc) (by omega)
      refine ⟨ds ++ [n % 10], by rw [h1]; simp, ?_, ?_, fun _ => ⟨?_, by simp⟩,
        fun e => absurd e hn⟩
      · rw [ofDigits_append, h2, ofDigits_cons, ofDigits_nil]
        simp
        omega
      · intro d hd
        rcases List.mem_append.mp hd with hd | hd
        · exact h3 d hd
        · rw [List.mem_singleton] at hd
          omega
      · by_cases h0 : n / 10 = 0
        · rw [h5 h0]
          simp
          omega
        · obtain ⟨h6, h7⟩ := h4 h0
          cases ds with
          | nil => exact absurd rfl h7
          | cons x xs => simpa using h6

theorem natDigits_spec (n : Nat) :
    ofDigits (natDigits n) = n ∧ (∀ d ∈ natDigits n, d < 10) ∧
      (n ≠ 0 → (natDigits n).head? ≠ some 0 ∧ natDigits n ≠ []) := by
  obtain ⟨ds, h1, h2, h3, h4, -⟩ := natDigitsAux_spec n n [] le_rfl
  unfold natDigits
  rw [h1, List.append_nil]
  exact ⟨h2, h3, h4⟩

/-- What `trimZeros` removes: a run of zeros at the end. -/
theorem trimZeros_spec (ds : List Nat) :
    ∃ k : Nat, ds = trimZeros ds ++ List.replicate k 0 ∧
      (trimZeros ds).getLast? ≠ some 0 := by
  unfold trimZeros
  induction ds using List.reverseRecOn with
  | nil => exact ⟨0, by simp, by simp⟩
  | append_singleton ds d ih =>
    rw [List.reverse_append, List.reverse_singleton, List.singleton_append, List.dropWhile_cons]
    by_cases hd : d = 0
    · subst hd
      obtain ⟨k, h1, h2⟩ := ih
      refine ⟨k + 1, ?_, ?_⟩
      · simp only [beq_self_eq_true, if_true]
        conv_lhs => rw [h1]
        rw [List.append_assoc, List.replicate_succ']
      · simpa using h2
    · have : (d == 0) = false := by simpa using hd
      rw [this]
      refine ⟨0, by simp, ?_⟩
      simp [hd]

theorem trimZeros_of_digits (s : List Nat) (hs : s ≠ []) (hh : s.head? ≠ some 0)
    (hd : ∀ x ∈ s, x < 10) :
    ∃ k : Nat, s = trimZeros s ++ List.replicate k 0 ∧ trimZeros s ≠ [] ∧
      (trimZeros s).head? ≠ some 0 ∧ (∀ x ∈ trimZeros s, x < 10) ∧
      ofDigits s = ofDigits (trimZeros s) * 10 ^ k ∧ s.length = (trimZeros s).length + k := by
  obtain ⟨k, h1, -⟩ := trimZeros_spec s
  have hne : trimZeros s ≠ [] := by
    intro e
    rw [e, List.nil_append] at h1
    cases k with
    | zero => exact hs (by simpa using h1)
    | succ k =>
      rw [h1, List.replicate_succ] at hh
      simp at hh
  refine ⟨k, h1, hne, ?_, ?_, ?_, ?_⟩
  · obtain ⟨x, xs, hx⟩ := List.exists_cons_of_ne_nil hne
    rw [h1, hx] at hh
    rw [hx]
    simpa using hh
  · intro x hx
    exact hd x (by rw [h1]; exact List.mem_append_left _ hx)
  · conv_lhs => rw [h1]
    rw [ofDigits_append, ofDigits_replicate_zero, List.length_replicate]
    simp
  · conv_lhs => rw [h1]
    rw [List.length_append, List.length_replicate]

theorem Decimal.init_spec (m : Nat) (shift : Int) (hm : m ≠ 0) :
    (Decimal.init m shift).Normal ∧ (Decimal.init m shift).mant ≠ [] ∧
      (Decimal.init m shift).toRat = (m : ℚ) * (2 : ℚ) ^ shift := by
  unfold Decimal.init
  rw [if_neg hm]
  by_cases hs : 0 ≤ shift
  · rw [if_pos hs]
    have hN : m * 2 ^ shift.toNat ≠ 0 := by positivity
    obtain ⟨h1, h2, h3⟩ := natDigits_spec (m * 2 ^ shift.toNat)
    obtain ⟨h4, h5⟩ := h3 hN
    obtain ⟨k, -, t1, t2, t3, t4, t5⟩ := trimZeros_of_digits _ h5 h4 h2
    refine ⟨⟨t3, t2, fun e => absurd e t1⟩, t1, ?_⟩
    simp only [Decimal.toRat]
    rw [t5]
    have e1 : (((trimZeros (natDigits (m * 2 ^ shift.toNat))).length + k : Nat) : Int)
        - ((trimZeros (natDigits (m * 2 ^ shift.toNat))).length : Int) = (k : Int) := by
      push_cast; ring
    rw [e1, zpow_natCast]
    have e2 : ((ofDigits (trimZeros (natDigits (m * 2 ^ shift.toNat))) * 10 ^ k : Nat) : ℚ)
        = ((m * 2 ^ shift.toNat : Nat) : ℚ) := by rw [← t4, h1]
    push_cast at e2
    rw [e2]
    congr 1
    rw [← zpow_natCast, Int.toNat_of_nonneg hs]
  · rw [if_neg hs]
    have hN : m * 5 ^ (-shift).toNat ≠ 0 := by positivity
    obtain ⟨h1, h2, h3⟩ := natDigits_spec (m * 5 ^ (-shift).toNat)
    obtain ⟨h4, h5⟩ := h3 hN
    obtain ⟨k, -, t1, t2, t3, t4, t5⟩ := trimZeros_of_digits _ h5 h4 h2
    refine ⟨⟨t3, t2, fun e => absurd e t1⟩, t1, ?_⟩
    simp only [Decimal.toRat]
    rw [t5]
    have e1 : (((trimZeros (natDigits (m * 5 ^ (-shift).toNat))).length + k : Nat) : Int)
        + shift - ((trimZeros (natDigits (m * 5 ^ (-shift).toNat))).length : Int)
        = (k : Int) + shift := by
      push_cast; ring
    rw [e1, zpow_add₀ (by norm_num : (10 : ℚ) ≠ 0), zpow_natCast, ← mul_assoc]
    have e2 : ((ofDigits (trimZeros (natDigits (m * 5 ^ (-shift).toNat))) * 10 ^ k : Nat) : ℚ)
        = ((m * 5 ^ (-shift).toNat : Nat) : ℚ) := by rw [← t4, h1]
    push_cast at e2
    rw [e2]
    have hsh : shift = - ((-shift).toNat : Int) := by
      have : 0 ≤ -shift := by omega
      rw [Int.toNat_of_nonneg this]
      ring
    generalize (-shift).toNat = j at hsh
    subst hsh
    rw [zpow_neg, zpow_neg, zpow_natCast, zpow_natCast]
    have h10 : (10 : ℚ) ^ j = 2 ^ j * 5 ^ j := by
      rw [← mul_pow]; norm_num
    rw [h10]
    field_simp
    ring

/-! ### Rounding of a decimal -/

theorem drop_eq_getD_cons (l : List Nat) (n : Nat) (h : n < l.length) :
    l.drop n = l.getD n 0 :: l.drop (n + 1) := by
  rw [List.drop_eq_getElem_cons h]
  congr 1
  rw [List.getD_eq_getElem?_getD, List.getElem?_eq_getElem h]
  rfl

theorem ofDigits_take_drop (l : List Nat) (n : Nat) :
    ofDigits l = ofDigits (l.take n) * 10 ^ (l.drop n).length + ofDigits (l.drop n) := by
  conv_lhs => rw [← List.take_append_drop n l]
  rw [ofDigits_append]

/-- The part cut off by rounding at digit `n`, against half a unit of digit `n - 1`. -/
theorem shouldRoundUp_tail (d : Decimal) (n : Nat) (hd : ∀ x ∈ d.mant, x < 10)
    (hn : n < d.mant.length) :
    (d.shouldRoundUp n = true → 10 ^ (d.mant.length - n) ≤ 2 * ofDigits (d.mant.drop n)) ∧
    (d.shouldRoundUp n = false → 2 * ofDigits (d.mant.drop n) ≤ 10 ^ (d.mant.length - n)) := by
  have hdrop := drop_eq_getD_cons d.mant n hn
  have hx : d.mant.getD n 0 < 10 := by
    apply hd
    rw [List.getD_eq_getElem?_getD, List.getElem?_eq_getElem hn]
    exact List.getElem_mem _
  have hrest : ofDigits (d.mant.drop (n + 1)) < 10 ^ (d.mant.drop (n + 1)).length :=
    ofDigits_lt _ (fun x hx => hd x (List.mem_of_mem_drop hx))
  have hlen : (d.mant.drop (n + 1)).length = d.mant.length - n - 1 := by
    rw [List.length_drop]; omega
  have hpow : 10 ^ (d.mant.length - n) = 10 * 10 ^ (d.mant.length - n - 1) := by
    have : d.mant.length - n = (d.mant.length - n - 1) + 1 := by omega
    conv_lhs => rw [this, pow_succ]
    ring
  rw [hdrop, ofDigits_cons, hlen, hpow]
  rw [hlen] at hrest
  have hpos : 0 < 10 ^ (d.mant.length - n - 1) := by positivity
  unfold Decimal.shouldRoundUp
  by_cases hhalf : d.mant.getD n 0 = 5 ∧ n + 1 = d.mant.length
  · rw [if_pos hhalf]
    have hz : d.mant.length - n - 1 = 0 := by omega
    have hnil : d.mant.drop (n + 1) = [] := by
      apply List.drop_eq_nil_of_le; omega
    rw [hnil, ofDigits_nil, hz, hhalf.1]
    simp
  · rw [if_neg hhalf]
    constructor
    · intro h
      have h5 : 5 ≤ d.mant.getD n 0 := by simpa using h
      nlinarith
    · intro h
      have h5 : d.mant.getD n 0 ≤ 4 := by
        have : ¬ 5 ≤ d.mant.getD n 0 := by simpa using h
        omega
      nlinarith

theorem firstBelowNine_spec (mant : List Nat) (n : Nat) :
    firstBelowNine mant n ≤ n ∧
    (∀ i, firstBelowNine mant n ≤ i → i < n → 9 ≤ mant.getD i 0) ∧
    (firstBelowNine mant n ≠ 0 → mant.getD (firstBelowNine mant n - 1) 0 < 9) := by
  induction n with
  | zero => simp [firstBelowNine]
  | succ k ih =>
    unfold firstBelowNine
    by_cases h9 : 9 ≤ mant.getD k 0
    · rw [if_pos h9]
      obtain ⟨h1, h2, h3⟩ := ih
      refine ⟨by omega, ?_, h3⟩
      intro i hi hik
      by_cases hk : i = k
      · rw [hk]; exact h9
      · exact h2 i hi (by omega)
    · rw [if_neg h9]
      refine ⟨le_rfl, fun i hi hik => by omega, fun _ => ?_⟩
      simp only [Nat.add_sub_cancel]
      omega

theorem ofDigits_take_nines (mant : List Nat) (k n : Nat) (hkn : k ≤ n)
    (hn : n ≤ mant.length) (h9 : ∀ i, k ≤ i → i < n → mant.getD i 0 = 9) :
    ofDigits (mant.take n) + 1 = (ofDigits (mant.take k) + 1) * 10 ^ (n - k) := by
  induction n with
  | zero =>
    have : k = 0 := by omega
    subst this
    simp
  | succ j ih =>
    by_cases hk : k = j + 1
    · subst hk
      simp
    · have hj : j < mant.length := by omega
      have htake : mant.take (j + 1) = mant.take j ++ [mant.getD j 0] := by
        rw [List.take_succ, List.getD_eq_getElem?_getD, List.getElem?_eq_getElem hj]
        rfl
      have h := ih (by omega) (by omega) (fun i hi hij => h9 i hi (by omega))
      rw [htake, ofDigits_append, ofDigits_cons, ofDigits_nil, h9 j (by omega) (by omega)]
      have e : j + 1 - k = (j - k) + 1 := by omega
      rw [e, pow_succ]
      simp only [List.length_singleton, pow_one, List.length_nil, pow_zero, mul_one, add_zero]
      nlinarith

theorem ten_zpow_split (e : Int) (L n : Nat) (h : n ≤ L) :
    (10 : ℚ) ^ (e - (n : Int)) = (10 : ℚ) ^ (L - n) * (10 : ℚ) ^ (e - (L : Int)) := by
  rw [← zpow_natCast, ← zpow_add₀ (by norm_num : (10 : ℚ) ≠ 0)]
  congr 1
  push_cast [Nat.cast_sub h]
  ring

theorem Decimal.toRat_of_mant (d : Decimal) (n : Nat) (hn : n ≤ d.mant.length) :
    d.toRat = (ofDigits (d.mant.take n) : ℚ) * (10 : ℚ) ^ (d.exp - (n : Int))
      + (ofDigits (d.mant.drop n) : ℚ) * (10 : ℚ) ^ (d.exp - (d.mant.length : Int)) := by
  unfold Decimal.toRat
  rw [ten_zpow_split d.exp d.mant.length n hn]
  conv_lhs => rw [ofDigits_take_drop d.mant n]
  rw [List.length_drop]
  push_cast
  ring

theorem Decimal.roundDown_spec (d : Decimal) (n : Nat) (hn : 1 ≤ n) (hN : d.Normal)
    (hL : n < d.mant.length) :
    (d.roundDown n).Normal ∧ (d.roundDown n).mant ≠ [] ∧ (d.roundDown n).mant.length ≤ n ∧
    (d.roundDown n).toRat = (ofDigits (d.mant.take n) : ℚ) * (10 : ℚ) ^ (d.exp - (n : Int)) := by
  obtain ⟨hd, hh, -⟩ := hN
  have hne : d.mant ≠ [] := by
    intro e; rw [e] at hL; simp at hL
  obtain ⟨x, xs, hx⟩ := List.exists_cons_of_ne_nil hne
  have htake : d.mant.take n = x :: xs.take (n - 1) := by
    rw [hx]
    cases n with
    | zero => omega
    | succ n => simp
  have hlen : (d.mant.take n).length = n := by
    rw [List.length_take]; omega
  have hx0 : (d.mant.take n).head? ≠ some 0 := by
    rw [htake]
    rw [hx] at hh
    simpa using hh
  obtain ⟨k, -, t1, t2, t3, t4, t5⟩ := trimZeros_of_digits (d.mant.take n)
    (by rw [htake]; simp) hx0 (fun y hy => hd y (List.mem_of_mem_take hy))
  unfold Decimal.roundDown Decimal.trim
  simp only
  have hlt : ¬ (trimZeros (d.mant.take n)).length = 0 := by
    intro e
    exact t1 (List.length_eq_zero.mp e)
  rw [if_neg hlt]
  refine ⟨⟨t3, t2, fun e => absurd e t1⟩, t1, by omega, ?_⟩
  simp only [Decimal.toRat]
  rw [t4]
  have e1 : d.exp - ((trimZeros (d.mant.take n)).length : Int)
      = (k : Int) + (d.exp - (n : Int)) := by
    have h5 : n = (trimZeros (d.mant.take n)).length + k := by
      have := t5
      rw [hlen] at this
      exact this
    have h6 : (n : Int) = ((trimZeros (d.mant.take n)).length : Int) + (k : Int) := by
      exact_mod_cast h5
    linarith
  rw [e1, zpow_add₀ (by norm_num : (10 : ℚ) ≠ 0), zpow_natCast]
  push_cast
  ring

theorem Decimal.roundUp_spec (d : Decimal) (n : Nat) (hN : d.Normal)
    (hL : n < d.mant.length) :
    (d.roundUp n).Normal ∧ (d.roundUp n).mant ≠ [] ∧ (d.roundUp n).mant.length ≤ max n 1 ∧
    (d.roundUp n).toRat
      = ((ofDigits (d.mant.take n) : ℚ) + 1) * (10 : ℚ) ^ (d.exp - (n : Int)) := by
  obtain ⟨hd, hh, -⟩ := hN
  obtain ⟨f1, f2, f3⟩ := firstBelowNine_spec d.mant n
  have hget : ∀ i, i < d.mant.length → d.mant.getD i 0 < 10 := by
    intro i hi
    apply hd
    rw [List.getD_eq_getElem?_getD, List.getElem?_eq_getElem hi]
    exact List.getElem_mem _
  have h9 : ∀ i, firstBelowNine d.mant n ≤ i → i < n → d.mant.getD i 0 = 9 := by
    intro i hi hin
    have := f2 i hi hin
    have := hget i (by omega)
    omega
  have hval := ofDigits_take_nines d.mant (firstBelowNine d.mant n) n f1 (by omega) h9
  have hvalq : (ofDigits (d.mant.take n) : ℚ) + 1
      = ((ofDigits (d.mant.take (firstBelowNine d.mant n)) : ℚ) + 1)
        * (10 : ℚ) ^ (n - firstBelowNine d.mant n) := by exact_mod_cast hval
  unfold Decimal.roundUp
  simp only
  by_cases hk : firstBelowNine d.mant n = 0
  · rw [if_pos hk]
    rw [hk] at hvalq
    refine ⟨⟨by simp, by simp, by simp⟩, by simp, by simp, ?_⟩
    simp only [Decimal.toRat, ofDigits_cons, ofDigits_nil, List.length_singleton,
      List.length_nil]
    rw [hvalq]
    simp only [List.take_zero, ofDigits_nil, Nat.sub_zero]
    rw [← zpow_natCast, mul_assoc, ← zpow_add₀ (by norm_num : (10 : ℚ) ≠ 0)]
    norm_num
  · rw [if_neg hk]
    set k := firstBelowNine d.mant n with hkdef
    have hk1 : k - 1 < d.mant.length := by omega
    have hlt := f3 hk
    have htk : d.mant.take k = d.mant.take (k - 1) ++ [d.mant.getD (k - 1) 0] := by
      have : k = (k - 1) + 1 := by omega
      conv_lhs => rw [this]
      rw [List.take_succ, List.getD_eq_getElem?_getD, List.getElem?_eq_getElem hk1]
      rfl
    have hlen1 : (d.mant.take (k - 1)).length = k - 1 := by
      rw [List.length_take]; omega
    have hset : (d.mant.take k).set (k - 1) (d.mant.getD (k - 1) 0 + 1)
        = d.mant.take (k - 1) ++ [d.mant.getD (k - 1) 0 + 1] := by
      rw [htk]
      rw [List.set_append_right (k - 1) (d.mant.getD (k - 1) 0 + 1) (by rw [hlen1]), hlen1]
      simp
    rw [hset]
    refine ⟨⟨?_, ?_, by simp⟩, by simp, ?_, ?_⟩
    · intro y hy
      rcases List.mem_append.mp hy with hy | hy
      · exact hd y (List.mem_of_mem_take hy)
      · rw [List.mem_singleton] at hy
        omega
    · by_cases hk0 : k - 1 = 0
      · rw [hk0]
        simp
      · obtain ⟨x, xs, hx⟩ := List.exists_cons_of_ne_nil
          (show d.mant ≠ [] by intro e; rw [e] at hL; simp at hL)
        have : d.mant.take (k - 1) = x :: xs.take (k - 2) := by
          rw [hx]
          have : k - 1 = (k - 2) + 1 := by omega
          rw [this]
          simp
        rw [this]
        rw [hx] at hh
        simpa using hh
    · rw [List.length_append, hlen1]
      simp
      omega
    · simp only [Decimal.toRat]
      rw [hvalq, htk, ofDigits_append, ofDigits_append]
      simp only [ofDigits_cons, ofDigits_nil, List.length_singleton, List.length_nil,
        List.length_append, hlen1]
      have e : d.exp - (((k - 1 + 1 : Nat)) : Int)
          = d.exp - (n : Int) + ((n - k : Nat) : Int) := by
        have : k - 1 + 1 = k := by omega
        rw [this]
        push_cast [Nat.cast_sub f1]
        ring
      rw [e, zpow_add₀ (by norm_num : (10 : ℚ) ≠ 0), zpow_natCast]
      push_cast
      ring

theorem Decimal.toRat_bounds (d : Decimal) (hN : d.Normal) (hne : d.mant ≠ []) :
    (10 : ℚ) ^ (d.exp - 1) ≤ d.toRat ∧ d.toRat < (10 : ℚ) ^ d.exp := by
  obtain ⟨hd, hh, -⟩ := hN
  obtain ⟨x, xs, hx⟩ := List.exists_cons_of_ne_nil hne
  have hx0 : x ≠ 0 := by
    rw [hx] at hh
    simpa using hh
  have hlo : 10 ^ xs.length ≤ ofDigits d.mant := by
    rw [hx]; exact ofDigits_ge x xs hx0
  have hhi : ofDigits d.mant < 10 ^ d.mant.length := ofDigits_lt d.mant hd
  have hlen : d.mant.length = xs.length + 1 := by rw [hx]; rfl
  have hloq : (10 : ℚ) ^ xs.length ≤ (ofDigits d.mant : ℚ) := by exact_mod_cast hlo
  have hhiq : (ofDigits d.mant : ℚ) < (10 : ℚ) ^ d.mant.length := by exact_mod_cast hhi
  have hE : (0 : ℚ) < (10 : ℚ) ^ (d.exp - (d.mant.length : Int)) := by positivity
  unfold Decimal.toRat
  constructor
  · have e : (10 : ℚ) ^ (d.exp - 1)
        = (10 : ℚ) ^ xs.length * (10 : ℚ) ^ (d.exp - (d.mant.length : Int)) := by
      rw [← zpow_natCast, ← zpow_add₀ (by norm_num : (10 : ℚ) ≠ 0)]
      congr 1
      rw [hlen]; push_cast; ring
    rw [e]
    exact mul_le_mul_of_nonneg_right hloq hE.le
  · have e : (10 : ℚ) ^ d.exp
        = (10 : ℚ) ^ d.mant.length * (10 : ℚ) ^ (d.exp - (d.mant.length : Int)) := by
      rw [← zpow_natCast, ← zpow_add₀ (by norm_num : (10 : ℚ) ≠ 0)]
      congr 1
      ring
    rw [e]
    exact mul_lt_mul_of_pos_right hhiq hE

theorem Decimal.round_spec (d : Decimal) (n : Nat) (hn : 1 ≤ n) (hN : d.Normal)
    (hne : d.mant ≠ []) :
    (d.round (n : Int)).Normal ∧ (d.round (n : Int)).mant ≠ [] ∧
    (d.round (n : Int)).mant.length ≤ n ∧
    |(d.round (n : Int)).toRat - d.toRat| ≤ (10 : ℚ) ^ (d.exp - (n : Int)) / 2 := by
  unfold Decimal.round
  by_cases hlen : (n : Int) < 0 ∨ (d.mant.length : Int) ≤ (n : Int)
  · rw [if_pos hlen]
    refine ⟨hN, hne, ?_, ?_⟩
    · rcases hlen with h | h
      · omega
      · exact_mod_cast h
    · rw [sub_self, abs_zero]
      positivity
  · rw [if_neg hlen]
    have hL : n < d.mant.length := by
      have : ¬ (d.mant.length : Int) ≤ (n : Int) := fun h => hlen (Or.inr h)
      omega
    rw [Int.toNat_ofNat]
    have hsplit := Decimal.toRat_of_mant d n hL.le
    have hpow := ten_zpow_split d.exp d.mant.length n hL.le
    have hE : (0 : ℚ) < (10 : ℚ) ^ (d.exp - (d.mant.length : Int)) := by positivity
    have hR : ofDigits (d.mant.drop n) < 10 ^ (d.mant.length - n) := by
      have := ofDigits_lt (d.mant.drop n) (fun y hy => hN.1 y (List.mem_of_mem_drop hy))
      rwa [List.length_drop] at this
    have hRq : (ofDigits (d.mant.drop n) : ℚ) < (10 : ℚ) ^ (d.mant.length - n) := by
      exact_mod_cast hR
    have htail := shouldRoundUp_tail d n hN.1 hL
    cases hs : d.shouldRoundUp n with
    | true =>
      simp only [if_true]
      obtain ⟨r1, r2, r3, r4⟩ := Decimal.roundUp_spec d n hN hL
      refine ⟨r1, r2, ?_, ?_⟩
      · have : max n 1 = n := by omega
        omega
      · have ht : (10 : ℚ) ^ (d.mant.length - n) ≤ 2 * (ofDigits (d.mant.drop n) : ℚ) := by
          exact_mod_cast htail.1 hs
        rw [r4, hsplit, hpow]
        generalize (10 : ℚ) ^ (d.exp - (d.mant.length : Int)) = E at hE
        generalize (10 : ℚ) ^ (d.mant.length - n) = P at ht hRq
        generalize (ofDigits (d.mant.drop n) : ℚ) = R at ht hRq
        generalize (ofDigits (d.mant.take n) : ℚ) = T
        rw [abs_le]
        constructor <;> nlinarith
    | false =>
      simp only [Bool.false_eq_true, if_false]
      obtain ⟨r1, r2, r3, r4⟩ := Decimal.roundDown_spec d n hn hN hL
      refine ⟨r1, r2, r3, ?_⟩
      have ht : 2 * (ofDigits (d.mant.drop n) : ℚ) ≤ (10 : ℚ) ^ (d.mant.length - n) := by
        exact_mod_cast htail.2 hs
      have hR0 : (0 : ℚ) ≤ (ofDigits (d.mant.drop n) : ℚ) := Nat.cast_nonneg _
      rw [r4, hsplit, hpow]
      generalize (10 : ℚ) ^ (d.exp - (d.mant.length : Int)) = E at hE
      generalize (10 : ℚ) ^ (d.mant.length - n) = P at ht hRq
      generalize (ofDigits (d.mant.drop n) : ℚ) = R at ht hRq hR0
      generalize (ofDigits (d.mant.take n) : ℚ) = T
      rw [abs_le]
      constructor <;> nlinarith

/-! ### Reading a formatted number back -/

theorem digitByte_spec (d : Nat) (h : d < 10) :
    48 ≤ digitByte d ∧ digitByte d ≤ 57 ∧ (digitByte d).toNat - 48 = d ∧
    digitByte d ≠ 101 ∧ digitByte d ≠ 46 ∧ digitByte d ≠ 45 ∧
    String.utf8EncodeChar (Nat.digitChar d) = [digitByte d] := by
  interval_cases d <;> decide

theorem readDigits_map (ds : List Nat) (h : ∀ x ∈ ds, x < 10) :
    readDigits (ds.map digitByte) = some ds := by
  induction ds with
  | nil => rfl
  | cons d ds ih =>
    obtain ⟨h1, h2, h3, -⟩ := digitByte_spec d (h d (List.mem_cons_self _ _))
    rw [List.map_cons, readDigits, if_pos ⟨h1, h2⟩,
      ih (fun x hx => h x (List.mem_cons_of_mem _ hx)), h3]
    rfl

theorem splitAtByte_append (c : UInt8) (a rest : GoString) (h : c ∉ a) :
    splitAtByte c (a ++ c :: rest) = (a, some rest) := by
  induction a with
  | nil => simp [splitAtByte]
  | cons b a ih =>
    have hb : b ≠ c := fun e => h (by rw [e]; exact List.mem_cons_self _ _)
    have ha : c ∉ a := fun e => h (List.mem_cons_of_mem _ e)
    rw [List.cons_append, splitAtByte, if_neg hb, ih ha]

theorem splitAtByte_none (c : UInt8) (a : GoString) (h : c ∉ a) :
    splitAtByte c a = (a, none) := by
  induction a with
  | nil => rfl
  | cons b a ih =>
    have hb : b ≠ c := fun e => h (by rw [e]; exact List.mem_cons_self _ _)
    have ha : c ∉ a := fun e => h (List.mem_cons_of_mem _ e)
    rw [splitAtByte, if_neg hb, ih ha]

theorem digits_not_mem (ds : List Nat) (h : ∀ x ∈ ds, x < 10) :
    (101 : UInt8) ∉ ds.map digitByte ∧ (46 : UInt8) ∉ ds.map digitByte ∧
    (45 : UInt8) ∉ ds.map digitByte := by
  refine ⟨?_, ?_, ?_⟩ <;>
  · intro hm
    obtain ⟨x, hx, e⟩ := List.mem_map.mp hm
    obtain ⟨-, -, -, h1, h2, h3, -⟩ := digitByte_spec x (h x hx)
    first
      | exact h1 e
      | exact h2 e
      | exact h3 e

theorem toDigitsCore_spec (fuel n : Nat) (acc : List Char) (h : n < fuel) :
    ∃ ds : List Nat, ds ≠ [] ∧ (∀ x ∈ ds, x < 10) ∧ ofDigits ds = n ∧
      Nat.toDigitsCore 10 fuel n acc = ds.map Nat.digitChar ++ acc := by
  induction fuel generalizing n acc with
  | zero => omega
  | succ fuel ih =>
    rw [Nat.toDigitsCore]
    by_cases h0 : n / 10 = 0
    · rw [if_pos h0]
      have hn : n < 10 := by omega
      refine ⟨[n % 10], by simp, ?_, ?_, by simp⟩
      · intro x hx
        rw [List.mem_singleton] at hx
        omega
      · rw [ofDigits_cons, ofDigits_nil]
        simp
        omega
    · rw [if_neg h0]
      obtain ⟨ds, d1, d2, d3, d4⟩ := ih (n / 10) (Nat.digitChar (n % 10) :: acc) (by omega)
      refine ⟨ds ++ [n % 10], by simp, ?_, ?_, ?_⟩
      · intro x hx
        rcases List.mem_append.mp hx with hx | hx
        · exact d2 x hx
        · rw [List.mem_singleton] at hx
          omega
      · rw [ofDigits_append, d3, ofDigits_cons, ofDigits_nil]
        simp
        omega
      · rw [d4]
        simp

theorem lit_digitChars (ds : List Nat) (h : ∀ x ∈ ds, x < 10) :
    lit (String.mk (ds.map Nat.digitChar)) = ds.map digitByte := by
  show (ds.map Nat.digitChar).flatMap String.utf8EncodeChar = ds.map digitByte
  induction ds with
  | nil => rfl
  | cons d ds ih =>
    rw [List.map_cons, List.flatMap_cons, List.map_cons,
      ih (fun x hx => h x (List.mem_cons_of_mem _ hx)),
      (digitByte_spec d (h d (List.mem_cons_self _ _))).2.2.2.2.2.2]
    rfl

theorem lit_repr (n : Nat) :
    ∃ ds : List Nat, ds ≠ [] ∧ (∀ x ∈ ds, x < 10) ∧ ofDigits ds = n ∧
      lit (Nat.repr n) = ds.map digitByte := by
  obtain ⟨ds, d1, d2, d3, d4⟩ := toDigitsCore_spec (n + 1) n [] (by omega)
  refine ⟨ds, d1, d2, d3, ?_⟩
  rw [← lit_digitChars ds d2]
  unfold Nat.repr Nat.toDigits List.asString
  rw [d4, List.append_nil]

theorem readDecimal_of_parts (s : GoString) (i f : List Nat) (x : Int) (et : Option GoString)
    (hi : i ≠ []) (hid : ∀ y ∈ i, y < 10) (hfd : ∀ y ∈ f, y < 10)
    (hs : splitAtByte 101 s
      = (i.map digitByte ++ (if f = [] then [] else 46 :: f.map digitByte), et))
    (hhead : s.head? ≠ some 45) (hx : readExponent et = some x) :
    readDecimal s = some ((ofDigits (i ++ f) : ℚ) * (10 : ℚ) ^ (x - (f.length : Int))) := by
  have h46 := (digits_not_mem i hid).2.1
  unfold readDecimal
  simp only [hhead, decide_False, Bool.false_eq_true, if_false, hs, hx]
  by_cases hf : f = []
  · subst hf
    simp only [if_true, List.append_nil]
    rw [splitAtByte_none 46 _ h46]
    simp only [readDigits_map i hid]
    simp [hi]
  · simp only [if_neg hf]
    rw [splitAtByte_append 46 _ _ h46]
    have hfm : f.map digitByte ≠ [] := by simpa using hf
    simp only [readDigits_map i hid, if_neg hfm, readDigits_map f hfd]
    simp [hi]

theorem readExponent_digits (neg : Bool) (e : List Nat) (he : e ≠ []) (hed : ∀ y ∈ e, y < 10) :
    readExponent (some ((if neg then 45 else 43) :: e.map digitByte))
      = some ((if neg then -1 else 1) * (ofDigits e : Int)) := by
  have hem : e.map digitByte ≠ [] := by simpa using he
  cases neg
  · simp [readExponent, hem, readDigits_map e hed]
  · simp [readExponent, hem, readDigits_map e hed]

theorem filter_digits (ds : List Nat) (h : ∀ y ∈ ds, y < 10) :
    (ds.map digitByte).filter (fun b => b != 46 && b != 45) = ds.map digitByte := by
  rw [List.filter_eq_self]
  intro b hb
  obtain ⟨y, hy, e⟩ := List.mem_map.mp hb
  obtain ⟨-, -, -, -, h2, h3, -⟩ := digitByte_spec y (h y hy)
  rw [← e]
  simp [h2, h3]

theorem significand_of_parts (s : GoString) (i f : List Nat) (et : Option GoString)
    (hid : ∀ y ∈ i, y < 10) (hfd : ∀ y ∈ f, y < 10)
    (hs : splitAtByte 101 s
      = (i.map digitByte ++ (if f = [] then [] else 46 :: f.map digitByte), et)) :
    significand s = ((i ++ f).map digitByte).dropWhile (fun b => b == 48) := by
  unfold significand
  rw [hs]
  simp only
  congr 1
  rw [List.filter_append, filter_digits i hid, List.map_append]
  congr 1
  by_cases hf : f = []
  · subst hf
    simp
  · rw [if_neg hf, List.filter_cons]
    have : ((46 : UInt8) != 46 && (46 : UInt8) != 45) = false := by decide
    rw [this]
    simp only [Bool.false_eq_true, if_false]
    exact filter_digits f hfd

theorem dropWhile_zeros_length (j : Nat) (m : List Nat) :
    (((List.replicate j 0 ++ m).map digitByte).dropWhile (fun b => b == 48)).length
      ≤ m.length := by
  induction j with
  | zero =>
    simp only [List.replicate_zero, List.nil_append]
    calc ((m.map digitByte).dropWhile (fun b => b == 48)).length
        ≤ (m.map digitByte).length := (List.dropWhile_sublist _).length_le
      _ = m.length := List.length_map _ _
  | succ j ih =>
    rw [List.replicate_succ, List.cons_append, List.map_cons, List.dropWhile_cons]
    have : (digitByte 0 == 48) = true := by decide
    rw [this]
    exact ih

theorem fmtE_shape (d : Decimal) (x : Nat) (xs : List Nat) (hx : d.mant = x :: xs) :
    fmtE ((d.mant.length : Int) - 1) d
      = ([x].map digitByte ++ (if xs = [] then [] else 46 :: xs.map digitByte))
        ++ 101 :: (if d.exp - 1 < 0 then 45 else 43)
            :: ((if (d.exp - 1).natAbs < 10 then [48] else [])
                ++ lit (Nat.repr (d.exp - 1).natAbs)) := by
  have hlen : (d.mant.length : Int) - 1 = (xs.length : Int) := by
    rw [hx]; simp
  have hpos : 0 < d.mant.length := by rw [hx]; simp
  have l1 : lit "." = [46] := by decide
  have l2 : lit "e" = [101] := by decide
  have l3 : lit "-" = [45] := by decide
  have l4 : lit "+" = [43] := by decide
  have l5 : lit "0" = [48] := by decide
  unfold fmtE
  simp only [hlen, hpos, if_true, l1, l2, l3, l4, l5, Int.toNat_ofNat]
  have hm : min d.mant.length (xs.length + 1) = xs.length + 1 := by
    rw [hx]; simp
  rw [hm]
  have htk : (d.mant.take (xs.length + 1)).drop 1 = xs := by
    rw [hx]; simp
  rw [htk]
  have hg : d.mant.getD 0 0 = x := by rw [hx]; rfl
  rw [hg]
  by_cases hxs : xs = []
  · subst hxs
    simp
    split <;> split <;> simp
  · have hl : 0 < (xs.length : Int) := by
      have := List.length_pos.mpr hxs
      exact_mod_cast this
    simp only [hl, if_true, if_neg hxs]
    have : xs.length + 1 - max (xs.length + 1) 1 = 0 := by omega
    rw [this]
    simp
    split <;> split <;> simp

theorem fmtE_read (d : Decimal) (hN : d.Normal) (hne : d.mant ≠ []) :
    readDecimal (fmtE ((d.mant.length : Int) - 1) d) = some d.toRat ∧
    (101 : UInt8) ∈ fmtE ((d.mant.length : Int) - 1) d ∧
    (significand (fmtE ((d.mant.length : Int) - 1) d)).length ≤ d.mant.length := by
  obtain ⟨x, xs, hx⟩ := List.exists_cons_of_ne_nil hne
  have hshape := fmtE_shape d x xs hx
  obtain ⟨rs, r1, r2, r3, r4⟩ := lit_repr (d.exp - 1).natAbs
  have hxd : ∀ y ∈ [x], y < 10 := by
    intro y hy
    rw [List.mem_singleton] at hy
    rw [hy]
    exact hN.1 x (by rw [hx]; exact List.mem_cons_self _ _)
  have hxsd : ∀ y ∈ xs, y < 10 := fun y hy => hN.1 y (by rw [hx]; exact List.mem_cons_of_mem _ hy)
  have hmem : (101 : UInt8) ∉ [x].map digitByte ++ (if xs = [] then [] else 46 :: xs.map digitByte) := by
    intro h
    rcases List.mem_append.mp h with h | h
    · exact (digits_not_mem [x] hxd).1 h
    · by_cases hxs : xs = []
      · rw [if_pos hxs] at h
        simp at h
      · rw [if_neg hxs] at h
        rcases List.mem_cons.mp h with h | h
        · exact absurd h (by decide)
        · exact (digits_not_mem xs hxsd).1 h
  have hsplit := splitAtByte_append 101 _
    ((if d.exp - 1 < 0 then 45 else 43)
      :: ((if (d.exp - 1).natAbs < 10 then [48] else []) ++ lit (Nat.repr (d.exp - 1).natAbs)))
    hmem
  rw [← hshape] at hsplit
  set E : List Nat := (if (d.exp - 1).natAbs < 10 then [0] else []) ++ rs with hE
  have hEne : E ≠ [] := by
    rw [hE]
    intro h
    exact r1 (List.append_eq_nil.mp h).2
  have hEd : ∀ y ∈ E, y < 10 := by
    intro y hy
    rw [hE] at hy
    rcases List.mem_append.mp hy with hy | hy
    · split at hy
      · rw [List.mem_singleton] at hy
        omega
      · simp at hy
    · exact r2 y hy
  have hEv : ofDigits E = (d.exp - 1).natAbs := by
    rw [hE, ofDigits_append, r3]
    split
    · rw [ofDigits_cons, ofDigits_nil]; simp
    · rw [ofDigits_nil]; simp
  have hEt : (if (d.exp - 1).natAbs < 10 then [48] else []) ++ lit (Nat.repr (d.exp - 1).natAbs)
      = E.map digitByte := by
    rw [hE, List.map_append, r4]
    congr 1
    split
    · rfl
    · rfl
  rw [hEt] at hsplit
  have hexp : readExponent (some ((if d.exp - 1 < 0 then 45 else 43) :: E.map digitByte))
      = some (d.exp - 1) := by
    have h := readExponent_digits (decide (d.exp - 1 < 0)) E hEne hEd
    simp only [decide_eq_true_eq] at h
    rw [h, hEv]
    congr 1
    split
    · rename_i hneg
      rw [Int.ofNat_natAbs_of_nonpos hneg.le]
      ring
    · rename_i hneg
      rw [Int.natAbs_of_nonneg (not_lt.mp hneg)]
      ring
  have hhead : (fmtE ((d.mant.length : Int) - 1) d).head? ≠ some 45 := by
    rw [hshape]
    simp only [List.map_cons, List.map_nil, List.cons_append, List.head?_cons]
    intro h
    exact (digitByte_spec x (hxd x (List.mem_singleton_self _))).2.2.2.2.2.1 (Option.some.inj h)
  refine ⟨?_, ?_, ?_⟩
  · rw [readDecimal_of_parts _ [x] xs (d.exp - 1) _ (by simp) hxd hxsd hsplit hhead hexp]
    congr 1
    unfold Decimal.toRat
    rw [hx]
    simp only [List.singleton_append, List.length_cons]
    congr 2
    push_cast
    ring
  · rw [hshape]
    simp
  · rw [significand_of_parts _ [x] xs _ hxd hxsd hsplit]
    have := dropWhile_zeros_length 0 ([x] ++ xs)
    simp only [List.replicate_zero, List.nil_append] at this
    rw [hx]
    simpa using this

theorem range_map_eq (l : List Nat) (g : Nat → Nat)
    (h : ∀ i, i < l.length → g i = l.getD i 0) : (List.range l.length).map g = l := by
  apply List.ext_getElem
  · simp
  · intro i h1 h2
    rw [List.getElem_map, List.getElem_range, h i h2, List.getD_eq_getElem?_getD,
      List.getElem?_eq_getElem h2]
    rfl

theorem fmtF_frac_shape (d : Decimal) (hle : d.exp < (d.mant.length : Int)) :
    (List.range ((d.mant.length : Int) - d.exp).toNat).map
        (fun (i : Nat) => digitByte (d.digitAt (d.exp + (i : Int))))
      = (List.replicate (-d.exp).toNat 0 ++ d.mant.drop d.exp.toNat).map digitByte := by
  have hlen : (List.replicate (-d.exp).toNat 0 ++ d.mant.drop d.exp.toNat).length
      = ((d.mant.length : Int) - d.exp).toNat := by
    rw [List.length_append, List.length_replicate, List.length_drop]
    omega
  have hg : ∀ i, i < (List.replicate (-d.exp).toNat 0 ++ d.mant.drop d.exp.toNat).length →
      (fun (i : Nat) => d.digitAt (d.exp + (i : Int))) i
        = (List.replicate (-d.exp).toNat 0 ++ d.mant.drop d.exp.toNat).getD i 0 := ?_
  · have h := range_map_eq _ _ hg
    rw [← hlen]
    conv_rhs => rw [← h]
    rw [List.map_map]
    rfl
  · intro i hi
    rw [hlen] at hi
    show d.digitAt (d.exp + (i : Int)) = _
    unfold Decimal.digitAt
    by_cases hk : i < (-d.exp).toNat
    · have hneg : ¬ (0 ≤ d.exp + (i : Int) ∧ d.exp + (i : Int) < (d.mant.length : Int)) := by
        omega
      rw [if_neg hneg, List.getD_eq_getElem?_getD,
        List.getElem?_append_left (by rw [List.length_replicate]; exact hk),
        List.getElem?_replicate, if_pos hk]
      rfl
    · have hpos : 0 ≤ d.exp + (i : Int) ∧ d.exp + (i : Int) < (d.mant.length : Int) := by
        omega
      rw [if_pos hpos, List.getD_eq_getElem?_getD, List.getD_eq_getElem?_getD,
        List.getElem?_append_right (by rw [List.length_replicate]; omega),
        List.length_replicate, List.getElem?_drop]
      congr 2
      omega

theorem fmtF_shape (d : Decimal) (hne : d.mant ≠ []) :
    fmtF (max ((d.mant.length : Int) - d.exp) 0) d
      = (if 0 < d.exp then d.mant.take d.exp.toNat
            ++ List.replicate (d.exp.toNat - d.mant.length) 0 else [0]).map digitByte
        ++ (if List.replicate (-d.exp).toNat 0 ++ d.mant.drop d.exp.toNat = [] then []
            else 46 :: (List.replicate (-d.exp).toNat 0 ++ d.mant.drop d.exp.toNat).map
              digitByte) := by
  have hpos : 0 < d.mant.length := List.length_pos.mpr hne
  have l1 : lit "." = [46] := by decide
  have l5 : lit "0" = [digitByte 0] := by decide
  unfold fmtF
  simp only
  congr 1
  · by_cases he : 0 < d.exp
    · rw [if_pos he, if_pos he, List.map_append, List.map_replicate]
      by_cases hl : d.mant.length ≤ d.exp.toNat
      · rw [Nat.min_eq_left hl, List.take_of_length_le hl, List.take_of_length_le le_rfl]
      · have hl2 : d.exp.toNat ≤ d.mant.length := by omega
        rw [Nat.min_eq_right hl2]
        have : d.exp.toNat - d.mant.length = 0 := by omega
        rw [this, Nat.sub_self]
    · rw [if_neg he, if_neg he, l5]
      rfl
  · by_cases hl : d.exp < (d.mant.length : Int)
    · have hp : 0 < max ((d.mant.length : Int) - d.exp) 0 := by omega
      have hm : max ((d.mant.length : Int) - d.exp) 0 = (d.mant.length : Int) - d.exp := by
        omega
      rw [if_pos hp, hm, fmtF_frac_shape d hl, l1]
      have hF : List.replicate (-d.exp).toNat 0 ++ d.mant.drop d.exp.toNat ≠ [] := by
        intro h
        have h2 := congrArg List.length h
        rw [List.length_append, List.length_replicate, List.length_drop, List.length_nil] at h2
        omega
      rw [if_neg hF]
      rfl
    · have hp : ¬ 0 < max ((d.mant.length : Int) - d.exp) 0 := by omega
      rw [if_neg hp]
      have hF : List.replicate (-d.exp).toNat 0 ++ d.mant.drop d.exp.toNat = [] := by
        apply List.eq_nil_of_length_eq_zero
        rw [List.length_append, List.length_replicate, List.length_drop]
        omega
      rw [if_pos hF]

theorem ofDigits_zeros_append (k : Nat) (l : List Nat) :
    ofDigits (List.replicate k 0 ++ l) = ofDigits l := by
  rw [ofDigits_append, ofDigits_replicate_zero]
  simp

theorem fmtF_read (d : Decimal) (hN : d.Normal) (hne : d.mant ≠ []) :
    readDecimal (fmtF (max ((d.mant.length : Int) - d.exp) 0) d) = some d.toRat ∧
    (101 : UInt8) ∉ fmtF (max ((d.mant.length : Int) - d.exp) 0) d ∧
    (significand (fmtF (max ((d.mant.length : Int) - d.exp) 0) d)).length
      ≤ max d.mant.length d.exp.toNat := by
  have hpos : 0 < d.mant.length := List.length_pos.mpr hne
  have hshape := fmtF_shape d hne
  set I : List Nat := if 0 < d.exp then d.mant.take d.exp.toNat
            ++ List.replicate (d.exp.toNat - d.mant.length) 0 else [0] with hI
  set F : List Nat := List.replicate (-d.exp).toNat 0 ++ d.mant.drop d.exp.toNat with hF
  have hId : ∀ y ∈ I, y < 10 := by
    intro y hy
    rw [hI] at hy
    split at hy
    · rcases List.mem_append.mp hy with hy | hy
      · exact hN.1 y (List.mem_of_mem_take hy)
      · rw [(List.mem_replicate.mp hy).2]
        omega
    · rw [List.mem_singleton] at hy
      omega
  have hFd : ∀ y ∈ F, y < 10 := by
    intro y hy
    rw [hF] at hy
    rcases List.mem_append.mp hy with hy | hy
    · rw [(List.mem_replicate.mp hy).2]
      omega
    · exact hN.1 y (List.mem_of_mem_drop hy)
  have hIne : I ≠ [] := by
    rw [hI]
    split
    · rename_i he
      intro h
      have h2 := congrArg List.length h
      rw [List.length_append, List.length_take, List.length_replicate, List.length_nil] at h2
      omega
    · simp
  have hmem : (101 : UInt8) ∉ I.map digitByte ++ (if F = [] then [] else 46 :: F.map digitByte) := by
    intro h
    rcases List.mem_append.mp h with h | h
    · exact (digits_not_mem I hId).1 h
    · by_cases hf : F = []
      · rw [if_pos hf] at h
        simp at h
      · rw [if_neg hf] at h
        rcases List.mem_cons.mp h with h | h
        · exact absurd h (by decide)
        · exact (digits_not_mem F hFd).1 h
  have hsplit : splitAtByte 101 (fmtF (max ((d.mant.length : Int) - d.exp) 0) d)
      = (I.map digitByte ++ (if F = [] then [] else 46 :: F.map digitByte), none) := by
    rw [hshape]
    exact splitAtByte_none 101 _ hmem
  rw [← hshape] at hmem
  have hhead : (fmtF (max ((d.mant.length : Int) - d.exp) 0) d).head? ≠ some 45 := by
    intro h
    have h45 : (45 : UInt8) ∈ fmtF (max ((d.mant.length : Int) - d.exp) 0) d :=
      List.mem_of_mem_head? h
    rw [hshape] at h45
    rcases List.mem_append.mp h45 with h | h
    · exact (digits_not_mem I hId).2.2 h
    · by_cases hf : F = []
      · rw [if_pos hf] at h
        simp at h
      · rw [if_neg hf] at h
        rcases List.mem_cons.mp h with h | h
        · exact absurd h (by decide)
        · exact (digits_not_mem F hFd).2.2 h
  have hexp : readExponent none = some 0 := rfl
  refine ⟨?_, hmem, ?_⟩
  · rw [readDecimal_of_parts _ I F 0 none hIne hId hFd hsplit hhead hexp]
    congr 1
    unfold Decimal.toRat
    by_cases he : 0 < d.exp
    · by_cases hl : d.mant.length ≤ d.exp.toNat
      · have hI2 : I = d.mant ++ List.replicate (d.exp.toNat - d.mant.length) 0 := by
          rw [hI, if_pos he, List.take_of_length_le hl]
        have hF2 : F = [] := by
          apply List.eq_nil_of_length_eq_zero
          rw [hF, List.length_append, List.length_replicate, List.length_drop]
          omega
        rw [hI2, hF2, List.append_nil, ofDigits_append, ofDigits_replicate_zero,
          List.length_replicate, List.length_nil]
        have e : d.exp - (d.mant.length : Int) = ((d.exp.toNat - d.mant.length : Nat) : Int) := by
          omega
        rw [e, zpow_natCast]
        push_cast
        simp
      · have hI2 : I = d.mant.take d.exp.toNat := by
          rw [hI, if_pos he]
          have : d.exp.toNat - d.mant.length = 0 := by omega
          rw [this]
          simp
        have hF2 : F = d.mant.drop d.exp.toNat := by
          rw [hF]
          have : (-d.exp).toNat = 0 := by omega
          rw [this]
          simp
        rw [hI2, hF2, List.take_append_drop, List.length_drop]
        congr 2
        omega
    · have hI2 : I = [0] := by rw [hI, if_neg he]
      have hF2 : F = List.replicate (-d.exp).toNat 0 ++ d.mant := by
        rw [hF]
        have : d.exp.toNat = 0 := by omega
        rw [this]
        simp
      rw [hI2, hF2, List.singleton_append, ← List.cons_append, ← List.replicate_succ,
        ofDigits_zeros_append, List.length_append, List.length_replicate]
      congr 2
      omega
  · rw [significand_of_parts _ I F none hId hFd hsplit]
    by_cases he : 0 < d.exp
    · have h1 := dropWhile_zeros_length 0 (I ++ F)
      simp only [List.replicate_zero, List.nil_append] at h1
      refine le_trans h1 ?_
      rw [hI, hF, if_pos he, List.length_append, List.length_append, List.length_append,
        List.length_take, List.length_replicate, List.length_replicate, List.length_drop]
      omega
    · have hI2 : I = [0] := by rw [hI, if_neg he]
      have hF2 : F = List.replicate (-d.exp).toNat 0 ++ d.mant := by
        rw [hF]
        have : d.exp.toNat = 0 := by omega
        rw [this]
        simp
      rw [hI2, hF2, List.singleton_append, ← List.cons_append, ← List.replicate_succ]
      exact le_trans (dropWhile_zeros_length _ _) (le_max_left _ _)

/-! ### The balance string -/

theorem roundMant_le (prec m : Nat) (e : Int) : (roundMant prec m e).1 ≤ 2 ^ prec := by
  unfold roundMant
  have hlt := lt_two_pow_bitLen m
  by_cases hn : bitLen m ≤ prec
  · simp only [hn, if_true]
    exact le_trans hlt.le (Nat.pow_le_pow_right (by norm_num) hn)
  · simp only [hn, if_false]
    have hq : m / 2 ^ (bitLen m - prec) < 2 ^ prec := by
      rw [Nat.div_lt_iff_lt_mul (by positivity), ← pow_add]
      have : prec + (bitLen m - prec) = bitLen m := by omega
      rw [this]
      exact hlt
    split
    · exact hq
    · exact hq.le

theorem roundMant_ne_zero (m : Nat) (e : Int) (hm : m ≠ 0) :
    (roundMant floatPrec m e).1 ≠ 0 := by
  obtain ⟨s, -, -, h2⟩ := roundMant_spec floatPrec m e (by decide)
  intro h0
  rw [h0] at h2
  unfold floatPrec at h2
  have : 0 < m := Nat.pos_of_ne_zero hm
  omega

theorem ToEther_form (w : Nat) :
    (ToEther (w : Int)).neg = false ∧ (ToEther (w : Int)).mant ≤ 2 ^ 53 ∧
    (w ≠ 0 → (ToEther (w : Int)).mant ≠ 0) := by
  have hsgn : decide ((w : Int) < 0) = false := by simp
  unfold ToEther BigFloat.Mul BigFloat.SetInt
  simp only [Int.natAbs_ofNat, hsgn]
  by_cases h0 : float64_1e_18.mant = 0 ∨ (roundMant floatPrec w 0).1 = 0
  · rw [if_pos h0]
    refine ⟨rfl, by simp, ?_⟩
    intro hw
    rcases h0 with h0 | h0
    · exact absurd h0 (by decide)
    · exact absurd h0 (roundMant_ne_zero w 0 hw)
  · rw [if_neg h0]
    refine ⟨rfl, roundMant_le floatPrec _ _, fun _ => ?_⟩
    apply roundMant_ne_zero
    intro h
    rcases Nat.mul_eq_zero.mp h with h | h
    · exact h0 (Or.inl h)
    · exact h0 (Or.inr h)

theorem String_read (x : BigFloat) (hneg : x.neg = false) (hm : x.mant ≠ 0) :
    ∃ d : Decimal, (10 : ℚ) ^ (d.exp - 1) ≤ d.toRat ∧ d.toRat < (10 : ℚ) ^ d.exp ∧
      |d.toRat - x.toRat| ≤ x.toRat * (1 / 10 ^ 9) / 2 ∧
      readDecimal x.String = some d.toRat ∧
      ((101 : UInt8) ∈ x.String ↔ d.exp - 1 < -4 ∨ 10 ≤ d.exp - 1) ∧
      (significand x.String).length ≤ 10 := by
  obtain ⟨i1, i2, i3⟩ := Decimal.init_spec x.mant x.exp hm
  obtain ⟨r1, r2, r3, r4⟩ := Decimal.round_spec (Decimal.init x.mant x.exp) 10 (by norm_num) i1 i2
  obtain ⟨b1, b2⟩ := Decimal.toRat_bounds _ i1 i2
  obtain ⟨c1, c2⟩ := Decimal.toRat_bounds _ r1 r2
  have hx : x.toRat = (Decimal.init x.mant x.exp).toRat := by
    rw [i3]
    unfold BigFloat.toRat
    rw [hneg]
    simp
  have hd : x.roundedDecimal 10 = (Decimal.init x.mant x.exp).round ((10 : Nat) : Int) := by
    unfold BigFloat.roundedDecimal
    simp only [ne_eq, hm, not_false_eq_true, if_true]
    rfl
  refine ⟨(Decimal.init x.mant x.exp).round ((10 : Nat) : Int), c1, c2, ?_, ?_⟩
  · rw [hx]
    refine le_trans r4 ?_
    have e : (10 : ℚ) ^ ((Decimal.init x.mant x.exp).exp - ((10 : Nat) : Int))
        = (10 : ℚ) ^ ((Decimal.init x.mant x.exp).exp - 1) * (1 / 10 ^ 9) := by
      have : (Decimal.init x.mant x.exp).exp - ((10 : Nat) : Int)
          = ((Decimal.init x.mant x.exp).exp - 1) + (-9 : Int) := by
        push_cast
        ring
      rw [this, zpow_add₀ (by norm_num : (10 : ℚ) ≠ 0)]
      norm_num
    rw [e]
    have : (10 : ℚ) ^ ((Decimal.init x.mant x.exp).exp - 1) * (1 / 10 ^ 9)
        ≤ (Decimal.init x.mant x.exp).toRat * (1 / 10 ^ 9) :=
      mul_le_mul_of_nonneg_right b1 (by positivity)
    linarith
  · generalize hdd : (Decimal.init x.mant x.exp).round ((10 : Nat) : Int) = d at *
    have hlen : (d.mant.length : Int) ≤ 10 := by exact_mod_cast r3
    have hpos : 0 < d.mant.length := List.length_pos.mpr r2
    have hS : x.String = if d.exp - 1 < -4 ∨ 10 ≤ d.exp - 1
        then fmtE ((d.mant.length : Int) - 1) d
        else fmtF (max ((d.mant.length : Int) - d.exp) 0) d := by
      unfold BigFloat.String BigFloat.Text_g
      simp only [hneg, hd, Bool.false_eq_true, if_false, List.nil_append,
        show ((10 : Int) = 0) = False from by simp]
      by_cases hE : d.exp - 1 < -4 ∨ 10 ≤ d.exp - 1
      · have hE2 : d.exp - 1 < -4 ∨
            (if (d.mant.length : Int) < 10 ∧ d.exp ≤ (d.mant.length : Int)
              then (d.mant.length : Int) else 10) ≤ d.exp - 1 := by
          rcases hE with h | h
          · exact Or.inl h
          · right
            split
            · omega
            · exact h
        rw [if_pos hE2, if_pos hE]
        congr 1
        split
        · rfl
        · omega
      · have hE2 : ¬ (d.exp - 1 < -4 ∨
            (if (d.mant.length : Int) < 10 ∧ d.exp ≤ (d.mant.length : Int)
              then (d.mant.length : Int) else 10) ≤ d.exp - 1) := by
          intro h
          rcases h with h | h
          · exact hE (Or.inl h)
          · split at h
            · omega
            · exact hE (Or.inr h)
        rw [if_neg hE2, if_neg hE]
        congr 1
        split
        · rfl
        · omega
    by_cases hE : d.exp - 1 < -4 ∨ 10 ≤ d.exp - 1
    · rw [if_pos hE] at hS
      obtain ⟨f1, f2, f3⟩ := fmtE_read d r1 r2
      rw [hS]
      refine ⟨f1, ?_, le_trans f3 r3⟩
      exact ⟨fun _ => hE, fun _ => f2⟩
    · rw [if_neg hE] at hS
      obtain ⟨f1, f2, f3⟩ := fmtF_read d r1 r2
      rw [hS]
      refine ⟨f1, ?_, le_trans f3 ?_⟩
      · exact ⟨fun h => absurd h f2, fun h => absurd h hE⟩
      · have : d.exp.toNat ≤ 10 := by omega
        exact max_le r3 this

theorem exponent_form_iff (d : Decimal) (h1 : (10 : ℚ) ^ (d.exp - 1) ≤ d.toRat)
    (h2 : d.toRat < (10 : ℚ) ^ d.exp) :
    (d.exp - 1 < -4 ∨ 10 ≤ d.exp - 1) ↔ (d.toRat < 1 / 10 ^ 4 ∨ (10 : ℚ) ^ 10 ≤ d.toRat) := by
  have ten : (1 : ℚ) < 10 := by norm_num
  have e4 : (1 : ℚ) / 10 ^ 4 = (10 : ℚ) ^ (-4 : Int) := by norm_num
  have e10 : (10 : ℚ) ^ 10 = (10 : ℚ) ^ (10 : Int) := by norm_num
  rw [e4, e10]
  constructor
  · rintro (h | h)
    · left
      exact lt_of_lt_of_le h2 (zpow_le_zpow_right₀ ten.le (by omega))
    · right
      exact le_trans (zpow_le_zpow_right₀ ten.le h) h1
  · rintro (h | h)
    · left
      exact (zpow_lt_zpow_iff_right₀ ten).mp (lt_of_le_of_lt h1 h)
    · right
      have := (zpow_lt_zpow_iff_right₀ ten).mp (lt_of_le_of_lt h h2)
      omega

/-- C1 fails as stated: one wei is rendered in exponent form, `"1e-18"`, and not as
`"0.000000000000000001"`. -/
theorem ToEther_String_one_wei :
    (ToEther 1).String = lit "1e-18" ∧
    (ToEther 1).String ≠ lit "0.000000000000000001" := by
  decide!

/-- C1 as amended: for every non-negative wei amount `w` the value `ToEther` returns has a
mantissa of at most 53 bits and lies within a relative error of `2^(-51)` of `w / 10^18`; the
stored balance string is a decimal numeral with at most 10 significant digits whose value
lies within a relative error of `6 / 10^10` of `w / 10^18`, and it is in exponent form
exactly when `w` is not zero and that value is below `10^(-4)` or at least `10^10`. `10^18`
wei is the float `2^52 * 2^(-52)` and gives `"1"`, `5 * 10^17` wei gives `"0.5"`, one wei
gives `"1e-18"`, `12345678901234567890` wei gives `"12.3456789"`, `12345678915000000000` wei
gives `"12.34567892"`, `10^28` wei gives `"1e+10"`, `10^27` wei gives `"1000000000"`,
`99999999994999` wei gives `"9.999999999e-05"`, `10^14` wei gives `"0.0001"` and zero wei
gives `"0"`. -/
theorem ToEther_String_amended (w : Nat) :
    (ToEther (w : Int)).mant ≤ 2 ^ 53 ∧
    |(ToEther (w : Int)).toRat - (w : ℚ) / 10 ^ 18| ≤ (w : ℚ) / 10 ^ 18 / 2 ^ 51 ∧
    (∃ v : ℚ, readDecimal (ToEther (w : Int)).String = some v ∧
      |v - (w : ℚ) / 10 ^ 18| ≤ (w : ℚ) / 10 ^ 18 * (6 / 10 ^ 10) ∧
      ((101 : UInt8) ∈ (ToEther (w : Int)).String
        ↔ w ≠ 0 ∧ (v < 1 / 10 ^ 4 ∨ (10 : ℚ) ^ 10 ≤ v))) ∧
    (significand (ToEther (w : Int)).String).length ≤ 10 ∧
    ToEther 1000000000000000000 = { neg := false, mant := 4503599627370496, exp := -52 } ∧
    (ToEther 1000000000000000000).String = lit "1" ∧
    (ToEther 500000000000000000).String = lit "0.5" ∧
    (ToEther 1).String = lit "1e-18" ∧
    (ToEther 12345678901234567890).String = lit "12.3456789" ∧
    (ToEther 12345678915000000000).String = lit "12.34567892" ∧
    (ToEther 10000000000000000000000000000).String = lit "1e+10" ∧
    (ToEther 1000000000000000000000000000).String = lit "1000000000" ∧
    (ToEther 99999999994999).String = lit "9.999999999e-05" ∧
    (ToEther 100000000000000).String = lit "0.0001" ∧
    (ToEther 0).String = lit "0" := by
  have hclose := ToEther_toRat_close w
  obtain ⟨t1, t2, t3⟩ := ToEther_form w
  refine ⟨t2, hclose, ?_, ?_, by decide!, by decide!, by decide!, by decide!, by decide!,
    by decide!, by decide!, by decide!, by decide!, by decide!, by decide!⟩
  · by_cases hw : w = 0
    · subst hw
      have hs : (ToEther ((0 : Nat) : Int)).String = lit "0" := by decide!
      have hr : readDecimal (lit "0") = some 0 := by
        have h := readDecimal_of_parts (lit "0") [0] [] 0 none (by simp) (by simp) (by simp)
          (by decide) (by decide) rfl
        rw [h]
        simp [ofDigits]
      refine ⟨0, by rw [hs, hr], by simp, ?_⟩
      rw [hs]
      constructor
      · intro h
        exact absurd h (by decide)
      · intro h
        exact absurd rfl h.1
    · obtain ⟨d, d1, d2, d3, d4, d5, -⟩ := String_read _ t1 (t3 hw)
      refine ⟨d.toRat, d4, ?_, ?_⟩
      · have hX : (0 : ℚ) ≤ (w : ℚ) / 10 ^ 18 := by positivity
        rw [abs_le] at hclose d3 ⊢
        obtain ⟨a1, a2⟩ := hclose
        obtain ⟨a3, a4⟩ := d3
        generalize (ToEther (w : Int)).toRat = T at a1 a2 a3 a4
        generalize (w : ℚ) / 10 ^ 18 = X at hX a1 a2 ⊢
        generalize d.toRat = v at a3 a4 ⊢
        norm_num at a1 a2 a3 a4 ⊢
        constructor <;> linarith
      · rw [d5, exponent_form_iff d d1 d2]
        exact ⟨fun h => ⟨hw, h⟩, fun h => h.2⟩
  · by_cases hw : w = 0
    · subst hw
      decide!
    · obtain ⟨d, -, -, -, -, -, d6⟩ := String_read _ t1 (t3 hw)
      exact d6
/-! ## Theorems: `UpdateAddressMetrics` -/

/-- C5: whatever the observation held before and whatever the outcome of each of the five
reads, `UpdateAddressMetrics` stores the fresh value of every read that succeeded and the
placeholder of every read that failed (empty string for the balances, 0 for the nonces, and
`false` and 0 for the code fields), sets `LastUpdated` to the current time and keeps name and
address. -/
theorem UpdateAddressMetrics_fields (w : Watching) (eth : ChainReads) (now : Int) :
    (∀ bal, eth.BalanceAt = some bal →
      (UpdateAddressMetrics w eth now).Balance = (ToEther bal).String) ∧
    (eth.BalanceAt = none → (UpdateAddressMetrics w eth now).Balance = []) ∧
    (∀ pbal, eth.PendingBalanceAt = some pbal →
      (UpdateAddressMetrics w eth now).BalancePending = (ToEther pbal).String) ∧
    (eth.PendingBalanceAt = none → (UpdateAddressMetrics w eth now).BalancePending = []) ∧
    (∀ n, eth.NonceAt = some n → (UpdateAddressMetrics w eth now).Nonce = n) ∧
    (eth.NonceAt = none → (UpdateAddressMetrics w eth now).Nonce = 0) ∧
    (∀ pn, eth.PendingNonceAt = some pn → (UpdateAddressMetrics w eth now).NoncePending = pn) ∧
    (eth.PendingNonceAt = none → (UpdateAddressMetrics w eth now).NoncePending = 0) ∧
    (∀ code, eth.CodeAt = some code →
      (UpdateAddressMetrics w eth now).CodeSize = (code.length : Int) ∧
      (UpdateAddressMetrics w eth now).IsContract = decide (0 < code.length)) ∧
    (eth.CodeAt = none →
      (UpdateAddressMetrics w eth now).CodeSize = 0 ∧
      (UpdateAddressMetrics w eth now).IsContract = false) ∧
    (UpdateAddressMetrics w eth now).LastUpdated = now ∧
    (UpdateAddressMetrics w eth now).Name = w.Name ∧
    (UpdateAddressMetrics w eth now).Address = w.Address := by
  refine ⟨?_, ?_, ?_, ?_, ?_, ?_, ?_, ?_, ?_, ?_, rfl, rfl, rfl⟩
  · intro bal h; simp [UpdateAddressMetrics, h]
  · intro h; simp [UpdateAddressMetrics, h]
  · intro pbal h; simp [UpdateAddressMetrics, h]
  · intro h; simp [UpdateAddressMetrics, h]
  · intro n h; simp [UpdateAddressMetrics, h]
  · intro h; simp [UpdateAddressMetrics, h]
  · intro pn h; simp [UpdateAddressMetrics, h]
  · intro h; simp [UpdateAddressMetrics, h]
  · intro code h; simp [UpdateAddressMetrics, h]
  · intro h; simp [UpdateAddressMetrics, h]

/-- C5, at an observation whose `NonceAt` read alone fails at time 1700000060: balance,
pending balance, pending nonce and the code fields take the new values, `LastUpdated` is the
current time and `Nonce` falls back to 0 from 7. -/
theorem UpdateAddressMetrics_fields_witness :
    (UpdateAddressMetrics sampleWatching onlyNonceFails 1700000060).Balance
      = (ToEther 1000000000000000000).String ∧
    (UpdateAddressMetrics sampleWatching onlyNonceFails 1700000060).BalancePending
      = (ToEther 500000000000000000).String ∧
    (UpdateAddressMetrics sampleWatching onlyNonceFails 1700000060).Nonce = 0 ∧
    (UpdateAddressMetrics sampleWatching onlyNonceFails 1700000060).NoncePending = 9 ∧
    (UpdateAddressMetrics sampleWatching onlyNonceFails 1700000060).CodeSize = 2 ∧
    (UpdateAddressMetrics sampleWatching onlyNonceFails 1700000060).IsContract = true ∧
    (UpdateAddressMetrics sampleWatching onlyNonceFails 1700000060).LastUpdated = 1700000060 :=
  have h := UpdateAddressMetrics_fields sampleWatching onlyNonceFails 1700000060
  ⟨h.1 _ rfl, h.2.2.1 _ rfl, h.2.2.2.2.2.1 rfl, h.2.2.2.2.2.2.1 _ rfl,
    (h.2.2.2.2.2.2.2.2.1 _ rfl).1, (h.2.2.2.2.2.2.2.2.1 _ rfl).2, h.2.2.2.2.2.2.2.2.2.2.1⟩

/-- C6 fails as stated: with every read failing at time 1700000060, `LastUpdated` moves from
1700000000 to 1700000060. -/
theorem UpdateAddressMetrics_LastUpdated_changes_when_all_fail :
    sampleWatching.LastUpdated = 1700000000 ∧
    (UpdateAddressMetrics sampleWatching allReadsFail 1700000060).LastUpdated = 1700000060 ∧
    (UpdateAddressMetrics sampleWatching allReadsFail 1700000060).LastUpdated
      ≠ sampleWatching.LastUpdated := by
  decide

/-- C6 as amended: `UpdateAddressMetrics` sets `LastUpdated` to the current time on every
call, whether or not any of the reads succeeded. -/
theorem UpdateAddressMetrics_LastUpdated_always (w : Watching) (eth : ChainReads) (now : Int) :
    (UpdateAddressMetrics w eth now).LastUpdated = now := rfl

/-- C7 fails as stated: when the code read fails on an observation that held
`IsContract = true` and `CodeSize = 5`, both are overwritten, with `false` and 0. -/
theorem UpdateAddressMetrics_code_failure_resets :
    sampleWatching.IsContract = true ∧ sampleWatching.CodeSize = 5 ∧
    allReadsFail.CodeAt = none ∧
    (UpdateAddressMetrics sampleWatching allReadsFail 1700000060).IsContract = false ∧
    (UpdateAddressMetrics sampleWatching allReadsFail 1700000060).CodeSize = 0 ∧
    ¬ ((UpdateAddressMetrics sampleWatching allReadsFail 1700000060).IsContract
          = sampleWatching.IsContract ∧
       (UpdateAddressMetrics sampleWatching allReadsFail 1700000060).CodeSize
          = sampleWatching.CodeSize) := by
  decide

/-- C7 as amended: a successful code read of `c` gives `CodeSize = len(c)` and
`IsContract = (len(c) > 0)`; a failed code read gives `IsContract = false` and
`CodeSize = 0`, whatever the observation held before. -/
theorem UpdateAddressMetrics_code_fields (w : Watching) (eth : ChainReads) (now : Int) :
    (UpdateAddressMetrics w eth now).CodeSize
      = (match eth.CodeAt with
         | some c => (c.length : Int)
         | none => 0) ∧
    (UpdateAddressMetrics w eth now).IsContract
      = (match eth.CodeAt with
         | some c => decide (0 < c.length)
         | none => false) := ⟨rfl, rfl⟩

/-! ## Theorems: `MetricsHttp` -/

theorem lit_append (a b : String) : lit (a ++ b) = lit a ++ lit b := by
  simp [lit, String.toUTF8, String.data_append]

theorem fmtNat_eq (n : Nat) : fmtNat n = lit (toString n) := rfl

theorem fmtInt_eq (i : Int) : fmtInt i = lit (toString i) := by
  unfold fmtInt
  cases i with
  | ofNat n =>
    have h : ¬ (Int.ofNat n < 0) := by simp
    rw [if_neg h]
    rfl
  | negSucc n =>
    have h : Int.negSucc n < 0 := Int.negSucc_lt_zero n
    rw [if_pos h]
    show lit "-" ++ lit (Nat.repr (n + 1)) = lit ("-" ++ Nat.repr (n + 1))
    rw [lit_append]

theorem addressBlock_length (p : GoString) (v : Watching) : (addressBlock p v).length = 7 := rfl

theorem renderStep_eq {V : Type} (ops : FloatOps V) (p : GoString) (st : RenderState V)
    (v : Watching) :
    renderStep ops p st v =
      (Add ops st.total (SetString ops (orZero v.Balance))).map (fun t =>
        { allOut := st.allOut ++ addressBlock p v,
          total := t,
          contracts := st.contracts + (if v.IsContract then 1 else 0),
          eoas := st.eoas + (if v.IsContract then 0 else 1) }) := by
  unfold renderStep
  dsimp only
  split
  · rename_i h
    rw [h]
    rfl
  · rename_i t h
    rw [h]
    have e0 : lit "\"\x7d 0" = lit "\"\x7d " ++ lit "0" := by decide
    have e1 : lit "\"\x7d 1" = lit "\"\x7d " ++ lit "1" := by decide
    cases hc : v.IsContract <;>
      simp [addressBlock, orZero, fmtNat_eq, fmtInt_eq, hc, e0, e1]

theorem renderLoop_eq {V : Type} (ops : FloatOps V) (p : GoString) (ws : List Watching)
    (st : RenderState V) :
    renderLoop ops p ws st =
      (runningTotal ops st.total ws).map (fun t =>
        { allOut := st.allOut ++ ws.flatMap (addressBlock p),
          total := t,
          contracts := st.contracts + ws.countP (fun v => v.IsContract),
          eoas := st.eoas + ws.countP (fun v => !v.IsContract) }) := by
  induction ws generalizing st with
  | nil => simp [renderLoop, runningTotal]
  | cons v ws ih =>
    unfold renderLoop runningTotal
    rw [renderStep_eq]
    cases hA : Add ops st.total (SetString ops (orZero v.Balance)) with
    | none => rfl
    | some t =>
      simp only [Option.map_some']
      rw [ih]
      cases hc : v.IsContract <;>
        simp [hc, List.countP_cons, Nat.add_assoc, Nat.add_comm]

/-- The slice `MetricsHttp` joins, written out: it exists exactly when the running total can
be summed, and consists of the blocks of the targets in registry order and the five aggregate
lines. -/
theorem allOut_eq {V : Type} (ops : FloatOps V) (p : GoString) (ws : List Watching)
    (ls : GoString) (tl : Int) :
    MetricsHttp.allOut ops p ws ls tl =
      (runningTotal ops (FloatValue.finite ops.zero) ws).map (fun _ =>
        ws.flatMap (addressBlock p) ++ aggregateBlock p ws ls tl) := by
  unfold MetricsHttp.allOut
  rw [renderLoop_eq]
  cases runningTotal ops (FloatValue.finite ops.zero) ws with
  | none => rfl
  | some t => simp [aggregateBlock, fmtNat_eq, fmtInt_eq]

theorem flatMap_addressBlock_length (p : GoString) (ws : List Watching) :
    (ws.flatMap (addressBlock p)).length = 7 * ws.length := by
  induction ws with
  | nil => rfl
  | cons v ws ih => simp [List.flatMap_cons, ih, addressBlock_length]; omega

theorem flatMap_addressBlock_drop (p : GoString) (ws : List Watching) (i : Nat) :
    (ws.flatMap (addressBlock p)).drop (7 * i) = (ws.drop i).flatMap (addressBlock p) := by
  induction ws generalizing i with
  | nil => simp
  | cons v ws ih =>
    cases i with
    | zero => simp
    | succ i =>
      have h7 : 7 * (i + 1) = (addressBlock p v).length + 7 * i := by
        rw [addressBlock_length]; omega
      rw [List.flatMap_cons, h7, List.drop_append, List.drop_succ_cons, ih]

theorem countP_contract_add_eoa (ws : List Watching) :
    ws.countP (fun v => v.IsContract) + ws.countP (fun v => !v.IsContract) = ws.length := by
  induction ws with
  | nil => rfl
  | cons v ws ih => cases hc : v.IsContract <;> simp [List.countP_cons, hc] <;> omega

theorem mem_lit (b : UInt8) (s : String) :
    b ∈ lit s ↔ ∃ c ∈ s.data, b ∈ String.utf8EncodeChar c := by
  simp [lit, String.toUTF8]

theorem digitChar_mem (k : Nat) (h : k < 10) : Nat.digitChar k ∈ "0123456789".data := by
  interval_cases k <;> decide

theorem toDigitsCore_digits (fuel n : Nat) (ds : List Char)
    (hds : ∀ c ∈ ds, c ∈ "0123456789".data) :
    ∀ c ∈ Nat.toDigitsCore 10 fuel n ds, c ∈ "0123456789".data := by
  induction fuel generalizing n ds with
  | zero => simpa [Nat.toDigitsCore] using hds
  | succ fuel ih =>
    have hd : Nat.digitChar (n % 10) ∈ "0123456789".data :=
      digitChar_mem _ (Nat.mod_lt _ (by norm_num))
    have hds2 : ∀ c ∈ Nat.digitChar (n % 10) :: ds, c ∈ "0123456789".data := by
      intro c hc
      rcases List.mem_cons.mp hc with rfl | hc
      · exact hd
      · exact hds c hc
    unfold Nat.toDigitsCore
    dsimp only
    split
    · exact hds2
    · exact ih _ _ hds2

theorem repr_digits (n : Nat) : ∀ c ∈ (Nat.repr n).data, c ∈ "0123456789".data := by
  unfold Nat.repr Nat.toDigits
  exact toDigitsCore_digits _ _ _ (by simp)

theorem digit_bytes : ∀ c ∈ "0123456789".data, ∀ b ∈ String.utf8EncodeChar c,
    48 ≤ b ∧ b ≤ 57 := by decide

theorem fmt_nat_bytes (n : Nat) : ∀ b ∈ lit (toString n), 48 ≤ b ∧ b ≤ 57 := by
  intro b hb
  obtain ⟨c, hc, hbc⟩ := (mem_lit b _).mp hb
  exact digit_bytes c (repr_digits n c hc) b hbc

theorem fmt_int_bytes (i : Int) : ∀ b ∈ lit (toString i), b = 45 ∨ (48 ≤ b ∧ b ≤ 57) := by
  intro b hb
  rw [← fmtInt_eq] at hb
  unfold fmtInt at hb
  split at hb
  · rcases List.mem_append.mp hb with h | h
    · left
      have : lit "-" = [45] := by decide
      rw [this] at h
      simpa using h
    · exact Or.inr (fmt_nat_bytes _ b h)
  · exact Or.inr (fmt_nat_bytes _ b hb)

theorem lf_not_mem_nat (n : Nat) : (10 : UInt8) ∉ lit (toString n) := fun h =>
  absurd (fmt_nat_bytes n 10 h).1 (by decide)

theorem lf_not_mem_int (i : Int) : (10 : UInt8) ∉ lit (toString i) := fun h => by
  rcases fmt_int_bytes i 10 h with h | h
  · exact absurd h (by decide)
  · exact absurd h.1 (by decide)

theorem joinLines_newline (out : List GoString) (h : out ≠ []) :
    joinLines out ++ lit "\n" = out.flatMap (fun l => l ++ lit "\n") := by
  induction out with
  | nil => exact absurd rfl h
  | cons a rest ih =>
    cases rest with
    | nil => simp [joinLines]
    | cons b r =>
      have := ih (by simp)
      simp only [joinLines, List.flatMap_cons, List.append_assoc] at this ⊢
      rw [this]

theorem splitLines_ne_nil (s : GoString) : splitLines s ≠ [] := by
  cases s with
  | nil => simp [splitLines]
  | cons c rest =>
    unfold splitLines
    split
    · simp
    · split <;> simp

theorem splitLines_line (l rest : GoString) (h : (10 : UInt8) ∉ l) :
    splitLines (l ++ 10 :: rest) = l :: splitLines rest := by
  induction l with
  | nil => simp [splitLines]
  | cons c l ih =>
    have hc : c ≠ 10 := fun e => h (by simp [e])
    have hl : (10 : UInt8) ∉ l := fun e => h (List.mem_cons_of_mem _ e)
    have e := ih hl
    rw [List.cons_append, splitLines, if_neg hc, e]

theorem splitLines_flatMap (out : List GoString) (h : ∀ l ∈ out, (10 : UInt8) ∉ l) :
    splitLines (out.flatMap (fun l => l ++ lit "\n")) = out ++ [[]] := by
  have hnl : lit "\n" = [10] := by decide
  induction out with
  | nil => simp [splitLines]
  | cons a rest ih =>
    rw [List.flatMap_cons, hnl, List.append_assoc, List.singleton_append,
      splitLines_line _ _ (h a (List.mem_cons_self _ _)), ← hnl,
      ih (fun l hl => h l (List.mem_cons_of_mem _ hl))]
    rfl

/-- Whether two line tags differ within their first seven bytes. -/
theorem prefix_tag_clash (p K L X : GoString) (hK : 7 ≤ K.length) (hL : 7 ≤ L.length)
    (hne : K.take 7 ≠ L.take 7) : (p ++ K).isPrefixOf (p ++ (L ++ X)) = false := by
  rw [Bool.eq_false_iff]
  intro h
  rw [List.isPrefixOf_iff_prefix, List.prefix_append_right_inj] at h
  obtain ⟨t, ht⟩ := h
  apply hne
  have h1 : (K ++ t).take 7 = K.take 7 := List.take_append_of_le_length hK
  have h2 : (L ++ X).take 7 = L.take 7 := List.take_append_of_le_length hL
  rw [← h1, ht, h2]

theorem prefix_tag_self (p K X : GoString) : (p ++ K).isPrefixOf (p ++ (K ++ X)) = true := by
  rw [List.isPrefixOf_iff_prefix, List.prefix_append_right_inj]
  exact List.prefix_append _ _

theorem prefix_tag_nil (p K : GoString) (hK : K ≠ []) : (p ++ K).isPrefixOf [] = false := by
  rw [Bool.eq_false_iff]
  intro h
  rw [List.isPrefixOf_iff_prefix, List.prefix_nil] at h
  exact hK (List.append_eq_nil.mp h).2

theorem filter_tag_blocks (p K : GoString) (ws : List Watching) (hK : 7 ≤ K.length)
    (hne : ∀ L ∈ lineTags.take 7, K.take 7 ≠ L.take 7) :
    (ws.flatMap (addressBlock p)).filter (fun l => (p ++ K).isPrefixOf l) = [] := by
  rw [List.filter_eq_nil_iff]
  intro l hl
  obtain ⟨v, -, hv⟩ := List.mem_flatMap.mp hl
  simp only [addressBlock, List.mem_cons, List.mem_singleton, List.not_mem_nil, or_false,
    List.append_assoc] at hv
  have c : ∀ L ∈ lineTags.take 7, ∀ X, (p ++ K).isPrefixOf (p ++ (L ++ X)) = false :=
    fun L hL X => prefix_tag_clash p K L X hK
      (by revert L; decide) (hne L hL)
  rcases hv with h | h | h | h | h | h | h <;> rw [h] <;> simp only [Bool.not_eq_true] <;>
    apply c <;> decide

theorem filter_tag_nil (p K : GoString) (hK : K ≠ []) :
    ([[]] : List GoString).filter (fun l => (p ++ K).isPrefixOf l) = [] := by
  simp [List.filter_cons, prefix_tag_nil p K hK]

theorem block_no_lf (p : GoString) (v : Watching) (hp : (10 : UInt8) ∉ p)
    (hv : (10 : UInt8) ∉ v.Name ∧ (10 : UInt8) ∉ v.Address ∧ (10 : UInt8) ∉ v.Balance ∧
      (10 : UInt8) ∉ v.BalancePending) :
    ∀ l ∈ addressBlock p v, (10 : UInt8) ∉ l := by
  obtain ⟨h1, h2, h3, h4⟩ := hv
  have hn := lf_not_mem_nat
  have hi := lf_not_mem_int
  have l1 : (10 : UInt8) ∉ lit "\",address=\"" := by decide
  have l2 : (10 : UInt8) ∉ lit "\"\x7d " := by decide
  have l3 : (10 : UInt8) ∉ lit "0" := by decide
  have l4 : (10 : UInt8) ∉ lit "1" := by decide
  have t1 : (10 : UInt8) ∉ lit "eth_balance\x7bname=\"" := by decide
  have t2 : (10 : UInt8) ∉ lit "eth_balance_pending\x7bname=\"" := by decide
  have t3 : (10 : UInt8) ∉ lit "eth_nonce\x7bname=\"" := by decide
  have t4 : (10 : UInt8) ∉ lit "eth_nonce_pending\x7bname=\"" := by decide
  have t5 : (10 : UInt8) ∉ lit "eth_is_contract\x7bname=\"" := by decide
  have t6 : (10 : UInt8) ∉ lit "eth_code_size_bytes\x7bname=\"" := by decide
  have t7 : (10 : UInt8) ∉ lit "eth_last_updated_unixtime\x7bname=\"" := by decide
  intro l hl
  simp only [addressBlock, List.mem_cons, List.mem_singleton, List.not_mem_nil, or_false] at hl
  rcases hl with h | h | h | h | h | h | h <;> rw [h] <;>
    simp only [List.mem_append, not_or] <;> refine ⟨⟨⟨⟨⟨⟨hp, ?_⟩, h1⟩, l1⟩, h2⟩, l2⟩, ?_⟩ <;>
    first
    | assumption
    | exact hn _
    | exact hi _
    | (split <;> assumption)

theorem aggregate_no_lf (p : GoString) (ws : List Watching) (ls : GoString) (tl : Int)
    (hp : (10 : UInt8) ∉ p) (hls : (10 : UInt8) ∉ ls) :
    ∀ l ∈ aggregateBlock p ws ls tl, (10 : UInt8) ∉ l := by
  have hn := lf_not_mem_nat
  have hi := lf_not_mem_int
  have t1 : (10 : UInt8) ∉ lit "eth_contract_addresses_total " := by decide
  have t2 : (10 : UInt8) ∉ lit "eth_eoa_addresses_total " := by decide
  have t3 : (10 : UInt8) ∉ lit "eth_load_seconds " := by decide
  have t4 : (10 : UInt8) ∉ lit "eth_loaded_addresses " := by decide
  have t5 : (10 : UInt8) ∉ lit "eth_total_addresses " := by decide
  intro l hl
  simp only [aggregateBlock, List.mem_cons, List.mem_singleton, List.not_mem_nil, or_false] at hl
  rcases hl with h | h | h | h | h <;> rw [h] <;>
    simp only [List.mem_append, not_or] <;> refine ⟨⟨hp, ?_⟩, ?_⟩ <;>
    first
    | assumption
    | exact hn _
    | exact hi _

theorem filter_tag_aggregate (p : GoString) (ws : List Watching) (ls : GoString) (tl : Int) :
    (aggregateBlock p ws ls tl).filter
        (fun l => (p ++ lit "eth_total_addresses ").isPrefixOf l)
      = [p ++ lit "eth_total_addresses " ++ lit (toString ws.length)] ∧
    (aggregateBlock p ws ls tl).filter
        (fun l => (p ++ lit "eth_contract_addresses_total ").isPrefixOf l)
      = [p ++ lit "eth_contract_addresses_total "
          ++ lit (toString (ws.countP (fun v => v.IsContract)))] ∧
    (aggregateBlock p ws ls tl).filter
        (fun l => (p ++ lit "eth_eoa_addresses_total ").isPrefixOf l)
      = [p ++ lit "eth_eoa_addresses_total "
          ++ lit (toString (ws.countP (fun v => !v.IsContract)))] := by
  have a1 : ∀ K ∈ [lit "eth_total_addresses ", lit "eth_contract_addresses_total ",
      lit "eth_eoa_addresses_total "], 7 ≤ K.length := by decide
  have a2 : ∀ L ∈ lineTags, 7 ≤ L.length := by decide
  have a3 : ∀ K ∈ [lit "eth_total_addresses ", lit "eth_contract_addresses_total ",
      lit "eth_eoa_addresses_total "], ∀ L ∈ lineTags, K ≠ L → K.take 7 ≠ L.take 7 := by
    decide
  have c : ∀ K ∈ [lit "eth_total_addresses ", lit "eth_contract_addresses_total ",
      lit "eth_eoa_addresses_total "], ∀ L ∈ lineTags, K ≠ L → ∀ X,
      (p ++ K).isPrefixOf (p ++ (L ++ X)) = false :=
    fun K hK L hL hne X => prefix_tag_clash p K L X (a1 K hK) (a2 L hL) (a3 K hK L hL hne)
  have s : ∀ K X, (p ++ K).isPrefixOf (p ++ (K ++ X)) = true := prefix_tag_self p
  refine ⟨?_, ?_, ?_⟩ <;>
    simp only [aggregateBlock, List.append_assoc, List.filter_cons, List.filter_nil, s,
      if_true] <;>
    rw [c _ (by decide) _ (by decide) (by decide), c _ (by decide) _ (by decide) (by decide),
      c _ (by decide) _ (by decide) (by decide), c _ (by decide) _ (by decide) (by decide)] <;>
    rfl

/-- C9: for a registry of `n` targets, `MetricsHttp` reaches the join exactly when the
running total can be summed, and the slice it joins then has `7 * n + 5` elements; elements
`7 * i` to `7 * i + 6` are the lines of the `i`-th target for balance, pending balance, nonce,
pending nonce, is-contract, code size and last update, in that order, each labelled with the
name and the address of that target, an empty balance shown as `0` and is-contract as `1` or
`0`; the last five elements are the aggregate lines. -/
theorem MetricsHttp_allOut_layout {V : Type} (ops : FloatOps V) (p : GoString)
    (ws : List Watching) (ls : GoString) (tl : Int) :
    (MetricsHttp.allOut ops p ws ls tl).isSome
      = (runningTotal ops (FloatValue.finite ops.zero) ws).isSome ∧
    ∀ out, MetricsHttp.allOut ops p ws ls tl = some out →
      out.length = 7 * ws.length + 5 ∧
      (∀ (i : Nat) (h : i < ws.length),
        (out.drop (7 * i)).take 7 =
          [ p ++ lit "eth_balance\x7bname=\"" ++ ws[i].Name ++ lit "\",address=\""
              ++ ws[i].Address ++ lit "\"\x7d "
              ++ (if ws[i].Balance = [] then lit "0" else ws[i].Balance),
            p ++ lit "eth_balance_pending\x7bname=\"" ++ ws[i].Name ++ lit "\",address=\""
              ++ ws[i].Address ++ lit "\"\x7d "
              ++ (if ws[i].BalancePending = [] then lit "0" else ws[i].BalancePending),
            p ++ lit "eth_nonce\x7bname=\"" ++ ws[i].Name ++ lit "\",address=\""
              ++ ws[i].Address ++ lit "\"\x7d " ++ lit (toString ws[i].Nonce),
            p ++ lit "eth_nonce_pending\x7bname=\"" ++ ws[i].Name ++ lit "\",address=\""
              ++ ws[i].Address ++ lit "\"\x7d " ++ lit (toString ws[i].NoncePending),
            p ++ lit "eth_is_contract\x7bname=\"" ++ ws[i].Name ++ lit "\",address=\""
              ++ ws[i].Address ++ lit "\"\x7d "
              ++ (if ws[i].IsContract then lit "1" else lit "0"),
            p ++ lit "eth_code_size_bytes\x7bname=\"" ++ ws[i].Name ++ lit "\",address=\""
              ++ ws[i].Address ++ lit "\"\x7d " ++ lit (toString ws[i].CodeSize),
            p ++ lit "eth_last_updated_unixtime\x7bname=\"" ++ ws[i].Name
              ++ lit "\",address=\"" ++ ws[i].Address ++ lit "\"\x7d "
              ++ lit (toString ws[i].LastUpdated) ]) ∧
      out.drop (7 * ws.length) =
        [ p ++ lit "eth_contract_addresses_total "
            ++ lit (toString (ws.countP (fun v => v.IsContract))),
          p ++ lit "eth_eoa_addresses_total "
            ++ lit (toString (ws.countP (fun v => !v.IsContract))),
          p ++ lit "eth_load_seconds " ++ ls,
          p ++ lit "eth_loaded_addresses " ++ lit (toString tl),
          p ++ lit "eth_total_addresses " ++ lit (toString ws.length) ] := by
  rw [allOut_eq]
  refine ⟨by simp, ?_⟩
  intro out hout
  cases hT : runningTotal ops (FloatValue.finite ops.zero) ws with
  | none => rw [hT] at hout; cases hout
  | some t =>
    rw [hT] at hout
    simp only [Option.map_some', Option.some.injEq] at hout
    subst hout
    refine ⟨?_, ?_, ?_⟩
    · rw [List.length_append, flatMap_addressBlock_length]; rfl
    · intro i h
      have hle : 7 * i ≤ (ws.flatMap (addressBlock p)).length := by
        rw [flatMap_addressBlock_length]; omega
      rw [List.drop_append_of_le_length hle, flatMap_addressBlock_drop,
        List.drop_eq_getElem_cons h, List.flatMap_cons, List.append_assoc,
        List.take_append_of_le_length (by rw [addressBlock_length]),
        List.take_of_length_le (by rw [addressBlock_length])]
      rfl
    · have hlen : 7 * ws.length = (ws.flatMap (addressBlock p)).length := by
        rw [flatMap_addressBlock_length]
      rw [hlen, List.drop_left]
      rfl

/-- C9 at a registry of two targets with metric prefix `my_`: the slice is joined, its 19
elements read as shown, and elements 7 to 13 are the lines of the second target, whose empty
balances are shown as `0`. -/
theorem MetricsHttp_allOut_layout_witness :
    (MetricsHttp.allOut plainOps (lit "my_") sampleRegistry (lit "0.25") 2).map
        (fun out => out.map asText)
      = some
        [ "my_eth_balance\x7bname=\"alice\",address=\"0x52908400098527886E0F7030069857D2E4169EE7\"\x7d 2.5",
          "my_eth_balance_pending\x7bname=\"alice\",address=\"0x52908400098527886E0F7030069857D2E4169EE7\"\x7d 2.5",
          "my_eth_nonce\x7bname=\"alice\",address=\"0x52908400098527886E0F7030069857D2E4169EE7\"\x7d 7",
          "my_eth_nonce_pending\x7bname=\"alice\",address=\"0x52908400098527886E0F7030069857D2E4169EE7\"\x7d 8",
          "my_eth_is_contract\x7bname=\"alice\",address=\"0x52908400098527886E0F7030069857D2E4169EE7\"\x7d 1",
          "my_eth_code_size_bytes\x7bname=\"alice\",address=\"0x52908400098527886E0F7030069857D2E4169EE7\"\x7d 5",
          "my_eth_last_updated_unixtime\x7bname=\"alice\",address=\"0x52908400098527886E0F7030069857D2E4169EE7\"\x7d 1700000000",
          "my_eth_balance\x7bname=\"bob\",address=\"0xde709f2102306220921060314715629080e2fb77\"\x7d 0",
          "my_eth_balance_pending\x7bname=\"bob\",address=\"0xde709f2102306220921060314715629080e2fb77\"\x7d 0",
          "my_eth_nonce\x7bname=\"bob\",address=\"0xde709f2102306220921060314715629080e2fb77\"\x7d 0",
          "my_eth_nonce_pending\x7bname=\"bob\",address=\"0xde709f2102306220921060314715629080e2fb77\"\x7d 0",
          "my_eth_is_contract\x7bname=\"bob\",address=\"0xde709f2102306220921060314715629080e2fb77\"\x7d 0",
          "my_eth_code_size_bytes\x7bname=\"bob\",address=\"0xde709f2102306220921060314715629080e2fb77\"\x7d 0",
          "my_eth_last_updated_unixtime\x7bname=\"bob\",address=\"0xde709f2102306220921060314715629080e2fb77\"\x7d 1700000060",
          "my_eth_contract_addresses_total 1",
          "my_eth_eoa_addresses_total 1",
          "my_eth_load_seconds 0.25",
          "my_eth_loaded_addresses 2",
          "my_eth_total_addresses 2" ] ∧
    (MetricsHttp.allOut plainOps (lit "my_") sampleRegistry (lit "0.25") 2).map
        (fun out => (out.length, ((out.drop (7 * 1)).take 7).map asText))
      = some (7 * 2 + 5,
        [ "my_eth_balance\x7bname=\"bob\",address=\"0xde709f2102306220921060314715629080e2fb77\"\x7d 0",
          "my_eth_balance_pending\x7bname=\"bob\",address=\"0xde709f2102306220921060314715629080e2fb77\"\x7d 0",
          "my_eth_nonce\x7bname=\"bob\",address=\"0xde709f2102306220921060314715629080e2fb77\"\x7d 0",
          "my_eth_nonce_pending\x7bname=\"bob\",address=\"0xde709f2102306220921060314715629080e2fb77\"\x7d 0",
          "my_eth_is_contract\x7bname=\"bob\",address=\"0xde709f2102306220921060314715629080e2fb77\"\x7d 0",
          "my_eth_code_size_bytes\x7bname=\"bob\",address=\"0xde709f2102306220921060314715629080e2fb77\"\x7d 0",
          "my_eth_last_updated_unixtime\x7bname=\"bob\",address=\"0xde709f2102306220921060314715629080e2fb77\"\x7d 1700000060" ]) := by
  refine ⟨by decide!, ?_⟩
  have hs : (MetricsHttp.allOut plainOps (lit "my_") sampleRegistry (lit "0.25") 2).isSome
      = true := by decide!
  obtain ⟨out, h⟩ := Option.isSome_iff_exists.mp hs
  have hthm := (MetricsHttp_allOut_layout plainOps (lit "my_") sampleRegistry (lit "0.25") 2).2
    out h
  rw [h]
  simp only [Option.map_some', Option.some.injEq, Prod.mk.injEq]
  refine ⟨hthm.1, ?_⟩
  rw [hthm.2.1 1 (by decide)]
  decide!

theorem MetricsHttp_eq {V : Type} (ops : FloatOps V) (p : GoString) (ws : List Watching)
    (ls : GoString) (tl : Int) :
    MetricsHttp ops p ws ls tl =
      (runningTotal ops (FloatValue.finite ops.zero) ws).map (fun _ =>
        (ws.flatMap (addressBlock p) ++ aggregateBlock p ws ls tl).flatMap
          (fun l => l ++ lit "\n")) := by
  unfold MetricsHttp
  rw [allOut_eq]
  cases runningTotal ops (FloatValue.finite ops.zero) ws with
  | none => rfl
  | some t =>
    simp only [Option.map_some']
    rw [joinLines_newline _ (by simp [aggregateBlock])]

/-- C8 fails as stated: a registry loaded from the environment can hold a name with line
feeds in it, and the body then has lines `eth_total_addresses 999`, one per line of the
target, before the line `eth_total_addresses 1` that shows the registry length. -/
theorem MetricsHttp_injected_total_line :
    (OpenAddressesFromEnv defaultPrefix injectedListing []).2 = none ∧
    (OpenAddressesFromEnv defaultPrefix injectedListing []).1.length = 1 ∧
    (MetricsHttp plainOps [] (OpenAddressesFromEnv defaultPrefix injectedListing []).1
        (lit "0.00") 1).map
      (fun body => ((splitLines body).filter
        (fun l => (lit "eth_total_addresses ").isPrefixOf l)).map asText)
      = some [ "eth_total_addresses 999", "eth_total_addresses 999",
               "eth_total_addresses 999", "eth_total_addresses 999",
               "eth_total_addresses 999", "eth_total_addresses 999",
               "eth_total_addresses 999", "eth_total_addresses 1" ] := by
  decide!

/-- C8 as amended: for every store state the handler writes a body exactly when the running
total can be summed; the body then ends with the five aggregate lines, in which the contract
count is the number of observations with `IsContract` true, the EOA count the number with
`IsContract` false, the two add up to the registry length, and the last line shows the
registry length; and when neither the metric prefix, the load-seconds text, nor any name,
address or balance holds a line feed, these are the only lines of the body that start with the
prefix followed by `eth_total_addresses `, `eth_contract_addresses_total ` or
`eth_eoa_addresses_total `. -/
theorem MetricsHttp_totals_amended {V : Type} (ops : FloatOps V) (p : GoString)
    (ws : List Watching) (ls : GoString) (tl : Int) :
    (MetricsHttp ops p ws ls tl).isSome
      = (runningTotal ops (FloatValue.finite ops.zero) ws).isSome ∧
    ws.countP (fun v => v.IsContract) + ws.countP (fun v => !v.IsContract) = ws.length ∧
    ∀ body, MetricsHttp ops p ws ls tl = some body →
      (∃ pre, body = pre
        ++ (p ++ lit "eth_contract_addresses_total "
              ++ lit (toString (ws.countP (fun v => v.IsContract))) ++ lit "\n")
        ++ (p ++ lit "eth_eoa_addresses_total "
              ++ lit (toString (ws.countP (fun v => !v.IsContract))) ++ lit "\n")
        ++ (p ++ lit "eth_load_seconds " ++ ls ++ lit "\n")
        ++ (p ++ lit "eth_loaded_addresses " ++ lit (toString tl) ++ lit "\n")
        ++ (p ++ lit "eth_total_addresses " ++ lit (toString ws.length) ++ lit "\n")) ∧
      ((10 : UInt8) ∉ p → (10 : UInt8) ∉ ls →
        (∀ v ∈ ws, (10 : UInt8) ∉ v.Name ∧ (10 : UInt8) ∉ v.Address ∧
          (10 : UInt8) ∉ v.Balance ∧ (10 : UInt8) ∉ v.BalancePending) →
        (splitLines body).filter (fun l => (p ++ lit "eth_total_addresses ").isPrefixOf l)
          = [p ++ lit "eth_total_addresses " ++ lit (toString ws.length)] ∧
        (splitLines body).filter
            (fun l => (p ++ lit "eth_contract_addresses_total ").isPrefixOf l)
          = [p ++ lit "eth_contract_addresses_total "
              ++ lit (toString (ws.countP (fun v => v.IsContract)))] ∧
        (splitLines body).filter (fun l => (p ++ lit "eth_eoa_addresses_total ").isPrefixOf l)
          = [p ++ lit "eth_eoa_addresses_total "
              ++ lit (toString (ws.countP (fun v => !v.IsContract)))]) := by
  rw [MetricsHttp_eq]
  refine ⟨by simp, countP_contract_add_eoa ws, ?_⟩
  intro body hbody
  cases hT : runningTotal ops (FloatValue.finite ops.zero) ws with
  | none => rw [hT] at hbody; cases hbody
  | some t =>
    rw [hT] at hbody
    simp only [Option.map_some', Option.some.injEq] at hbody
    subst hbody
    refine ⟨⟨(ws.flatMap (addressBlock p)).flatMap (fun l => l ++ lit "\n"), ?_⟩, ?_⟩
    · simp [List.flatMap_append, aggregateBlock, List.flatMap_cons]
    · intro hp hls hws
      have hlines : ∀ l ∈ ws.flatMap (addressBlock p) ++ aggregateBlock p ws ls tl,
          (10 : UInt8) ∉ l := by
        intro l hl
        rcases List.mem_append.mp hl with h | h
        · obtain ⟨v, hv, hlv⟩ := List.mem_flatMap.mp h
          exact block_no_lf p v hp (hws v hv) l hlv
        · exact aggregate_no_lf p ws ls tl hp hls l h
      rw [splitLines_flatMap _ hlines]
      have hagg := filter_tag_aggregate p ws ls tl
      have a1 : ∀ K ∈ [lit "eth_total_addresses ", lit "eth_contract_addresses_total ",
          lit "eth_eoa_addresses_total "], 7 ≤ K.length := by decide
      have a3 : ∀ K ∈ [lit "eth_total_addresses ", lit "eth_contract_addresses_total ",
          lit "eth_eoa_addresses_total "], ∀ L ∈ lineTags.take 7, K.take 7 ≠ L.take 7 := by
        decide
      have ne : ∀ K ∈ [lit "eth_total_addresses ", lit "eth_contract_addresses_total ",
          lit "eth_eoa_addresses_total "], K ≠ [] := by decide
      refine ⟨?_, ?_, ?_⟩
      · rw [List.filter_append, List.filter_append,
          filter_tag_blocks p _ ws (a1 _ (by decide)) (a3 _ (by decide)),
          filter_tag_nil p _ (ne _ (by decide)), hagg.1]
        rfl
      · rw [List.filter_append, List.filter_append,
          filter_tag_blocks p _ ws (a1 _ (by decide)) (a3 _ (by decide)),
          filter_tag_nil p _ (ne _ (by decide)), hagg.2.1]
        rfl
      · rw [List.filter_append, List.filter_append,
          filter_tag_blocks p _ ws (a1 _ (by decide)) (a3 _ (by decide)),
          filter_tag_nil p _ (ne _ (by decide)), hagg.2.2]
        rfl

/-- C8 at a registry of two targets, one contract and one not, with metric prefix `my_`: the
body reads as shown, and its only line for `my_eth_total_addresses` shows 2. -/
theorem MetricsHttp_totals_amended_witness :
    (MetricsHttp plainOps (lit "my_") sampleRegistry (lit "0.25") 2).map asText
      = some ("my_eth_balance\x7bname=\"alice\",address=\"0x52908400098527886E0F7030069857D2E4169EE7\"\x7d 2.5\n"
        ++ "my_eth_balance_pending\x7bname=\"alice\",address=\"0x52908400098527886E0F7030069857D2E4169EE7\"\x7d 2.5\n"
        ++ "my_eth_nonce\x7bname=\"alice\",address=\"0x52908400098527886E0F7030069857D2E4169EE7\"\x7d 7\n"
        ++ "my_eth_nonce_pending\x7bname=\"alice\",address=\"0x52908400098527886E0F7030069857D2E4169EE7\"\x7d 8\n"
        ++ "my_eth_is_contract\x7bname=\"alice\",address=\"0x52908400098527886E0F7030069857D2E4169EE7\"\x7d 1\n"
        ++ "my_eth_code_size_bytes\x7bname=\"alice\",address=\"0x52908400098527886E0F7030069857D2E4169EE7\"\x7d 5\n"
        ++ "my_eth_last_updated_unixtime\x7bname=\"alice\",address=\"0x52908400098527886E0F7030069857D2E4169EE7\"\x7d 1700000000\n"
        ++ "my_eth_balance\x7bname=\"bob\",address=\"0xde709f2102306220921060314715629080e2fb77\"\x7d 0\n"
        ++ "my_eth_balance_pending\x7bname=\"bob\",address=\"0xde709f2102306220921060314715629080e2fb77\"\x7d 0\n"
        ++ "my_eth_nonce\x7bname=\"bob\",address=\"0xde709f2102306220921060314715629080e2fb77\"\x7d 0\n"
        ++ "my_eth_nonce_pending\x7bname=\"bob\",address=\"0xde709f2102306220921060314715629080e2fb77\"\x7d 0\n"
        ++ "my_eth_is_contract\x7bname=\"bob\",address=\"0xde709f2102306220921060314715629080e2fb77\"\x7d 0\n"
        ++ "my_eth_code_size_bytes\x7bname=\"bob\",address=\"0xde709f2102306220921060314715629080e2fb77\"\x7d 0\n"
        ++ "my_eth_last_updated_unixtime\x7bname=\"bob\",address=\"0xde709f2102306220921060314715629080e2fb77\"\x7d 1700000060\n"
        ++ "my_eth_contract_addresses_total 1\n"
        ++ "my_eth_eoa_addresses_total 1\n"
        ++ "my_eth_load_seconds 0.25\n"
        ++ "my_eth_loaded_addresses 2\n"
        ++ "my_eth_total_addresses 2\n") ∧
    (MetricsHttp plainOps (lit "my_") sampleRegistry (lit "0.25") 2).map
        (fun body => ((splitLines body).filter
          (fun l => (lit "my_" ++ lit "eth_total_addresses ").isPrefixOf l)).map asText)
      = some ["my_eth_total_addresses 2"] := by
  refine ⟨by decide!, ?_⟩
  have hs : (MetricsHttp plainOps (lit "my_") sampleRegistry (lit "0.25") 2).isSome = true := by
    decide!
  obtain ⟨body, h⟩ := Option.isSome_iff_exists.mp hs
  have hthm := ((MetricsHttp_totals_amended plainOps (lit "my_") sampleRegistry (lit "0.25")
    2).2.2 body h).2 (by decide) (by decide) (by decide)
  rw [h]
  simp only [Option.map_some', Option.some.injEq]
  rw [hthm.1]
  decide!
/-! ## Theorems: `OpenAddressesFromEnv` -/

theorem ToLower_length (s : GoString) : (ToLower s).length = s.length := by
  simp [ToLower]

theorem ToLower_take (s : GoString) (n : Nat) : ToLower (s.take n) = (ToLower s).take n := by
  simp [ToLower, List.map_take]

theorem HasPrefix_ToLower_iff (key p : GoString) :
    HasPrefix (ToLower key) (ToLower p) = true ↔ ToLower (key.take p.length) = ToLower p := by
  rw [HasPrefix, List.isPrefixOf_iff_prefix, List.prefix_iff_eq_take, ToLower_take,
    ToLower_length]
  exact eq_comm

/-- The slice expression `key[len(envPrefix):]` of the source is in range whenever the prefix
test passed, so it does not panic. -/
theorem key_slice_in_range (key p : GoString)
    (h : HasPrefix (ToLower key) (ToLower p) = true) : p.length ≤ key.length := by
  have := (List.isPrefixOf_iff_prefix.mp h).length_le
  simpa [ToLower_length] using this

theorem loadStep_eq (p : GoString) (st : LoadState) (env : GoString) :
    loadStep p (ToLower p) st env =
      match registryEntry p env with
      | some w => { allWatching := st.allWatching ++ [w], loaded := st.loaded + 1 }
      | none => st := by
  unfold loadStep registryEntry
  split
  · rename_i key raw _
    by_cases hp : HasPrefix (ToLower key) (ToLower p) = true
    · have hp2 := (HasPrefix_ToLower_iff key p).mp hp
      by_cases hv : IsHexAddress (TrimSpace raw) = true <;> simp [hp, hp2, hv]
    · have hp2 : ¬ ToLower (key.take p.length) = ToLower p :=
        fun h => hp ((HasPrefix_ToLower_iff key p).mpr h)
      simp [hp, hp2]
  · rfl

theorem foldl_loadStep (p : GoString) (environ : List GoString) (st : LoadState) :
    environ.foldl (loadStep p (ToLower p)) st =
      { allWatching := st.allWatching ++ environ.filterMap (registryEntry p),
        loaded := st.loaded + (environ.filterMap (registryEntry p)).length } := by
  induction environ generalizing st with
  | nil => simp
  | cons env rest ih =>
    rw [List.foldl_cons, ih, loadStep_eq]
    cases h : registryEntry p env with
    | none => simp [List.filterMap_cons, h]
    | some w => simp [List.filterMap_cons, h]; omega

theorem OpenAddressesFromEnv_eq (p : GoString) (hp : p ≠ []) (environ : List GoString)
    (aw : List Watching) :
    OpenAddressesFromEnv p environ aw =
      (aw ++ environ.filterMap (registryEntry p),
        if environ.filterMap (registryEntry p) = [] then some (LoadError.noAddresses p)
        else none) := by
  unfold OpenAddressesFromEnv
  simp only [if_neg hp, foldl_loadStep, Nat.zero_add, List.length_eq_zero]
  split <;> rfl

theorem OpenAddressesFromEnv_nil (environ : List GoString) (aw : List Watching) :
    OpenAddressesFromEnv [] environ aw = OpenAddressesFromEnv defaultPrefix environ aw := by
  unfold OpenAddressesFromEnv
  rfl

theorem defaultPrefix_ne_nil : defaultPrefix ≠ [] := by decide

/-- C2 fails as stated: on the specification's listing the load returns the error and the
registry stays empty, because the value of `ethaddr_alice` is one hex digit short. -/
theorem OpenAddressesFromEnv_specListing_fails :
    OpenAddressesFromEnv defaultPrefix specListing []
      = ([], some (LoadError.noAddresses defaultPrefix)) ∧
    ¬ ((OpenAddressesFromEnv defaultPrefix specListing []).2 = none ∧
       ∃ w, (OpenAddressesFromEnv defaultPrefix specListing []).1 = [w] ∧ w.Name = lit "alice") := by
  have h : OpenAddressesFromEnv defaultPrefix specListing []
      = ([], some (LoadError.noAddresses defaultPrefix)) := by decide!
  refine ⟨h, ?_⟩
  rw [h]
  rintro ⟨h2, -⟩
  cases h2

/-- C2 as amended: on the specification's listing the load fails and appends nothing, the
address given for `ethaddr_alice` having 39 hex digits; with the 40-digit address
`0x52908400098527886E0F7030069857D2E4169EE7` in its place the load succeeds and the registry
holds exactly one target, named `alice`. -/
theorem OpenAddressesFromEnv_example :
    IsHexAddress (lit "0x52908400098527886E0F7030069857D2E4169EE") = false ∧
    OpenAddressesFromEnv defaultPrefix specListing []
      = ([], some (LoadError.noAddresses defaultPrefix)) ∧
    OpenAddressesFromEnv defaultPrefix fixedListing []
      = ([{ Name := lit "alice", Address := lit "0x52908400098527886E0F7030069857D2E4169EE7",
            Balance := lit "0", BalancePending := lit "0", Nonce := 0, NoncePending := 0,
            IsContract := false, CodeSize := 0, LastUpdated := 0 }], none) := by
  refine ⟨?_, ?_, ?_⟩ <;> decide!

theorem byte_eq_ofNat (c : UInt8) : c = UInt8.ofNat c.toNat := by
  cases c with
  | mk bv =>
    cases bv with
    | ofFin f =>
      cases f with
      | mk n hn =>
        simp [UInt8.ofNat, UInt8.toNat, BitVec.ofNat, Fin.ofNat', Nat.mod_eq_of_lt hn]

theorem all_bytes (P : UInt8 → Prop) (h : ∀ n < 256, P (UInt8.ofNat n)) : ∀ c : UInt8, P c :=
  fun c => by
    rw [byte_eq_ofNat c]
    exact h _ (UInt8.toNat_lt_size c)

theorem upper_add_not_upper : ∀ c : UInt8, 65 ≤ c ∧ c ≤ 90 → ¬ (65 ≤ c + 32 ∧ c + 32 ≤ 90) := by
  apply all_bytes
  decide!

theorem lowerByte_eq_iff (c d : UInt8) :
    ((if 65 ≤ c ∧ c ≤ 90 then c + 32 else c) = (if 65 ≤ d ∧ d ≤ 90 then d + 32 else d))
      ↔ EqFold c d := by
  unfold EqFold
  by_cases hc : 65 ≤ c ∧ c ≤ 90 <;> by_cases hd : 65 ≤ d ∧ d ≤ 90
  · rw [if_pos hc, if_pos hd]
    constructor
    · intro h
      exact Or.inl (add_right_cancel h)
    · rintro (h | h | h)
      · rw [h]
      · exact absurd (h.2.2 ▸ hd) (upper_add_not_upper c hc)
      · exact absurd (h.2.2 ▸ hc) (upper_add_not_upper d hd)
  · rw [if_pos hc, if_neg hd]
    constructor
    · intro h
      exact Or.inr (Or.inl ⟨hc.1, hc.2, h⟩)
    · rintro (h | h | h)
      · exact absurd (h ▸ hc) hd
      · exact h.2.2
      · exact absurd ⟨h.1, h.2.1⟩ hd
  · rw [if_neg hc, if_pos hd]
    constructor
    · intro h
      exact Or.inr (Or.inr ⟨hd.1, hd.2, h.symm⟩)
    · rintro (h | h | h)
      · exact absurd (h ▸ hd) hc
      · exact absurd ⟨h.1, h.2.1⟩ hc
      · exact h.2.2.symm
  · rw [if_neg hc, if_neg hd]
    constructor
    · intro h
      exact Or.inl h
    · rintro (h | h | h)
      · exact h
      · exact absurd ⟨h.1, h.2.1⟩ hc
      · exact absurd ⟨h.1, h.2.1⟩ hd

theorem ToLower_eq_iff (a b : GoString) : ToLower a = ToLower b ↔ List.Forall₂ EqFold a b := by
  induction a generalizing b with
  | nil =>
    cases b with
    | nil => simp [ToLower]
    | cons d b => simp [ToLower]
  | cons c a ih =>
    cases b with
    | nil => simp [ToLower]
    | cons d b =>
      have := ih b
      simp only [ToLower, List.map_cons, List.cons.injEq, List.forall₂_cons] at this ⊢
      rw [lowerByte_eq_iff, this]

theorem SplitN2_of_eq (key value : GoString) (h : (61 : UInt8) ∉ key) :
    SplitN2 (key ++ 61 :: value) = [key, value] := by
  induction key with
  | nil => simp [SplitN2]
  | cons c key ih =>
    have hc : c ≠ 61 := fun e => h (by simp [e])
    have hk : (61 : UInt8) ∉ key := fun e => h (List.mem_cons_of_mem _ e)
    rw [List.cons_append, SplitN2, if_neg hc, ih hk]

theorem SplitN2_cases (env : GoString) :
    ((61 : UInt8) ∉ env ∧ SplitN2 env = [env]) ∨
    ∃ key value, env = key ++ 61 :: value ∧ (61 : UInt8) ∉ key := by
  induction env with
  | nil => left; simp [SplitN2]
  | cons c env ih =>
    by_cases hc : c = 61
    · right
      exact ⟨[], env, by simp [hc], by simp⟩
    · rcases ih with ⟨h1, h2⟩ | ⟨key, value, h1, h2⟩
      · left
        refine ⟨?_, ?_⟩
        · simp [h1, Ne.symm hc]
        · rw [SplitN2, if_neg hc, h2]
      · right
        refine ⟨c :: key, value, by simp [h1], ?_⟩
        simp [h2, Ne.symm hc]

theorem SplitN2_eq_pair (env key value : GoString) :
    SplitN2 env = [key, value] ↔ env = key ++ 61 :: value ∧ (61 : UInt8) ∉ key := by
  constructor
  · intro h
    rcases SplitN2_cases env with ⟨-, h2⟩ | ⟨k, v, h1, h2⟩
    · rw [h2] at h
      simp at h
    · rw [h1, SplitN2_of_eq k v h2] at h
      simp only [List.cons.injEq, and_true] at h
      obtain ⟨rfl, rfl⟩ := h
      exact ⟨h1, h2⟩
  · rintro ⟨rfl, h⟩
    exact SplitN2_of_eq key value h

theorem spaceEncodings_ne_nil : ∀ e ∈ spaceEncodings, e ≠ [] := by decide

theorem spaceEncodings_prefix_free :
    ∀ e1 ∈ spaceEncodings, ∀ e2 ∈ spaceEncodings, e1.isPrefixOf e2 = true → e1 = e2 := by
  decide

theorem spaceEncodings_suffix_free :
    ∀ e1 ∈ spaceEncodings, ∀ e2 ∈ spaceEncodings, e1.isSuffixOf e2 = true → e1 = e2 := by
  decide

theorem stripSpaceLeft_some (s t : GoString) (h : stripSpaceLeft s = some t) :
    ∃ e ∈ spaceEncodings, s = e ++ t := by
  unfold stripSpaceLeft at h
  cases hf : spaceEncodings.find? (fun e => e.isPrefixOf s) with
  | none => rw [hf] at h; cases h
  | some e =>
    rw [hf] at h
    simp only [Option.map_some', Option.some.injEq] at h
    have hp := List.find?_some hf
    rw [List.isPrefixOf_iff_prefix, List.prefix_iff_eq_append] at hp
    exact ⟨e, List.mem_of_find?_eq_some hf, by rw [← h, hp]⟩

theorem stripSpaceRight_some (s t : GoString) (h : stripSpaceRight s = some t) :
    ∃ e ∈ spaceEncodings, s = t ++ e := by
  unfold stripSpaceRight at h
  cases hf : spaceEncodings.find? (fun e => e.isSuffixOf s) with
  | none => rw [hf] at h; cases h
  | some e =>
    rw [hf] at h
    simp only [Option.map_some', Option.some.injEq] at h
    have hp := List.find?_some hf
    rw [List.isSuffixOf_iff_suffix, List.suffix_iff_eq_append] at hp
    exact ⟨e, List.mem_of_find?_eq_some hf, by rw [← h, hp]⟩

theorem stripSpaceLeft_append (e x : GoString) (he : e ∈ spaceEncodings) :
    stripSpaceLeft (e ++ x) = some x := by
  unfold stripSpaceLeft
  cases hf : spaceEncodings.find? (fun e0 => e0.isPrefixOf (e ++ x)) with
  | none =>
    rw [List.find?_eq_none] at hf
    exact absurd (by simp) (hf e he)
  | some e0 =>
    have hp := List.find?_some hf
    have hm := List.mem_of_find?_eq_some hf
    rw [List.isPrefixOf_iff_prefix] at hp
    have h2 : e <+: e ++ x := List.prefix_append _ _
    have : e0 = e := by
      rcases List.prefix_or_prefix_of_prefix hp h2 with h | h
      · exact spaceEncodings_prefix_free e0 hm e he (by simpa using h)
      · exact (spaceEncodings_prefix_free e he e0 hm (by simpa using h)).symm
    subst this
    simp

theorem stripSpaceRight_append (e x : GoString) (he : e ∈ spaceEncodings) :
    stripSpaceRight (x ++ e) = some x := by
  unfold stripSpaceRight
  cases hf : spaceEncodings.find? (fun e0 => e0.isSuffixOf (x ++ e)) with
  | none =>
    rw [List.find?_eq_none] at hf
    exact absurd (by simp) (hf e he)
  | some e0 =>
    have hp := List.find?_some hf
    have hm := List.mem_of_find?_eq_some hf
    rw [List.isSuffixOf_iff_suffix] at hp
    have h2 : e <:+ x ++ e := List.suffix_append _ _
    have : e0 = e := by
      rcases List.suffix_or_suffix_of_suffix hp h2 with h | h
      · exact spaceEncodings_suffix_free e0 hm e he (by simpa using h)
      · exact (spaceEncodings_suffix_free e he e0 hm (by simpa using h)).symm
    subst this
    simp

/-- The list `es` of encodings of white space runes. -/
theorem stripAll_left_decompose (fuel : Nat) (s : GoString) :
    ∃ es : List GoString, (∀ e ∈ es, e ∈ spaceEncodings) ∧
      s = es.flatten ++ stripAll stripSpaceLeft fuel s := by
  induction fuel generalizing s with
  | zero => exact ⟨[], by simp, by simp [stripAll]⟩
  | succ fuel ih =>
    unfold stripAll
    cases h : stripSpaceLeft s with
    | none => exact ⟨[], by simp, by simp⟩
    | some t =>
      obtain ⟨e, he, hs⟩ := stripSpaceLeft_some s t h
      obtain ⟨es, hes, ht⟩ := ih t
      refine ⟨e :: es, ?_, ?_⟩
      · intro x hx
        rcases List.mem_cons.mp hx with rfl | hx
        · exact he
        · exact hes x hx
      · simp only [List.flatten_cons, List.append_assoc]
        rw [← ht, hs]

theorem stripAll_right_decompose (fuel : Nat) (s : GoString) :
    ∃ es : List GoString, (∀ e ∈ es, e ∈ spaceEncodings) ∧
      s = stripAll stripSpaceRight fuel s ++ es.flatten := by
  induction fuel generalizing s with
  | zero => exact ⟨[], by simp, by simp [stripAll]⟩
  | succ fuel ih =>
    unfold stripAll
    cases h : stripSpaceRight s with
    | none => exact ⟨[], by simp, by simp⟩
    | some t =>
      obtain ⟨e, he, hs⟩ := stripSpaceRight_some s t h
      obtain ⟨es, hes, ht⟩ := ih t
      refine ⟨es ++ [e], ?_, ?_⟩
      · intro x hx
        rcases List.mem_append.mp hx with hx | hx
        · exact hes x hx
        · rw [List.mem_singleton] at hx
          rw [hx]
          exact he
      · simp only [List.flatten_append, List.flatten_cons, List.flatten_nil, List.append_nil]
        rw [← List.append_assoc, ← ht, hs]

theorem join_length_ge (es : List GoString) (h : ∀ e ∈ es, e ∈ spaceEncodings) :
    es.length ≤ es.flatten.length := by
  induction es with
  | nil => simp
  | cons e es ih =>
    have h1 : e ≠ [] := spaceEncodings_ne_nil e (h e (List.mem_cons_self _ _))
    have h2 : 0 < e.length := List.length_pos.mpr h1
    have h3 := ih (fun x hx => h x (List.mem_cons_of_mem _ hx))
    simp only [List.flatten_cons, List.length_append, List.length_cons]
    omega

theorem stripAll_left_join (es : List GoString) (rest : GoString) (fuel : Nat)
    (h : ∀ e ∈ es, e ∈ spaceEncodings) (hrest : stripSpaceLeft rest = none)
    (hfuel : es.length ≤ fuel) :
    stripAll stripSpaceLeft fuel (es.flatten ++ rest) = rest := by
  induction es generalizing fuel with
  | nil =>
    cases fuel with
    | zero => simp [stripAll]
    | succ fuel => simp [stripAll, hrest]
  | cons e es ih =>
    cases fuel with
    | zero => simp at hfuel
    | succ fuel =>
      simp only [List.flatten_cons, List.append_assoc]
      rw [stripAll, stripSpaceLeft_append e _ (h e (List.mem_cons_self _ _))]
      exact ih fuel (fun x hx => h x (List.mem_cons_of_mem _ hx))
        (by simpa using hfuel)

theorem stripAll_right_join (es : List GoString) (rest : GoString) (fuel : Nat)
    (h : ∀ e ∈ es, e ∈ spaceEncodings) (hrest : stripSpaceRight rest = none)
    (hfuel : es.length ≤ fuel) :
    stripAll stripSpaceRight fuel (rest ++ es.flatten) = rest := by
  induction es using List.reverseRecOn generalizing fuel with
  | nil =>
    cases fuel with
    | zero => simp [stripAll]
    | succ fuel => simp [stripAll, hrest]
  | append_singleton es e ih =>
    cases fuel with
    | zero => simp at hfuel
    | succ fuel =>
      simp only [List.flatten_append, List.flatten_cons, List.flatten_nil, List.append_nil]
      rw [← List.append_assoc, stripAll,
        stripSpaceRight_append e _ (h e (by simp))]
      exact ih fuel (fun x hx => h x (by simp [hx]))
        (by simpa using hfuel)

theorem lit_mk (cs : List Char) : lit (String.mk cs) = cs.flatMap String.utf8EncodeChar := by
  simp [lit, String.toUTF8]

theorem spaceRunes_valid : ∀ r ∈ spaceRunes, (Char.ofNat r).toNat = r := by decide

theorem isWhiteSpace_iff (s : GoString) :
    IsWhiteSpace s ↔
      ∃ es : List GoString, (∀ e ∈ es, e ∈ spaceEncodings) ∧ s = es.flatten := by
  constructor
  · rintro ⟨cs, hcs, rfl⟩
    refine ⟨cs.map String.utf8EncodeChar, ?_, ?_⟩
    · intro e he
      obtain ⟨c, hc, rfl⟩ := List.mem_map.mp he
      exact List.mem_map.mpr ⟨c.toNat, hcs c hc, by rw [Char.ofNat_toNat]⟩
    · rw [lit_mk, List.flatMap]
  · rintro ⟨es, hes, rfl⟩
    induction es with
    | nil => exact ⟨[], by simp, by rw [lit_mk]; rfl⟩
    | cons e es ih =>
      obtain ⟨cs, hcs, hf⟩ := ih (fun x hx => hes x (List.mem_cons_of_mem _ hx))
      obtain ⟨r, hr, hre⟩ := List.mem_map.mp (hes e (List.mem_cons_self _ _))
      refine ⟨Char.ofNat r :: cs, ?_, ?_⟩
      · intro c hc
        rcases List.mem_cons.mp hc with rfl | hc
        · rw [spaceRunes_valid r hr]; exact hr
        · exact hcs c hc
      · rw [lit_mk] at hf ⊢
        rw [List.flatten_cons, List.flatMap_cons, hf, hre]

theorem hex_not_space_head :
    ∀ e ∈ spaceEncodings, ∀ c ∈ lit "0123456789abcdefABCDEF", e.head? ≠ some c := by decide

theorem hex_not_space_last :
    ∀ e ∈ spaceEncodings, ∀ c ∈ lit "0123456789abcdefABCDEF", e.getLast? ≠ some c := by decide

theorem stripSpaceLeft_hex (c : UInt8) (t : GoString)
    (hc : c ∈ lit "0123456789abcdefABCDEF") : stripSpaceLeft (c :: t) = none := by
  unfold stripSpaceLeft
  rw [Option.map_eq_none', List.find?_eq_none]
  intro e he hp
  rw [List.isPrefixOf_iff_prefix] at hp
  obtain ⟨u, hu⟩ := hp
  cases e with
  | nil => exact spaceEncodings_ne_nil _ he rfl
  | cons h e =>
    simp only [List.cons_append, List.cons.injEq] at hu
    exact hex_not_space_head _ he c hc (by simp [hu.1])

theorem stripSpaceRight_hex (c : UInt8) (t : GoString)
    (hc : c ∈ lit "0123456789abcdefABCDEF") : stripSpaceRight (t ++ [c]) = none := by
  unfold stripSpaceRight
  rw [Option.map_eq_none', List.find?_eq_none]
  intro e he hp
  rw [List.isSuffixOf_iff_suffix] at hp
  obtain ⟨u, hu⟩ := hp
  have hne : e ≠ [] := spaceEncodings_ne_nil _ he
  have h1 : (u ++ e).getLast? = e.getLast? := List.getLast?_append_of_ne_nil u hne
  rw [hu, List.getLast?_append_of_ne_nil t (by simp)] at h1
  exact hex_not_space_last _ he c hc (by rw [← h1]; rfl)

theorem isHexCharacter_iff :
    ∀ c : UInt8, isHexCharacter c = true ↔ c ∈ lit "0123456789abcdefABCDEF" := by
  apply all_bytes
  decide!

theorem validAddress_ends (a : GoString) (h : ValidAddress a) :
    (∃ c t, a = c :: t ∧ c ∈ lit "0123456789abcdefABCDEF") ∧
    (∃ c t, a = t ++ [c] ∧ c ∈ lit "0123456789abcdefABCDEF") := by
  obtain ⟨hx, ha, hlen, hhex⟩ := h
  have hne : hx ≠ [] := by
    intro e
    rw [e] at hlen
    simp at hlen
  obtain ⟨c0, t0, h0⟩ := List.exists_cons_of_ne_nil hne
  have hlast : hx = hx.dropLast ++ [hx.getLast hne] := (List.dropLast_append_getLast hne).symm
  have hc0 : c0 ∈ lit "0123456789abcdefABCDEF" := hhex c0 (by rw [h0]; simp)
  have hcl : hx.getLast hne ∈ lit "0123456789abcdefABCDEF" :=
    hhex _ (List.getLast_mem hne)
  have z : (48 : UInt8) ∈ lit "0123456789abcdefABCDEF" := by decide
  have x0 : lit "0x" = [48, 120] := by decide
  have x1 : lit "0X" = [48, 88] := by decide
  rcases ha with rfl | rfl | rfl
  · exact ⟨⟨c0, t0, h0, hc0⟩, ⟨_, _, hlast, hcl⟩⟩
  · refine ⟨⟨48, 120 :: hx, by rw [x0]; rfl, z⟩, ⟨_, lit "0x" ++ hx.dropLast, ?_, hcl⟩⟩
    rw [List.append_assoc, ← hlast]
  · refine ⟨⟨48, 88 :: hx, by rw [x1]; rfl, z⟩, ⟨_, lit "0X" ++ hx.dropLast, ?_, hcl⟩⟩
    rw [List.append_assoc, ← hlast]

theorem TrimSpace_of_parts (l addr r : GoString) (hl : IsWhiteSpace l) (hr : IsWhiteSpace r)
    (ha : ValidAddress addr) : TrimSpace (l ++ addr ++ r) = addr := by
  obtain ⟨esl, hesl, rfl⟩ := (isWhiteSpace_iff l).mp hl
  obtain ⟨esr, hesr, rfl⟩ := (isWhiteSpace_iff r).mp hr
  obtain ⟨⟨c, t, hct, hc⟩, ⟨d, u, hdu, hd⟩⟩ := validAddress_ends addr ha
  have hleft : stripSpaceLeft (addr ++ esr.flatten) = none := by
    rw [hct, List.cons_append]
    exact stripSpaceLeft_hex c _ hc
  have hright : stripSpaceRight addr = none := by
    rw [hdu]
    exact stripSpaceRight_hex d _ hd
  have h1 : stripAll stripSpaceLeft (esl.flatten ++ addr ++ esr.flatten).length
      (esl.flatten ++ addr ++ esr.flatten) = addr ++ esr.flatten := by
    rw [List.append_assoc]
    refine stripAll_left_join esl _ _ hesl hleft ?_
    have := join_length_ge esl hesl
    simp only [List.length_append]
    omega
  unfold TrimSpace
  simp only [h1]
  refine stripAll_right_join esr _ _ hesr hright ?_
  have := join_length_ge esr hesr
  simp only [List.length_append]
  omega

theorem TrimSpace_parts (s : GoString) :
    ∃ l r, IsWhiteSpace l ∧ IsWhiteSpace r ∧ s = l ++ TrimSpace s ++ r := by
  obtain ⟨esl, hesl, h1⟩ := stripAll_left_decompose s.length s
  obtain ⟨esr, hesr, h2⟩ := stripAll_right_decompose
    (stripAll stripSpaceLeft s.length s).length (stripAll stripSpaceLeft s.length s)
  refine ⟨esl.flatten, esr.flatten, (isWhiteSpace_iff _).mpr ⟨esl, hesl, rfl⟩,
    (isWhiteSpace_iff _).mpr ⟨esr, hesr, rfl⟩, ?_⟩
  unfold TrimSpace
  simp only
  rw [List.append_assoc, ← h2, ← h1]

theorem IsHexAddress_iff (a : GoString) : IsHexAddress a = true ↔ ValidAddress a := by
  have x0 : lit "0x" = [48, 120] := by decide
  have x1 : lit "0X" = [48, 88] := by decide
  have nx : (120 : UInt8) ∉ lit "0123456789abcdefABCDEF" := by decide
  have nX : (88 : UInt8) ∉ lit "0123456789abcdefABCDEF" := by decide
  have hall : ∀ t : GoString, t.length = 40 →
      (isHex t = true ↔ ∀ c ∈ t, c ∈ lit "0123456789abcdefABCDEF") := by
    intro t ht
    unfold isHex
    have : ¬ (t.length % 2 ≠ 0) := by rw [ht]; decide
    rw [if_neg this, List.all_eq_true]
    exact ⟨fun h c hc => (isHexCharacter_iff c).mp (h c hc),
      fun h c hc => (isHexCharacter_iff c).mpr (h c hc)⟩
  unfold IsHexAddress ValidAddress AddressLength
  simp only [Bool.and_eq_true, decide_eq_true_eq]
  constructor
  · rintro ⟨hlen, hhex⟩
    by_cases hp : has0xPrefix a = true
    · rw [if_pos hp] at hlen hhex
      match a, hp with
      | c0 :: c1 :: rest, hp =>
        simp only [has0xPrefix, Bool.and_eq_true, Bool.or_eq_true, decide_eq_true_eq] at hp
        simp only [List.drop_succ_cons, List.drop_zero] at hlen hhex
        refine ⟨rest, ?_, hlen, (hall rest hlen).mp hhex⟩
        rcases hp with ⟨rfl, rfl | rfl⟩
        · right; left; rw [x0]; rfl
        · right; right; rw [x1]; rfl
    · rw [if_neg hp] at hlen hhex
      exact ⟨a, Or.inl rfl, hlen, (hall a hlen).mp hhex⟩
  · rintro ⟨h, ha, hlen, hhex⟩
    rcases ha with rfl | rfl | rfl
    · have hp : has0xPrefix a = false := by
        match a, hlen, hhex with
        | [], hlen, _ => simp at hlen
        | [_], hlen, _ => simp at hlen
        | c0 :: c1 :: rest, _, hhex =>
          have h1 := hhex c1 (by simp)
          simp only [has0xPrefix, Bool.and_eq_false_imp, Bool.or_eq_false_iff,
            decide_eq_true_eq, decide_eq_false_iff_not]
          intro _
          constructor
          · intro e; rw [e] at h1; exact nx h1
          · intro e; rw [e] at h1; exact nX h1
      rw [hp]
      simp only [Bool.false_eq_true, if_false]
      exact ⟨hlen, (hall a hlen).mpr hhex⟩
    · rw [x0]
      simp only [List.cons_append, List.nil_append, has0xPrefix, decide_True, Bool.true_or,
        Bool.and_self, if_true, List.drop_succ_cons, List.drop_zero]
      exact ⟨hlen, (hall h hlen).mpr hhex⟩
    · rw [x1]
      simp only [List.cons_append, List.nil_append, has0xPrefix, decide_True, Bool.or_true,
        Bool.and_self, if_true, List.drop_succ_cons, List.drop_zero]
      exact ⟨hlen, (hall h hlen).mpr hhex⟩

/-- The loop body of `OpenAddressesFromEnv` yields a target for an entry exactly when the
entry is one in the sense of the specification, and then yields that target. -/
theorem registryEntry_iff (p env : GoString) (w : Watching) :
    registryEntry p env = some w ↔ IsWatchTarget p env w := by
  have heq : lit "=" = [61] := by decide
  constructor
  · intro h
    unfold registryEntry at h
    split at h
    · rename_i key value hsplit
      split at h
      · rename_i hcond
        obtain ⟨hpre, haddr⟩ := hcond
        obtain ⟨henv, hkey⟩ := (SplitN2_eq_pair env key value).mp hsplit
        obtain ⟨l, r, hl, hr, hval⟩ := TrimSpace_parts value
        refine ⟨key.take p.length, key.drop p.length, l, TrimSpace value, r, ?_, ?_,
          (ToLower_eq_iff _ _).mp hpre, hl, hr, (IsHexAddress_iff _).mp haddr, ?_⟩
        · rw [List.take_append_drop, heq, henv]
          conv_lhs => rw [hval]
          simp only [List.append_assoc, List.singleton_append]
          rfl
        · rw [List.take_append_drop]
          exact hkey
        · simp only [Option.some.injEq] at h
          exact h.symm
      · cases h
    · cases h
  · rintro ⟨pre, name, l, addr, r, henv, hkey, hpre, hl, hr, ha, rfl⟩
    have hlen : pre.length = p.length := hpre.length_eq
    have hsplit : SplitN2 env = [pre ++ name, l ++ addr ++ r] := by
      rw [henv, heq]
      simp only [List.append_assoc, List.singleton_append]
      have := SplitN2_of_eq (pre ++ name) (l ++ (addr ++ r)) hkey
      simpa only [List.append_assoc] using this
    have htake : (pre ++ name).take p.length = pre := by
      rw [← hlen, List.take_left]
    have hdrop : (pre ++ name).drop p.length = name := by
      rw [← hlen, List.drop_left]
    have htrim := TrimSpace_of_parts l addr r hl hr ha
    unfold registryEntry
    rw [hsplit]
    simp only [htake, hdrop, htrim]
    rw [if_pos ⟨(ToLower_eq_iff _ _).mpr hpre, (IsHexAddress_iff _).mpr ha⟩]

/-- C3: for every listing and the default prefix (given as `ethaddr_` or left empty), the
targets `OpenAddressesFromEnv` appends to the registry are, in listing order, those of the
entries that yield one: the entries `key=value` whose key starts with a case variant of the
prefix and whose value, with the white space around it removed, is a valid address. The
target has the rest of the key as name, the trimmed value as address, balances `"0"` and zero
counters, and every other entry adds nothing. On a listing with entries of every kind the
call appends the targets `Carol` and the one with the empty name. -/
theorem OpenAddressesFromEnv_targets (environ : List GoString) (allWatching : List Watching) :
    (∃ f : GoString → Option Watching,
      (∀ env w, f env = some w ↔ IsWatchTarget defaultPrefix env w) ∧
      (OpenAddressesFromEnv defaultPrefix environ allWatching).1
        = allWatching ++ environ.filterMap f ∧
      (OpenAddressesFromEnv [] environ allWatching).1
        = allWatching ++ environ.filterMap f) ∧
    (OpenAddressesFromEnv defaultPrefix mixedListing []).1.map
        (fun w => [asText w.Name, asText w.Address, asText w.Balance, asText w.BalancePending])
      = [ ["Carol", "0X8617E340B3D01FA5F11F306F4090FD50E238070D", "0", "0"],
          ["", "de709f2102306220921060314715629080e2fb77", "0", "0"] ] ∧
    (OpenAddressesFromEnv defaultPrefix mixedListing []).1.map
        (fun w => (w.Nonce, w.NoncePending, w.IsContract, w.CodeSize, w.LastUpdated))
      = [ (0, 0, false, 0, 0), (0, 0, false, 0, 0) ] := by
  refine ⟨⟨registryEntry defaultPrefix, registryEntry_iff defaultPrefix, ?_⟩, by decide!,
    by decide!⟩
  rw [OpenAddressesFromEnv_nil, OpenAddressesFromEnv_eq _ defaultPrefix_ne_nil]
  exact ⟨rfl, rfl⟩

/-- C4: for every listing, `OpenAddressesFromEnv` with the default prefix returns an error
exactly when no entry of the listing has a key matching the prefix and a valid trimmed value,
and in that case the registry is what it was before the call. -/
theorem OpenAddressesFromEnv_error_iff (environ : List GoString) (allWatching : List Watching) :
    ((OpenAddressesFromEnv defaultPrefix environ allWatching).2 ≠ none ↔
      ∀ env ∈ environ, registryEntry defaultPrefix env = none) ∧
    ((OpenAddressesFromEnv defaultPrefix environ allWatching).2 ≠ none →
      (OpenAddressesFromEnv defaultPrefix environ allWatching).1 = allWatching) := by
  rw [OpenAddressesFromEnv_eq _ defaultPrefix_ne_nil]
  have key : environ.filterMap (registryEntry defaultPrefix) = [] ↔
      ∀ env ∈ environ, registryEntry defaultPrefix env = none := by
    simp [List.filterMap_eq_nil_iff]
  by_cases h : environ.filterMap (registryEntry defaultPrefix) = []
  · simp only [h, if_true]
    exact ⟨⟨fun _ => key.mp h, fun _ => by simp⟩, fun _ => by simp⟩
  · have h2 : ¬ ∀ env ∈ environ, registryEntry defaultPrefix env = none := fun hh => h (key.mpr hh)
    simp [h, h2]

/-- C4 at the specification's listing, which has no valid entry: the load returns an error
and the registry is unchanged. -/
theorem OpenAddressesFromEnv_error_iff_witness :
    (OpenAddressesFromEnv defaultPrefix specListing [sampleWatching]).2 ≠ none ∧
    (OpenAddressesFromEnv defaultPrefix specListing [sampleWatching]).1 = [sampleWatching] :=
  have hne : (OpenAddressesFromEnv defaultPrefix specListing [sampleWatching]).2 ≠ none := by
    decide!
  ⟨hne, (OpenAddressesFromEnv_error_iff specListing [sampleWatching]).2 hne⟩

/-! ## Theorems: the sweep -/

theorem sum_map_set (f : Phase → Nat) (l : List Phase) (k : Nat) (a b : Phase)
    (h : l[k]? = some a) :
    ((l.set k b).map f).sum + f a = (l.map f).sum + f b := by
  induction l generalizing k with
  | nil => simp at h
  | cons x xs ih =>
    cases k with
    | zero =>
      simp only [List.getElem?_cons_zero, Option.some.injEq] at h
      subst h
      simp only [List.set_cons_zero, List.map_cons, List.sum_cons]
      omega
    | succ k =>
      simp only [List.getElem?_cons_succ] at h
      have := ih k h
      simp only [List.set_cons_succ, List.map_cons, List.sum_cons]
      omega

theorem inFlight_le_holdsSlot (l : List Phase) :
    l.countP (fun p => p = Phase.updating) ≤ (l.map Phase.holdsSlot).sum := by
  induction l with
  | nil => simp
  | cons x xs ih =>
    cases x <;> simp [List.countP_cons, Phase.holdsSlot] <;> omega

theorem counted_sum_eq_zero (l : List Phase) (h : (l.map Phase.counted).sum = 0) :
    ∀ p ∈ l, p = Phase.exited := by
  induction l with
  | nil => simp
  | cons x xs ih =>
    simp only [List.map_cons, List.sum_cons] at h
    intro p hp
    rcases List.mem_cons.mp hp with rfl | hp
    · cases p <;> simp [Phase.counted] at h ⊢
    · exact ih (by omega) p hp

theorem SweepInv_init (n : Nat) : SweepInv n Sweep.init := by
  constructor <;> simp [Sweep.init, concurrency]

theorem SweepInv_mainStep (n : Nat) (s : Sweep) (h : SweepInv n s) :
    SweepInv n (mainStep n s) := by
  obtain ⟨hlen, hbound, hsem, hsle, hwg, hmid, hfin, hdone⟩ := h
  unfold mainStep
  cases hpc : s.pc with
  | loopHead =>
    simp only [hpc, reduceCtorEq, if_false, or_self, add_zero] at hsem hwg
    by_cases hlt : s.next < n
    · simp only [hlt, if_true]
      constructor <;> (try simp only [hpc, reduceCtorEq, if_false, if_true, or_false, false_or,
        or_true, true_or, or_self, add_zero, false_implies, true_implies, implies_true,
        List.length_append, List.length_singleton, List.map_append, List.map_cons,
        List.map_nil, List.sum_append, List.sum_cons, List.sum_nil, Phase.holdsSlot,
        Phase.counted, Nat.cast_add, Nat.cast_one]) <;> first | assumption | omega
    · simp only [hlt, if_false]
      have hn : s.next = n := by omega
      constructor <;> (try simp only [hpc, reduceCtorEq, if_false, if_true, or_false, false_or,
        or_true, true_or, or_self, add_zero, false_implies, true_implies, implies_true,
        List.length_append, List.length_singleton, List.map_append, List.map_cons,
        List.map_nil, List.sum_append, List.sum_cons, List.sum_nil, Phase.holdsSlot,
        Phase.counted, Nat.cast_add, Nat.cast_one]) <;> assumption
  | send =>
    simp only [hpc, reduceCtorEq, if_false, true_or, if_true, add_zero] at hsem hwg
    have hm := hmid (Or.inl hpc)
    by_cases hlt : s.sem < concurrency
    · simp only [hlt, if_true]
      constructor <;> (try simp only [hpc, reduceCtorEq, if_false, if_true, or_false, false_or,
        or_true, true_or, or_self, add_zero, false_implies, true_implies, implies_true,
        List.length_append, List.length_singleton, List.map_append, List.map_cons,
        List.map_nil, List.sum_append, List.sum_cons, List.sum_nil, Phase.holdsSlot,
        Phase.counted, Nat.cast_add, Nat.cast_one]) <;> first | assumption | omega
    · simp only [hlt, if_false]
      constructor <;> (try simp only [hpc, reduceCtorEq, if_false, if_true, or_false, false_or,
        or_true, true_or, or_self, add_zero, false_implies, true_implies, implies_true,
        List.length_append, List.length_singleton, List.map_append, List.map_cons,
        List.map_nil, List.sum_append, List.sum_cons, List.sum_nil, Phase.holdsSlot,
        Phase.counted, Nat.cast_add, Nat.cast_one]) <;> assumption
  | spawn =>
    simp only [hpc, if_true, or_true] at hsem hwg
    have hm := hmid (Or.inr hpc)
    simp only
    constructor <;> (try simp only [hpc, reduceCtorEq, if_false, if_true, or_false, false_or,
        or_true, true_or, or_self, add_zero, false_implies, true_implies, implies_true,
        List.length_append, List.length_singleton, List.map_append, List.map_cons,
        List.map_nil, List.sum_append, List.sum_cons, List.sum_nil, Phase.holdsSlot,
        Phase.counted, Nat.cast_add, Nat.cast_one]) <;> first | assumption | omega
  | wait =>
    simp only [hpc, reduceCtorEq, if_false, or_self, add_zero] at hsem hwg
    have hn := hfin (Or.inl hpc)
    by_cases hz : s.wg = 0
    · simp only [hz, if_true]
      have hall : ∀ p ∈ s.tasks, p = Phase.exited :=
        counted_sum_eq_zero s.tasks (by omega)
      constructor <;> (try simp only [hpc, reduceCtorEq, if_false, if_true, or_false, false_or,
        or_true, true_or, or_self, add_zero, false_implies, true_implies, implies_true,
        List.length_append, List.length_singleton, List.map_append, List.map_cons,
        List.map_nil, List.sum_append, List.sum_cons, List.sum_nil, Phase.holdsSlot,
        Phase.counted, Nat.cast_add, Nat.cast_one]) <;> first | assumption | omega
    · simp only [hz, if_false]
      constructor <;> (try simp only [hpc, reduceCtorEq, if_false, if_true, or_false, false_or,
        or_true, true_or, or_self, add_zero, false_implies, true_implies, implies_true,
        List.length_append, List.length_singleton, List.map_append, List.map_cons,
        List.map_nil, List.sum_append, List.sum_cons, List.sum_nil, Phase.holdsSlot,
        Phase.counted, Nat.cast_add, Nat.cast_one]) <;> assumption
  | returned =>
    simp only
    exact ⟨hlen, hbound, hsem, hsle, hwg, hmid, hfin, hdone⟩

theorem SweepInv_taskStep (n k : Nat) (s : Sweep) (h : SweepInv n s) :
    SweepInv n (taskStep k s) := by
  obtain ⟨hlen, hbound, hsem, hsle, hwg, hmid, hfin, hdone⟩ := h
  have hmem : ∀ a, s.tasks[k]? = some a → a ∈ s.tasks := fun a ha =>
    List.getElem?_mem ha
  unfold taskStep
  split
  · rename_i heq
    have h1 := sum_map_set Phase.holdsSlot s.tasks k _ Phase.updating heq
    have h2 := sum_map_set Phase.counted s.tasks k _ Phase.updating heq
    simp only [Phase.holdsSlot, Phase.counted] at h1 h2
    constructor <;> simp only [List.length_set] <;>
      first
      | assumption
      | omega
      | (intro hp; exact absurd (hdone hp _ (hmem _ heq)) (by decide))
  · rename_i heq
    have h1 := sum_map_set Phase.holdsSlot s.tasks k _ Phase.releasing heq
    have h2 := sum_map_set Phase.counted s.tasks k _ Phase.releasing heq
    simp only [Phase.holdsSlot, Phase.counted] at h1 h2
    constructor <;> simp only [List.length_set] <;>
      first
      | assumption
      | omega
      | (intro hp; exact absurd (hdone hp _ (hmem _ heq)) (by decide))
  · rename_i heq
    have h1 := sum_map_set Phase.holdsSlot s.tasks k _ Phase.signalling heq
    have h2 := sum_map_set Phase.counted s.tasks k _ Phase.signalling heq
    simp only [Phase.holdsSlot, Phase.counted] at h1 h2
    by_cases hpos : 0 < s.sem
    · simp only [hpos, if_true]
      constructor <;> simp only [List.length_set] <;>
        first
        | assumption
        | omega
        | (intro hp; exact absurd (hdone hp _ (hmem _ heq)) (by decide))
    · simp only [hpos, if_false]
      exact ⟨hlen, hbound, hsem, hsle, hwg, hmid, hfin, hdone⟩
  · rename_i heq
    have h1 := sum_map_set Phase.holdsSlot s.tasks k _ Phase.exited heq
    have h2 := sum_map_set Phase.counted s.tasks k _ Phase.exited heq
    simp only [Phase.holdsSlot, Phase.counted] at h1 h2
    constructor <;> simp only [List.length_set] <;>
      first
      | assumption
      | omega
      | (intro hp; exact absurd (hdone hp _ (hmem _ heq)) (by decide))
  · exact ⟨hlen, hbound, hsem, hsle, hwg, hmid, hfin, hdone⟩
  · exact ⟨hlen, hbound, hsem, hsle, hwg, hmid, hfin, hdone⟩

theorem SweepInv_run (n : Nat) (events : List Event) (s : Sweep) (h : SweepInv n s) :
    SweepInv n (run n s events) := by
  induction events generalizing s with
  | nil => exact h
  | cons e es ih =>
    unfold run
    rw [List.foldl_cons]
    apply ih
    cases e with
    | main => exact SweepInv_mainStep n s h
    | task k => exact SweepInv_taskStep n k s h

/-- C10: in every state any schedule leads to in a sweep over `n` targets, at most
`concurrency` (8) goroutines are inside `UpdateAddressMetrics`; and when the sweeping
goroutine is past `wg.Wait()`, a goroutine was spawned for each of the `n` targets and every
one of them has finished. -/
theorem sweep_bounded_and_joined (n : Nat) (events : List Event) :
    (run n Sweep.init events).inFlight ≤ concurrency ∧
    ((run n Sweep.init events).pc = MainPc.returned →
      (run n Sweep.init events).tasks.length = n ∧
      ∀ p ∈ (run n Sweep.init events).tasks, p = Phase.exited) := by
  have h := SweepInv_run n events Sweep.init (SweepInv_init n)
  refine ⟨?_, fun hp => ⟨?_, h.done hp⟩⟩
  · have h1 := inFlight_le_holdsSlot (run n Sweep.init events).tasks
    have h2 := h.sem_eq
    have h3 := h.sem_le
    unfold Sweep.inFlight
    omega
  · rw [h.len]
    exact h.fin (Or.inr hp)

/-- C10 at nine targets: after `fillSchedule` eight goroutines are inside
`UpdateAddressMetrics` and the sweeping goroutine waits at the send; after `drainSchedule`
the sweep is past `wg.Wait()` with all nine goroutines finished. -/
theorem sweep_bounded_and_joined_witness :
    (run 9 Sweep.init fillSchedule).inFlight = 8 ∧
    (run 9 Sweep.init fillSchedule).pc = MainPc.send ∧
    (run 9 Sweep.init (fillSchedule ++ drainSchedule)).pc = MainPc.returned ∧
    (run 9 Sweep.init (fillSchedule ++ drainSchedule)).tasks.length = 9 ∧
    ∀ p ∈ (run 9 Sweep.init (fillSchedule ++ drainSchedule)).tasks, p = Phase.exited :=
  have hret : (run 9 Sweep.init (fillSchedule ++ drainSchedule)).pc = MainPc.returned := by
    decide!
  ⟨by decide!, by decide!, hret,
    ((sweep_bounded_and_joined 9 (fillSchedule ++ drainSchedule)).2 hret).1,
    ((sweep_bounded_and_joined 9 (fillSchedule ++ drainSchedule)).2 hret).2⟩

end Ethexporter
